import Mathlib

/-!
# Verification of `FibonacciHeap.py`

A shallow embedding of the Fibonacci heap implementation in
`src/FibonacciHeap.py` (pointer-based, CLRS style), together with proofs and
refutations of the specification's claims about it.

Modelling choices:
* Python `Element` objects live in a single growing store `Mem := List Elem`;
  a node reference is its index (`Nat`) in that store.  This matches Python's
  heap memory: objects are never deallocated, and several `FibonacciHeap`
  instances can hold references into the same memory (needed for `merge`).
* A `FibonacciHeap` instance is `Heap := {_size, _min}`, exactly the two
  attributes of the Python class.
* Priorities are the numbers the code actually uses: ordinary numbers plus
  `-np.inf` (used by `delete`), embedded as `Priority := negInf | fin (v:Int)`
  with the IEEE order (`-inf <= -inf` is true).
* Attribute reads on a *valid* object are total (`getN` with a default that is
  never consulted in well-formed states); dereferencing `None` (Python
  `AttributeError`), a failing `assert`, or an out-of-range list index is a
  crash, modelled by `none` / `Res.crash`.  A raised `ValueError` is
  `Res.verr`, carrying the memory at raise time (the heap is untouched by an
  escaping exception).
* Python's `while` loops run on fuel `s.length + 1`; in states whose rings are
  well formed the fuel is never exhausted, and all claim statements either
  prove success or are conditioned on the operation returning normally.
* Multiple assignment (`a, b, c = x, y, z`) is translated exactly:
  right-hand sides first, then the targets one at a time, left to right.
-/

/-- Priority values: IEEE-like numbers with `-np.inf` (`delete` uses it). -/
inductive Priority where
  | negInf : Priority
  | fin : Int → Priority
deriving DecidableEq, Repr

/-- `a <= b` on priorities (IEEE semantics: `-inf <= x` always holds). -/
def Priority.le : Priority → Priority → Bool
  | .negInf, _ => true
  | .fin _, .negInf => false
  | .fin a, .fin b => a ≤ b

/-- `a < b` on priorities; total order, so `a < b ↔ ¬ (b <= a)`. -/
def Priority.lt (a b : Priority) : Bool := !(Priority.le b a)

/-- The fields of the Python `Element` class (`obj`, `priority`, `left`,
`right`, `parent`, `child`, `degree`, `mark`).  `left`/`right` always hold an
object reference in the source (a node is its own sibling initially), so they
are plain indices; `parent`/`child` can be Python `None`. -/
structure Elem where
  obj : Nat
  priority : Priority
  left : Nat
  right : Nat
  parent : Option Nat
  child : Option Nat
  degree : Nat
  mark : Bool
deriving DecidableEq, Repr

/-- Python heap memory: the `Element` objects ever allocated, by index. -/
abbrev Mem := List Elem

/-- Default element; only consulted on reads that Python could never perform
(an index that was never allocated). -/
def dfltElem : Elem := ⟨0, .fin 0, 0, 0, none, none, 0, false⟩

/-- Read the object at reference `i` (total: a valid reference always
dereferences in Python; invalid indices have no Python counterpart). -/
def getN (s : Mem) (i : Nat) : Elem := s.getD i dfltElem

/-- Overwrite one attribute of the object at `i`. -/
def updN (s : Mem) (i : Nat) (f : Elem → Elem) : Mem := s.set i (f (getN s i))

def setLeftN (s : Mem) (i v : Nat) : Mem := updN s i fun e => { e with left := v }

def setRightN (s : Mem) (i v : Nat) : Mem := updN s i fun e => { e with right := v }

def setParentN (s : Mem) (i : Nat) (v : Option Nat) : Mem := updN s i fun e => { e with parent := v }

def setChildN (s : Mem) (i : Nat) (v : Option Nat) : Mem := updN s i fun e => { e with child := v }

def setDegreeN (s : Mem) (i v : Nat) : Mem := updN s i fun e => { e with degree := v }

def setMarkN (s : Mem) (i : Nat) (v : Bool) : Mem := updN s i fun e => { e with mark := v }

def setPriorityN (s : Mem) (i : Nat) (v : Priority) : Mem := updN s i fun e => { e with priority := v }

/-- Field projections, used to state invariants. -/
def prioF (s : Mem) (i : Nat) : Priority := (getN s i).priority

def objF (s : Mem) (i : Nat) : Nat := (getN s i).obj

def leftF (s : Mem) (i : Nat) : Nat := (getN s i).left

def rightF (s : Mem) (i : Nat) : Nat := (getN s i).right

def parF (s : Mem) (i : Nat) : Option Nat := (getN s i).parent

def childF (s : Mem) (i : Nat) : Option Nat := (getN s i).child

def degF (s : Mem) (i : Nat) : Nat := (getN s i).degree

def markF (s : Mem) (i : Nat) : Bool := (getN s i).mark

/-- The two attributes of a Python `FibonacciHeap` instance. -/
structure Heap where
  _size : Nat
  _min : Option Nat
deriving DecidableEq, Repr

/-- Outcome of an operation that can raise `ValueError`: normal return,
escaped `ValueError` (with the memory/heap at raise time), or a crash
(`AttributeError` / failed `assert` / `IndexError`). -/
inductive Res (α : Type) where
  | ok : α → Res α
  | verr : α → Res α
  | crash : Res α
deriving DecidableEq, Repr

namespace FibonacciHeap

/-- `FibonacciHeap.__init__`: empty heap. -/
def empty : Heap := ⟨0, none⟩

/-- `FibonacciHeap._doublylinkedlist_insert(head, y)`. -/
def doublylinkedlist_insert (s : Mem) (head : Option Nat) (y : Nat) : Mem :=
  match head with
  | none => s
  | some head =>
    let tail := (getN s head).right
    -- tail.left, head.right, y.left, y.right = y, y, head, tail
    let s := setLeftN s tail y
    let s := setRightN s head y
    let s := setLeftN s y head
    setRightN s y tail

/-- `FibonacciHeap._insert_to_root_list(elem)`. -/
def insert_to_root_list (s : Mem) (h : Heap) (elem : Nat) : Mem × Heap :=
  let s := if (getN s elem).parent ≠ none then setParentN s elem none else s
  match h._min with
  | some _ => (doublylinkedlist_insert s h._min elem, h)
  | none => (s, { h with _min := some elem })

/-- `FibonacciHeap.insert(x, priority)`; returns the reference to the new
node (its index = old memory length). -/
def insert (s : Mem) (h : Heap) (x : Nat) (priority : Priority) : Mem × Heap × Nat :=
  let elem : Nat := s.length
  let s := s ++ [⟨x, priority, elem, elem, none, none, 0, false⟩]
  let (s, h) := insert_to_root_list s h elem
  let h :=
    match h._min with
    | none => { h with _min := some elem }
    | some m =>
      if Priority.lt (getN s elem).priority (getN s m).priority then
        { h with _min := some elem }
      else h
  (s, { h with _size := h._size + 1 }, elem)

/-- `FibonacciHeap.min()`. -/
def min (h : Heap) : Option Nat := h._min

/-- `FibonacciHeap.size()`. -/
def size (h : Heap) : Nat := h._size

/-- `FibonacciHeap._clear()`. -/
def clear (h : Heap) : Heap := { h with _min := none, _size := 0 }

/-- `FibonacciHeap._remove_from_root_list(z)` (crash = the `assert`). -/
def remove_from_root_list (s : Mem) (h : Heap) (z : Nat) : Option (Mem × Heap) :=
  if (getN s z).parent ≠ none then none
  else if (getN s z).right = z then some (s, { h with _min := none })
  else
    let h := if h._min = some z then { h with _min := some ((getN s z).right) } else h
    -- z.left.right = z.right
    let s := setRightN s ((getN s z).left) ((getN s z).right)
    -- z.right.left = z.left
    let s := setLeftN s ((getN s z).right) ((getN s z).left)
    -- z.left = z.right = z
    let s := setLeftN s z z
    let s := setRightN s z z
    some (s, h)

/-- `FibonacciHeap._heap_link(y, x)`: `y` becomes a child of `x`. -/
def heap_link (s : Mem) (y x : Nat) : Mem :=
  let s :=
    match (getN s x).child with
    | some c => doublylinkedlist_insert s (some c) y
    | none => setChildN s x (some y)
  let s := setParentN s y (some x)
  let s := setDegreeN s x ((getN s x).degree + 1)
  setMarkN s y false

/-- `FibonacciHeap._cut(x, y)` (crash = the `assert x.parent == y`). -/
def cut (s : Mem) (h : Heap) (x y : Nat) : Option (Mem × Heap) :=
  if (getN s x).parent ≠ some y then none
  else
    let s :=
      if (getN s x).right = x then setChildN s y none
      else
        -- y.child = x.right
        let s := setChildN s y (some ((getN s x).right))
        -- x.right.parent = y
        let s := setParentN s ((getN s x).right) (some y)
        -- x.right.left = x.left
        let s := setLeftN s ((getN s x).right) ((getN s x).left)
        -- x.left.right = x.right
        let s := setRightN s ((getN s x).left) ((getN s x).right)
        s
    let (s, h) := insert_to_root_list s h x
    let s := setDegreeN s y ((getN s y).degree - 1)
    let s := setMarkN s x false
    some (s, h)

/-- `FibonacciHeap._cascading_cut(y)`, with fuel for the recursion. -/
def cascading_cut : Nat → Mem → Heap → Nat → Option (Mem × Heap)
  | 0, _, _, _ => none
  | fuel + 1, s, h, y =>
    match (getN s y).parent with
    | none => some (s, h)
    | some z =>
      if (getN s y).mark = false then some (setMarkN s y true, h)
      else
        match cut s h y z with
        | none => none
        | some (s, h) => cascading_cut fuel s h z

/-- `FibonacciHeap.decrease_key(x, new_priority)`. -/
def decrease_key (s : Mem) (h : Heap) (x : Nat) (new_priority : Priority) :
    Res (Mem × Heap) :=
  if Priority.le (getN s x).priority new_priority then
    -- the raise formats both priorities with %d; on -np.inf that formatting
    -- itself raises OverflowError, so the ValueError escapes only when both
    -- priorities are finite
    match new_priority, (getN s x).priority with
    | .fin _, .fin _ => .verr (s, h)
    | _, _ => .crash
  else
    let s := setPriorityN s x new_priority
    let step : Option (Mem × Heap) :=
      match (getN s x).parent with
      | some y =>
        if Priority.lt (getN s x).priority (getN s y).priority then
          match cut s h x y with
          | none => none
          | some (s, h) => cascading_cut (s.length + 1) s h y
        else some (s, h)
      | none => some (s, h)
    match step with
    | none => .crash
    | some (s, h) =>
      match h._min with
      | none => .crash  -- AttributeError: None.priority
      | some m =>
        if Priority.lt (getN s x).priority (getN s m).priority then
          .ok (s, { h with _min := some x })
        else .ok (s, h)

/-- Fibonacci numbers (`fibN 0 = 0`, `fibN 1 = 1`), used to decide
`φ^k ≥ n` in integer arithmetic. -/
def fibN : Nat → Nat
  | 0 => 0
  | 1 => 1
  | n + 2 => fibN n + fibN (n + 1)

/-- Decides `φ^k ≥ n` exactly, via `φ^k = fibN k * φ + fibN (k-1)`
(with `fibN (-1) = 1` for `k = 0`):
`a·φ + b ≥ n  ↔  a·√5 ≥ 2n - 2b - a  ↔  m ≤ 0 ∨ 5a² ≥ m²` for `m = 2n-2b-a`. -/
def phiPowGe (k n : Nat) : Bool :=
  let a : Int := fibN k
  let b : Int := if k = 0 then 1 else fibN (k - 1)
  let m : Int := 2 * (n : Int) - 2 * b - a
  m ≤ 0 || 5 * a * a ≥ m * m

/-- `int(np.ceil(np.log(n)/np.log(golden)) + 1)` for `n ≥ 1`: one more than
the least `k` with `φ^k ≥ n` (`log φ^k` is never an exact float for `k ≥ 1`,
so the float ceiling agrees with the exact one). -/
def slots (n : Nat) : Nat :=
  (((List.range (n + 1)).find? fun k => phiPowGe k n).getD n) + 1

/-- The child-promotion loop of `extract_min` (`while True: ...`), with fuel.
`z` is the minimum being extracted, `x` the current child. -/
def promote_children : Nat → Mem → Heap → Nat → Nat → Option (Mem × Heap)
  | 0, _, _, _, _ => none
  | fuel + 1, s, h, z, x =>
    let next_child := (getN s x).right
    let s := setParentN s x none
    let (s, h) := insert_to_root_list s h x
    -- x = next_child; if x == z.child: z.child = None; break
    if (getN s z).child = some next_child then some (setChildN s z none, h)
    else promote_children fuel s h z next_child

/-- `_consolidate`'s first loop: dequeue every root
(`while self._min: q.append(self._min); self._remove_from_root_list(self._min)`). -/
def drain_roots : Nat → Mem → Heap → List Nat → Option (Mem × Heap × List Nat)
  | 0, _, _, _ => none
  | fuel + 1, s, h, q =>
    match h._min with
    | none => some (s, h, q)
    | some m =>
      match remove_from_root_list s h m with
      | none => none
      | some (s, h) => drain_roots fuel s h (q ++ [m])

/-- `_consolidate`'s inner carry loop
(`while array[d] is not None: ...` followed by `array[d] = x`), with fuel.
`arr[d]? = none` is Python's `IndexError`. -/
def link_step : Nat → Mem → List (Option Nat) → Nat → Nat →
    Option (Mem × List (Option Nat))
  | 0, _, _, _, _ => none
  | fuel + 1, s, arr, x, d =>
    match arr[d]? with
    | none => none
    | some none => some (s, arr.set d (some x))
    | some (some y) =>
      -- if x.priority > y.priority: x, y = y, x
      let p := if Priority.lt (getN s y).priority (getN s x).priority then (y, x) else (x, y)
      let x := p.1
      let y := p.2
      let s := heap_link s y x
      link_step fuel s (arr.set d none) x (d + 1)

/-- `_consolidate`'s outer loop over the root queue (`while len(q): ...`). -/
def link_all : List Nat → Mem → List (Option Nat) → Option (Mem × List (Option Nat))
  | [], s, arr => some (s, arr)
  | x :: q, s, arr =>
    match link_step (arr.length + 1) s arr x ((getN s x).degree) with
    | none => none
    | some (s, arr) => link_all q s arr

/-- `_consolidate`'s final loop: put every non-`None` slot back into the
root list and recompute `_min`. -/
def rebuild_roots (s : Mem) (h : Heap) : List (Option Nat) → Mem × Heap
  | [] => (s, h)
  | none :: rest => rebuild_roots s h rest
  | some elem :: rest =>
    match h._min with
    | none => rebuild_roots s { h with _min := some elem } rest
    | some _ =>
      let (s, h) := insert_to_root_list s h elem
      let h :=
        match h._min with
        | some m =>
          if Priority.lt (getN s elem).priority (getN s m).priority then
            { h with _min := some elem }
          else h
        | none => h
      rebuild_roots s h rest

/-- `FibonacciHeap._consolidate()`.  A `_size` of `0` makes
`np.log(self._size)` produce `-inf` and `int(...)` raise, hence crash. -/
def consolidate (s : Mem) (h : Heap) : Option (Mem × Heap) :=
  if h._size = 0 then none
  else
    let arr : List (Option Nat) := List.replicate (slots h._size) none
    match drain_roots (s.length + 1) s h [] with
    | none => none
    | some (s, h, q) =>
      match link_all q s arr with
      | none => none
      | some (s, _arr2) =>
        -- the rebuild loop iterates over the final array contents
        some (rebuild_roots s h _arr2)

/-- `FibonacciHeap.extract_min()`; also returns the reference the Python
method returns (`None` when the heap was empty). -/
def extract_min (s : Mem) (h : Heap) : Option (Mem × Heap × Option Nat) :=
  match h._min with
  | none => some (s, h, none)
  | some z =>
    let step1 : Option (Mem × Heap) :=
      match (getN s z).child with
      | none => some (s, h)
      | some x => promote_children (s.length + 1) s h z x
    match step1 with
    | none => none
    | some (s, h) =>
      let step2 : Option (Mem × Heap) :=
        if (getN s z).right = z then
          remove_from_root_list s { h with _min := none } z
        else
          match remove_from_root_list s { h with _min := some ((getN s z).right) } z with
          | none => none
          | some (s, h) => consolidate s h
      match step2 with
      | none => none
      | some (s, h) => some (s, { h with _size := h._size - 1 }, some z)

/-- `FibonacciHeap.delete(x)`: `decrease_key(x, -np.inf)` then
`extract_min()`. -/
def delete (s : Mem) (h : Heap) (x : Nat) : Res (Mem × Heap) :=
  match decrease_key s h x .negInf with
  | .verr sh => .verr sh
  | .crash => .crash
  | .ok (s, h) =>
    match extract_min s h with
    | none => .crash
    | some (s, h, _) => .ok (s, h)

/-- `FibonacciHeap.merge(heap)`: `self` is `(s, h)`, the argument heap is
`heap` (same memory).  Returns the new states of both heaps.  Crash =
`min_two.right` with `min_two = None` (`AttributeError`). -/
def merge (s : Mem) (h : Heap) (heap : Heap) : Option (Mem × Heap × Heap) :=
  let min_one := h._min
  let min_two := heap._min
  let step1 : Option (Mem × Heap) :=
    match min_one with
    | some m1 =>
      match min_two with
      | none => none
      | some m2 =>
        let min_one_right := (getN s m1).right
        if (getN s m2).right ≠ m2 then
          -- min_one.right, min_two.right.left, min_two.right, min_one_right.left
          --   = min_two.right, min_one, min_one_right, min_two
          let r1 := (getN s m2).right
          let s := setRightN s m1 r1
          let s := setLeftN s ((getN s m2).right) m1
          let s := setRightN s m2 min_one_right
          let s := setLeftN s min_one_right m2
          some (s, h)
        else some (insert_to_root_list s h m2)
    | none => some (s, { h with _min := min_two })
  match step1 with
  | none => none
  | some (s, h) =>
    some (s, { h with _size := h._size + heap._size }, clear heap)

end FibonacciHeap

/-- The public operations of the heap, for stating invariant preservation
uniformly.  `merge other` merges the heap `other` (same memory) into the
current one. -/
inductive Op where
  | insert (x : Nat) (p : Priority)
  | extractMin
  | decreaseKey (x : Nat) (p : Priority)
  | delete (x : Nat)
  | merge (other : Heap)
deriving DecidableEq, Repr

/-- One public operation on the heap `(s, h)`. -/
def step (s : Mem) (h : Heap) : Op → Res (Mem × Heap)
  | .insert x p => let r := FibonacciHeap.insert s h x p; .ok (r.1, r.2.1)
  | .extractMin =>
    match FibonacciHeap.extract_min s h with
    | none => .crash
    | some (s, h, _) => .ok (s, h)
  | .decreaseKey x p => FibonacciHeap.decrease_key s h x p
  | .delete x => FibonacciHeap.delete s h x
  | .merge other =>
    match FibonacciHeap.merge s h other with
    | none => .crash
    | some (s, h, _) => .ok (s, h)

/-! ## Basic store lemmas -/

theorem length_updN (s : Mem) (i : Nat) (f : Elem → Elem) :
    (updN s i f).length = s.length := by
  simp [updN]

theorem getN_updN (s : Mem) (i : Nat) (f : Elem → Elem) (j : Nat) :
    getN (updN s i f) j = if i = j ∧ j < s.length then f (getN s j) else getN s j := by
  simp only [updN, getN, List.getD, List.get?_eq_getElem?]
  rcases Nat.lt_or_ge j s.length with hj | hj
  · rcases eq_or_ne i j with rfl | hne
    · simp [List.getElem?_set_self hj, hj]
    · simp [List.getElem?_set_ne hne, hne]
  · have h2 : (s.set i (f (s[i]?.getD dfltElem)))[j]? = none := by
      apply List.getElem?_eq_none
      simpa using hj
    have h3 : s[j]? = none := List.getElem?_eq_none hj
    rw [h2, h3]
    have hn : ¬ (i = j ∧ j < s.length) := by omega
    simp [hn]

theorem getN_updN_ne (s : Mem) {i j : Nat} (f : Elem → Elem) (h : i ≠ j) :
    getN (updN s i f) j = getN s j := by
  simp [getN_updN, h]

/-! ## Setter / projection lemmas -/

@[simp] theorem length_setLeftN (s : Mem) (i : Nat) (v : Nat) :
    (setLeftN s i v).length = s.length := by
  simp [setLeftN, length_updN]

@[simp] theorem length_setRightN (s : Mem) (i : Nat) (v : Nat) :
    (setRightN s i v).length = s.length := by
  simp [setRightN, length_updN]

@[simp] theorem length_setParentN (s : Mem) (i : Nat) (v : Option Nat) :
    (setParentN s i v).length = s.length := by
  simp [setParentN, length_updN]

@[simp] theorem length_setChildN (s : Mem) (i : Nat) (v : Option Nat) :
    (setChildN s i v).length = s.length := by
  simp [setChildN, length_updN]

@[simp] theorem length_setDegreeN (s : Mem) (i : Nat) (v : Nat) :
    (setDegreeN s i v).length = s.length := by
  simp [setDegreeN, length_updN]

@[simp] theorem length_setMarkN (s : Mem) (i : Nat) (v : Bool) :
    (setMarkN s i v).length = s.length := by
  simp [setMarkN, length_updN]

@[simp] theorem length_setPriorityN (s : Mem) (i : Nat) (v : Priority) :
    (setPriorityN s i v).length = s.length := by
  simp [setPriorityN, length_updN]

@[simp] theorem prioF_setLeftN (s : Mem) (i : Nat) (v : Nat) (j : Nat) :
    prioF (setLeftN s i v) j = prioF s j := by
  simp only [prioF, setLeftN, getN_updN]
  split <;> rfl

@[simp] theorem prioF_setRightN (s : Mem) (i : Nat) (v : Nat) (j : Nat) :
    prioF (setRightN s i v) j = prioF s j := by
  simp only [prioF, setRightN, getN_updN]
  split <;> rfl

@[simp] theorem prioF_setParentN (s : Mem) (i : Nat) (v : Option Nat) (j : Nat) :
    prioF (setParentN s i v) j = prioF s j := by
  simp only [prioF, setParentN, getN_updN]
  split <;> rfl

@[simp] theorem prioF_setChildN (s : Mem) (i : Nat) (v : Option Nat) (j : Nat) :
    prioF (setChildN s i v) j = prioF s j := by
  simp only [prioF, setChildN, getN_updN]
  split <;> rfl

@[simp] theorem prioF_setDegreeN (s : Mem) (i : Nat) (v : Nat) (j : Nat) :
    prioF (setDegreeN s i v) j = prioF s j := by
  simp only [prioF, setDegreeN, getN_updN]
  split <;> rfl

@[simp] theorem prioF_setMarkN (s : Mem) (i : Nat) (v : Bool) (j : Nat) :
    prioF (setMarkN s i v) j = prioF s j := by
  simp only [prioF, setMarkN, getN_updN]
  split <;> rfl

@[simp] theorem prioF_setPriorityN (s : Mem) (i : Nat) (v : Priority) (j : Nat) :
    prioF (setPriorityN s i v) j = if i = j ∧ j < s.length then v else prioF s j := by
  simp only [prioF, setPriorityN, getN_updN]
  split <;> rfl

@[simp] theorem objF_setLeftN (s : Mem) (i : Nat) (v : Nat) (j : Nat) :
    objF (setLeftN s i v) j = objF s j := by
  simp only [objF, setLeftN, getN_updN]
  split <;> rfl

@[simp] theorem objF_setRightN (s : Mem) (i : Nat) (v : Nat) (j : Nat) :
    objF (setRightN s i v) j = objF s j := by
  simp only [objF, setRightN, getN_updN]
  split <;> rfl

@[simp] theorem objF_setParentN (s : Mem) (i : Nat) (v : Option Nat) (j : Nat) :
    objF (setParentN s i v) j = objF s j := by
  simp only [objF, setParentN, getN_updN]
  split <;> rfl

@[simp] theorem objF_setChildN (s : Mem) (i : Nat) (v : Option Nat) (j : Nat) :
    objF (setChildN s i v) j = objF s j := by
  simp only [objF, setChildN, getN_updN]
  split <;> rfl

@[simp] theorem objF_setDegreeN (s : Mem) (i : Nat) (v : Nat) (j : Nat) :
    objF (setDegreeN s i v) j = objF s j := by
  simp only [objF, setDegreeN, getN_updN]
  split <;> rfl

@[simp] theorem objF_setMarkN (s : Mem) (i : Nat) (v : Bool) (j : Nat) :
    objF (setMarkN s i v) j = objF s j := by
  simp only [objF, setMarkN, getN_updN]
  split <;> rfl

@[simp] theorem objF_setPriorityN (s : Mem) (i : Nat) (v : Priority) (j : Nat) :
    objF (setPriorityN s i v) j = objF s j := by
  simp only [objF, setPriorityN, getN_updN]
  split <;> rfl

@[simp] theorem leftF_setLeftN (s : Mem) (i : Nat) (v : Nat) (j : Nat) :
    leftF (setLeftN s i v) j = if i = j ∧ j < s.length then v else leftF s j := by
  simp only [leftF, setLeftN, getN_updN]
  split <;> rfl

@[simp] theorem leftF_setRightN (s : Mem) (i : Nat) (v : Nat) (j : Nat) :
    leftF (setRightN s i v) j = leftF s j := by
  simp only [leftF, setRightN, getN_updN]
  split <;> rfl

@[simp] theorem leftF_setParentN (s : Mem) (i : Nat) (v : Option Nat) (j : Nat) :
    leftF (setParentN s i v) j = leftF s j := by
  simp only [leftF, setParentN, getN_updN]
  split <;> rfl

@[simp] theorem leftF_setChildN (s : Mem) (i : Nat) (v : Option Nat) (j : Nat) :
    leftF (setChildN s i v) j = leftF s j := by
  simp only [leftF, setChildN, getN_updN]
  split <;> rfl

@[simp] theorem leftF_setDegreeN (s : Mem) (i : Nat) (v : Nat) (j : Nat) :
    leftF (setDegreeN s i v) j = leftF s j := by
  simp only [leftF, setDegreeN, getN_updN]
  split <;> rfl

@[simp] theorem leftF_setMarkN (s : Mem) (i : Nat) (v : Bool) (j : Nat) :
    leftF (setMarkN s i v) j = leftF s j := by
  simp only [leftF, setMarkN, getN_updN]
  split <;> rfl

@[simp] theorem leftF_setPriorityN (s : Mem) (i : Nat) (v : Priority) (j : Nat) :
    leftF (setPriorityN s i v) j = leftF s j := by
  simp only [leftF, setPriorityN, getN_updN]
  split <;> rfl

@[simp] theorem rightF_setLeftN (s : Mem) (i : Nat) (v : Nat) (j : Nat) :
    rightF (setLeftN s i v) j = rightF s j := by
  simp only [rightF, setLeftN, getN_updN]
  split <;> rfl

@[simp] theorem rightF_setRightN (s : Mem) (i : Nat) (v : Nat) (j : Nat) :
    rightF (setRightN s i v) j = if i = j ∧ j < s.length then v else rightF s j := by
  simp only [rightF, setRightN, getN_updN]
  split <;> rfl

@[simp] theorem rightF_setParentN (s : Mem) (i : Nat) (v : Option Nat) (j : Nat) :
    rightF (setParentN s i v) j = rightF s j := by
  simp only [rightF, setParentN, getN_updN]
  split <;> rfl

@[simp] theorem rightF_setChildN (s : Mem) (i : Nat) (v : Option Nat) (j : Nat) :
    rightF (setChildN s i v) j = rightF s j := by
  simp only [rightF, setChildN, getN_updN]
  split <;> rfl

@[simp] theorem rightF_setDegreeN (s : Mem) (i : Nat) (v : Nat) (j : Nat) :
    rightF (setDegreeN s i v) j = rightF s j := by
  simp only [rightF, setDegreeN, getN_updN]
  split <;> rfl

@[simp] theorem rightF_setMarkN (s : Mem) (i : Nat) (v : Bool) (j : Nat) :
    rightF (setMarkN s i v) j = rightF s j := by
  simp only [rightF, setMarkN, getN_updN]
  split <;> rfl

@[simp] theorem rightF_setPriorityN (s : Mem) (i : Nat) (v : Priority) (j : Nat) :
    rightF (setPriorityN s i v) j = rightF s j := by
  simp only [rightF, setPriorityN, getN_updN]
  split <;> rfl

@[simp] theorem parF_setLeftN (s : Mem) (i : Nat) (v : Nat) (j : Nat) :
    parF (setLeftN s i v) j = parF s j := by
  simp only [parF, setLeftN, getN_updN]
  split <;> rfl

@[simp] theorem parF_setRightN (s : Mem) (i : Nat) (v : Nat) (j : Nat) :
    parF (setRightN s i v) j = parF s j := by
  simp only [parF, setRightN, getN_updN]
  split <;> rfl

@[simp] theorem parF_setParentN (s : Mem) (i : Nat) (v : Option Nat) (j : Nat) :
    parF (setParentN s i v) j = if i = j ∧ j < s.length then v else parF s j := by
  simp only [parF, setParentN, getN_updN]
  split <;> rfl

@[simp] theorem parF_setChildN (s : Mem) (i : Nat) (v : Option Nat) (j : Nat) :
    parF (setChildN s i v) j = parF s j := by
  simp only [parF, setChildN, getN_updN]
  split <;> rfl

@[simp] theorem parF_setDegreeN (s : Mem) (i : Nat) (v : Nat) (j : Nat) :
    parF (setDegreeN s i v) j = parF s j := by
  simp only [parF, setDegreeN, getN_updN]
  split <;> rfl

@[simp] theorem parF_setMarkN (s : Mem) (i : Nat) (v : Bool) (j : Nat) :
    parF (setMarkN s i v) j = parF s j := by
  simp only [parF, setMarkN, getN_updN]
  split <;> rfl

@[simp] theorem parF_setPriorityN (s : Mem) (i : Nat) (v : Priority) (j : Nat) :
    parF (setPriorityN s i v) j = parF s j := by
  simp only [parF, setPriorityN, getN_updN]
  split <;> rfl

@[simp] theorem childF_setLeftN (s : Mem) (i : Nat) (v : Nat) (j : Nat) :
    childF (setLeftN s i v) j = childF s j := by
  simp only [childF, setLeftN, getN_updN]
  split <;> rfl

@[simp] theorem childF_setRightN (s : Mem) (i : Nat) (v : Nat) (j : Nat) :
    childF (setRightN s i v) j = childF s j := by
  simp only [childF, setRightN, getN_updN]
  split <;> rfl

@[simp] theorem childF_setParentN (s : Mem) (i : Nat) (v : Option Nat) (j : Nat) :
    childF (setParentN s i v) j = childF s j := by
  simp only [childF, setParentN, getN_updN]
  split <;> rfl

@[simp] theorem childF_setChildN (s : Mem) (i : Nat) (v : Option Nat) (j : Nat) :
    childF (setChildN s i v) j = if i = j ∧ j < s.length then v else childF s j := by
  simp only [childF, setChildN, getN_updN]
  split <;> rfl

@[simp] theorem childF_setDegreeN (s : Mem) (i : Nat) (v : Nat) (j : Nat) :
    childF (setDegreeN s i v) j = childF s j := by
  simp only [childF, setDegreeN, getN_updN]
  split <;> rfl

@[simp] theorem childF_setMarkN (s : Mem) (i : Nat) (v : Bool) (j : Nat) :
    childF (setMarkN s i v) j = childF s j := by
  simp only [childF, setMarkN, getN_updN]
  split <;> rfl

@[simp] theorem childF_setPriorityN (s : Mem) (i : Nat) (v : Priority) (j : Nat) :
    childF (setPriorityN s i v) j = childF s j := by
  simp only [childF, setPriorityN, getN_updN]
  split <;> rfl

@[simp] theorem degF_setLeftN (s : Mem) (i : Nat) (v : Nat) (j : Nat) :
    degF (setLeftN s i v) j = degF s j := by
  simp only [degF, setLeftN, getN_updN]
  split <;> rfl

@[simp] theorem degF_setRightN (s : Mem) (i : Nat) (v : Nat) (j : Nat) :
    degF (setRightN s i v) j = degF s j := by
  simp only [degF, setRightN, getN_updN]
  split <;> rfl

@[simp] theorem degF_setParentN (s : Mem) (i : Nat) (v : Option Nat) (j : Nat) :
    degF (setParentN s i v) j = degF s j := by
  simp only [degF, setParentN, getN_updN]
  split <;> rfl

@[simp] theorem degF_setChildN (s : Mem) (i : Nat) (v : Option Nat) (j : Nat) :
    degF (setChildN s i v) j = degF s j := by
  simp only [degF, setChildN, getN_updN]
  split <;> rfl

@[simp] theorem degF_setDegreeN (s : Mem) (i : Nat) (v : Nat) (j : Nat) :
    degF (setDegreeN s i v) j = if i = j ∧ j < s.length then v else degF s j := by
  simp only [degF, setDegreeN, getN_updN]
  split <;> rfl

@[simp] theorem degF_setMarkN (s : Mem) (i : Nat) (v : Bool) (j : Nat) :
    degF (setMarkN s i v) j = degF s j := by
  simp only [degF, setMarkN, getN_updN]
  split <;> rfl

@[simp] theorem degF_setPriorityN (s : Mem) (i : Nat) (v : Priority) (j : Nat) :
    degF (setPriorityN s i v) j = degF s j := by
  simp only [degF, setPriorityN, getN_updN]
  split <;> rfl

@[simp] theorem markF_setLeftN (s : Mem) (i : Nat) (v : Nat) (j : Nat) :
    markF (setLeftN s i v) j = markF s j := by
  simp only [markF, setLeftN, getN_updN]
  split <;> rfl

@[simp] theorem markF_setRightN (s : Mem) (i : Nat) (v : Nat) (j : Nat) :
    markF (setRightN s i v) j = markF s j := by
  simp only [markF, setRightN, getN_updN]
  split <;> rfl

@[simp] theorem markF_setParentN (s : Mem) (i : Nat) (v : Option Nat) (j : Nat) :
    markF (setParentN s i v) j = markF s j := by
  simp only [markF, setParentN, getN_updN]
  split <;> rfl

@[simp] theorem markF_setChildN (s : Mem) (i : Nat) (v : Option Nat) (j : Nat) :
    markF (setChildN s i v) j = markF s j := by
  simp only [markF, setChildN, getN_updN]
  split <;> rfl

@[simp] theorem markF_setDegreeN (s : Mem) (i : Nat) (v : Nat) (j : Nat) :
    markF (setDegreeN s i v) j = markF s j := by
  simp only [markF, setDegreeN, getN_updN]
  split <;> rfl

@[simp] theorem markF_setMarkN (s : Mem) (i : Nat) (v : Bool) (j : Nat) :
    markF (setMarkN s i v) j = if i = j ∧ j < s.length then v else markF s j := by
  simp only [markF, setMarkN, getN_updN]
  split <;> rfl

@[simp] theorem markF_setPriorityN (s : Mem) (i : Nat) (v : Priority) (j : Nat) :
    markF (setPriorityN s i v) j = markF s j := by
  simp only [markF, setPriorityN, getN_updN]
  split <;> rfl


/-! ## Priority order lemmas -/

theorem Priority.le_refl (a : Priority) : Priority.le a a = true := by
  cases a <;> simp [Priority.le]

theorem Priority.le_trans {a b c : Priority} (h1 : Priority.le a b = true)
    (h2 : Priority.le b c = true) : Priority.le a c = true := by
  cases a <;> cases b <;> cases c <;> simp_all [Priority.le]
  omega

theorem Priority.le_total (a b : Priority) :
    Priority.le a b = true ∨ Priority.le b a = true := by
  cases a <;> cases b <;> simp [Priority.le]
  omega

theorem Priority.le_of_lt {a b : Priority} (h : Priority.lt a b = true) :
    Priority.le a b = true := by
  cases a <;> cases b <;> simp_all [Priority.le, Priority.lt]
  omega

theorem Priority.le_of_not_lt {a b : Priority} (h : Priority.lt a b = false) :
    Priority.le b a = true := by
  simpa [Priority.lt] using h

/-! ## Concrete example states

Two singleton heaps over a shared memory, built by the public API:
heap A = `insert(10, 5)` into a fresh heap, heap B = `insert(20, 3)` into a
second fresh heap. -/

def heapA_setup : Mem × Heap × Nat := FibonacciHeap.insert [] FibonacciHeap.empty 10 (.fin 5)

def heapB_setup : Mem × Heap × Nat :=
  FibonacciHeap.insert heapA_setup.1 FibonacciHeap.empty 20 (.fin 3)

/-- Heap A extended with a second element `insert(30, 7)`. -/
def heapC_setup : Mem × Heap × Nat :=
  FibonacciHeap.insert heapB_setup.1 heapA_setup.2.1 30 (.fin 7)

/-- C1: `merge` never compares the two minima, so after merging two
non-empty heaps the receiver's stale minimum survives: with A = {(10,5)} and
B = {(20,3)}, `A.merge(B)` succeeds but `A.min()` is still the node of
priority 5, although B's pre-merge minimum 3 is strictly smaller. -/
theorem merge_keeps_stale_min :
    FibonacciHeap.min heapA_setup.2.1 = some 0 ∧
    prioF heapB_setup.1 0 = Priority.fin 5 ∧
    FibonacciHeap.min heapB_setup.2.1 = some 1 ∧
    prioF heapB_setup.1 1 = Priority.fin 3 ∧
    Priority.lt (Priority.fin 3) (Priority.fin 5) = true ∧
    (FibonacciHeap.merge heapB_setup.1 heapA_setup.2.1 heapB_setup.2.1).map
        (fun r => (FibonacciHeap.min r.2.1, prioF r.1 0)) =
      some (some 0, Priority.fin 5) := by
  decide

/-- C3: when the receiver is non-empty and the argument heap is empty,
`merge` evaluates `min_two.right` with `min_two = None` and crashes with an
`AttributeError`; so `merge` has the unstated precondition that the argument
heap is non-empty whenever the receiver is. -/
theorem merge_crashes_on_empty_argument (s : Mem) (h hp : Heap) (m : Nat)
    (hm : h._min = some m) (he : hp._min = none) :
    FibonacciHeap.merge s h hp = none := by
  simp [FibonacciHeap.merge, hm, he]

/-- Witness for C3 at a concrete input: A = {(10,5)}, B empty. -/
theorem merge_crashes_on_empty_argument_witness :
    heapA_setup.2.1._min = some 0 ∧ FibonacciHeap.empty._min = none ∧
    FibonacciHeap.merge heapA_setup.1 heapA_setup.2.1 FibonacciHeap.empty = none :=
  ⟨by decide, by decide,
    merge_crashes_on_empty_argument heapA_setup.1 heapA_setup.2.1 FibonacciHeap.empty 0
      (by decide) (by decide)⟩

/-- C6 (counterexample to "for every two heaps"): with A = {(10,5),(30,7)}
non-empty and B empty, `A.merge(B)` crashes, so there is no post-merge state
at all — in particular none in which sizes were added and B was cleared. -/
theorem merge_empty_argument_no_result :
    heapC_setup.2.1._size = 2 ∧ FibonacciHeap.empty._size = 0 ∧
    FibonacciHeap.merge heapC_setup.1 heapC_setup.2.1 FibonacciHeap.empty = none := by
  decide

/-- C6 (amended): whenever the argument heap B is non-empty or the receiver A
is empty, `A.merge(B)` completes, A's new size is the sum of the two
pre-merge sizes, and B is left empty (`size 0`, `min` empty). -/
theorem merge_adds_sizes_and_clears (s : Mem) (h hp : Heap)
    (hpre : hp._min ≠ none ∨ h._min = none) :
    ∃ s' h' hp', FibonacciHeap.merge s h hp = some (s', h', hp') ∧
      h'._size = h._size + hp._size ∧
      hp'._size = 0 ∧ FibonacciHeap.min hp' = none := by
  cases hh : h._min with
  | none =>
    simp only [FibonacciHeap.merge, hh]
    exact ⟨_, _, _, rfl, rfl, rfl, rfl⟩
  | some m1 =>
    cases hhp : hp._min with
    | none =>
      rcases hpre with hne | he
      · exact absurd hhp hne
      · rw [hh] at he
        cases he
    | some m2 =>
      by_cases hr : (getN s m2).right = m2
      · simp only [FibonacciHeap.merge, FibonacciHeap.insert_to_root_list, hh, hhp, hr,
          ne_eq, not_true_eq_false, if_false]
        exact ⟨_, _, _, rfl, rfl, rfl, rfl⟩
      · simp only [FibonacciHeap.merge, hh, hhp, ne_eq, hr, not_false_eq_true, if_true]
        exact ⟨_, _, _, rfl, rfl, rfl, rfl⟩

/-- Witness for C6 (amended) at a concrete input: A = {(10,5)}, B = {(20,3)}. -/
theorem merge_adds_sizes_and_clears_witness :
    ∃ s' h' hp',
      FibonacciHeap.merge heapB_setup.1 heapA_setup.2.1 heapB_setup.2.1 = some (s', h', hp') ∧
      h'._size = heapA_setup.2.1._size + heapB_setup.2.1._size ∧
      hp'._size = 0 ∧ FibonacciHeap.min hp' = none :=
  merge_adds_sizes_and_clears heapB_setup.1 heapA_setup.2.1 heapB_setup.2.1
    (Or.inl (by decide))

/-! ## C10: peekMin over insert-only histories -/

/-- Run a list of `insert(payload, priority)` calls against heap `(s, h)`. -/
def insertList (s : Mem) (h : Heap) : List (Nat × Int) → Mem × Heap
  | [] => (s, h)
  | (x, p) :: rest =>
    let r := FibonacciHeap.insert s h x (.fin p)
    insertList r.1 r.2.1 rest

/-- Run a list of `insert` calls against a fresh empty heap. -/
def insertAll (l : List (Nat × Int)) : Mem × Heap := insertList [] FibonacciHeap.empty l

/-- State invariant of insert-only histories: the size equals the number of
allocated nodes, `_min` is empty iff there are none, and `_min` points to a
node of globally minimal priority. -/
def InsOnly (s : Mem) (h : Heap) : Prop :=
  h._size = s.length ∧
  (h._min = none ↔ s.length = 0) ∧
  ∀ m, h._min = some m → m < s.length ∧
    ∀ i, i < s.length → Priority.le (prioF s m) (prioF s i) = true

theorem getN_append_lt (s : Mem) (e : Elem) {j : Nat} (hj : j < s.length) :
    getN (s ++ [e]) j = getN s j := by
  simp [getN, List.getD, List.getElem?_append_left hj]

theorem getN_append_self (s : Mem) (e : Elem) : getN (s ++ [e]) s.length = e := by
  simp [getN, List.getD, List.getElem?_append_right (Nat.le_refl _)]

@[simp] theorem length_dll (s : Mem) (hd : Option Nat) (y : Nat) :
    (FibonacciHeap.doublylinkedlist_insert s hd y).length = s.length := by
  cases hd <;> simp [FibonacciHeap.doublylinkedlist_insert]

@[simp] theorem prioF_dll (s : Mem) (hd : Option Nat) (y : Nat) (j : Nat) :
    prioF (FibonacciHeap.doublylinkedlist_insert s hd y) j = prioF s j := by
  cases hd <;> simp [FibonacciHeap.doublylinkedlist_insert]

@[simp] theorem length_irl (s : Mem) (h : Heap) (e : Nat) :
    (FibonacciHeap.insert_to_root_list s h e).1.length = s.length := by
  unfold FibonacciHeap.insert_to_root_list
  cases h._min <;> split <;> simp

@[simp] theorem prioF_irl (s : Mem) (h : Heap) (e : Nat) (j : Nat) :
    prioF (FibonacciHeap.insert_to_root_list s h e).1 j = prioF s j := by
  unfold FibonacciHeap.insert_to_root_list
  cases h._min <;> split <;> simp

theorem min_irl (s : Mem) (h : Heap) (e : Nat) :
    (FibonacciHeap.insert_to_root_list s h e).2 =
      (match h._min with
       | some _ => h
       | none => { h with _min := some e }) := by
  unfold FibonacciHeap.insert_to_root_list
  cases h._min <;> simp

/-- The new node allocated by `insert`. -/
def newElem (s : Mem) (x : Nat) (p : Priority) : Elem :=
  ⟨x, p, s.length, s.length, none, none, 0, false⟩

theorem Priority.lt_irrefl (a : Priority) : Priority.lt a a = false := by
  simp [Priority.lt, Priority.le_refl]

theorem insert_mem_eq (s : Mem) (h : Heap) (x : Nat) (p : Priority) :
    (FibonacciHeap.insert s h x p).1.length = s.length + 1 ∧
    (∀ j, j < s.length → prioF (FibonacciHeap.insert s h x p).1 j = prioF s j) ∧
    prioF (FibonacciHeap.insert s h x p).1 s.length = p := by
  unfold FibonacciHeap.insert
  refine ⟨by simp, ?_, ?_⟩
  · intro j hj
    have h1 : prioF (FibonacciHeap.insert_to_root_list (s ++ [newElem s x p]) h s.length).1 j
        = prioF (s ++ [newElem s x p]) j := prioF_irl _ _ _ _
    have h2 : prioF (s ++ [newElem s x p]) j = prioF s j := by
      simp [prioF, getN_append_lt s _ hj]
    exact h1.trans h2
  · have h1 : prioF (FibonacciHeap.insert_to_root_list (s ++ [newElem s x p]) h s.length).1
        s.length = prioF (s ++ [newElem s x p]) s.length := prioF_irl _ _ _ _
    have h2 : prioF (s ++ [newElem s x p]) s.length = p := by
      simp [prioF, getN_append_self, newElem]
    exact h1.trans h2

theorem insert_heap_eq (s : Mem) (h : Heap) (x : Nat) (p : Priority)
    (hmlt : ∀ m, h._min = some m → m < s.length) :
    (FibonacciHeap.insert s h x p).2.1 =
      (match h._min with
       | none => (⟨h._size + 1, some s.length⟩ : Heap)
       | some m =>
         if Priority.lt p (prioF s m) then ⟨h._size + 1, some s.length⟩
         else ⟨h._size + 1, some m⟩) := by
  obtain ⟨hlen, hold, hnew⟩ := insert_mem_eq s h x p
  unfold FibonacciHeap.insert
  simp only [min_irl]
  cases hmo : h._min with
  | none =>
    simp [ite_self]
  | some m =>
    have e1 : prioF (FibonacciHeap.insert_to_root_list (s ++ [newElem s x p]) h s.length).1
        s.length = p := by
      unfold FibonacciHeap.insert at hnew
      exact hnew
    have e2 : prioF (FibonacciHeap.insert_to_root_list (s ++ [newElem s x p]) h s.length).1
        m = prioF s m := by
      unfold FibonacciHeap.insert at hold
      exact hold m (hmlt m hmo)
    simp only [prioF, newElem] at e1 e2
    simp only [hmo]
    rw [e1, e2]
    by_cases hc : Priority.lt p ((getN s m).priority) = true
    · simp [prioF, hc, hmo]
    · simp [prioF, hc, hmo]

theorem insert_preserves_InsOnly (s : Mem) (h : Heap) (x : Nat) (p : Priority)
    (hI : InsOnly s h) :
    InsOnly (FibonacciHeap.insert s h x p).1 (FibonacciHeap.insert s h x p).2.1 := by
  obtain ⟨hsz, hmt, hmin⟩ := hI
  obtain ⟨hlen, hold, hnew⟩ := insert_mem_eq s h x p
  have hmlt : ∀ m, h._min = some m → m < s.length := fun m hm => (hmin m hm).1
  have hh := insert_heap_eq s h x p hmlt
  cases hmo : h._min with
  | none =>
    have hs0 : s.length = 0 := hmt.mp hmo
    rw [hmo] at hh
    refine ⟨?_, ?_, ?_⟩
    · rw [hh, hlen, hsz]
    · rw [hh, hlen]
      simp
    · intro m hm
      rw [hh] at hm
      have hme : m = s.length := by
        simpa using hm.symm
      subst hme
      refine ⟨by omega, ?_⟩
      intro i hi
      rw [hlen, hs0] at hi
      have : i = s.length := by omega
      subst this
      rw [hnew]
      exact Priority.le_refl p
  | some m0 =>
    rw [hmo] at hh
    simp only [] at hh
    have hm0 := hmin m0 hmo
    by_cases hc : Priority.lt p (prioF s m0) = true
    · rw [if_pos hc] at hh
      refine ⟨?_, ?_, ?_⟩
      · rw [hh, hlen, hsz]
      · rw [hh, hlen]
        simp
      · intro m hm
        rw [hh] at hm
        have hme : m = s.length := by simpa using hm.symm
        subst hme
        refine ⟨by omega, ?_⟩
        intro i hi
        rw [hlen] at hi
        rw [hnew]
        rcases Nat.lt_or_ge i s.length with hi' | hi'
        · rw [hold i hi']
          exact Priority.le_trans (Priority.le_of_lt hc) (hm0.2 i hi')
        · have : i = s.length := by omega
          subst this
          rw [hnew]
          exact Priority.le_refl p
    · rw [if_neg hc] at hh
      refine ⟨?_, ?_, ?_⟩
      · rw [hh, hlen, hsz]
      · rw [hh, hlen]
        simp
      · intro m hm
        rw [hh] at hm
        have hme : m = m0 := by simpa using hm.symm
        subst hme
        refine ⟨by omega, ?_⟩
        intro i hi
        rw [hlen] at hi
        rw [hold m hm0.1]
        rcases Nat.lt_or_ge i s.length with hi' | hi'
        · rw [hold i hi']
          exact hm0.2 i hi'
        · have : i = s.length := by omega
          subst this
          rw [hnew]
          exact Priority.le_of_not_lt (Bool.eq_false_iff.mpr hc)

theorem insertList_InsOnly (l : List (Nat × Int)) : ∀ s h, InsOnly s h →
    InsOnly (insertList s h l).1 (insertList s h l).2 ∧
    (insertList s h l).1.length = s.length + l.length := by
  induction l with
  | nil =>
    intro s h hI
    exact ⟨hI, by simp [insertList]⟩
  | cons a rest ih =>
    intro s h hI
    obtain ⟨x, p⟩ := a
    have h1 := insert_preserves_InsOnly s h x (.fin p) hI
    have h2 := (insert_mem_eq s h x (.fin p)).1
    obtain ⟨hA, hB⟩ := ih (FibonacciHeap.insert s h x (.fin p)).1
      (FibonacciHeap.insert s h x (.fin p)).2.1 h1
    refine ⟨?_, ?_⟩
    · simpa [insertList] using hA
    · have : (insertList s h ((x, p) :: rest)).1.length =
          (FibonacciHeap.insert s h x (.fin p)).1.length + rest.length := by
        simpa [insertList] using hB
      rw [this, h2]
      simp
      omega

/-- C10: over any insert-only history, `peekMin` (`min()`, a pure accessor
that performs no mutation) is empty iff the size is `0` (= iff no inserts
happened), and otherwise returns a present node whose priority is a global
minimum among all currently-present nodes. -/
theorem peekMin_insert_only (l : List (Nat × Int)) :
    (FibonacciHeap.min (insertAll l).2 = none ↔ FibonacciHeap.size (insertAll l).2 = 0) ∧
    FibonacciHeap.size (insertAll l).2 = l.length ∧
    ∀ m, FibonacciHeap.min (insertAll l).2 = some m →
      m < (insertAll l).1.length ∧
      ∀ i, i < (insertAll l).1.length →
        Priority.le (prioF (insertAll l).1 m) (prioF (insertAll l).1 i) = true := by
  have hbase : InsOnly [] FibonacciHeap.empty := by
    refine ⟨rfl, by simp [FibonacciHeap.empty], ?_⟩
    intro m hm
    simp [FibonacciHeap.empty] at hm
  obtain ⟨⟨hsz, hmt, hmin⟩, hlen⟩ := insertList_InsOnly l [] FibonacciHeap.empty hbase
  have hlen2 : (insertList [] FibonacciHeap.empty l).1.length = l.length := by
    simpa using hlen
  refine ⟨?_, ?_, ?_⟩
  · show (insertList [] FibonacciHeap.empty l).2._min = none ↔
        (insertList [] FibonacciHeap.empty l).2._size = 0
    rw [hsz, hmt]
  · show (insertList [] FibonacciHeap.empty l).2._size = l.length
    rw [hsz, hlen2]
  · intro m hm
    exact hmin m hm

/-- Witness for C10 at the concrete history `insert(0,5); insert(1,2)`:
`peekMin` returns node 1 (priority 2), which is `<=` the priority of node 0. -/
theorem peekMin_insert_only_witness :
    FibonacciHeap.min (insertAll [(0, 5), (1, 2)]).2 = some 1 ∧
    Priority.le (prioF (insertAll [(0, 5), (1, 2)]).1 1)
      (prioF (insertAll [(0, 5), (1, 2)]).1 0) = true := by
  have h := (peekMin_insert_only [(0, 5), (1, 2)]).2.2 1 (by decide)
  exact ⟨by decide, h.2 0 (by decide)⟩

/-! ## Heap order (C7) : machinery -/

/-- Min-heap order along every parent-to-child edge, store-wide. -/
def HeapOrder (s : Mem) : Prop :=
  ∀ j, j < s.length → ∀ q, parF s j = some q →
    Priority.le (prioF s q) (prioF s j) = true

/-- `s'` differs from `s` only by ring pointers, marks, degrees, children and
*removed* parent edges: lengths, priorities and payloads agree, and every
parent pointer is unchanged or cleared. -/
def MemShrink (s s' : Mem) : Prop :=
  s'.length = s.length ∧ (∀ j, prioF s' j = prioF s j) ∧
  (∀ j, objF s' j = objF s j) ∧
  (∀ j, parF s' j = parF s j ∨ parF s' j = none)

theorem shrink_refl (s : Mem) : MemShrink s s :=
  ⟨rfl, fun _ => rfl, fun _ => rfl, fun _ => Or.inl rfl⟩

theorem shrink_trans {s1 s2 s3 : Mem} (h1 : MemShrink s1 s2)
    (h2 : MemShrink s2 s3) : MemShrink s1 s3 := by
  obtain ⟨l1, p1, o1, q1⟩ := h1
  obtain ⟨l2, p2, o2, q2⟩ := h2
  refine ⟨l2.trans l1, fun j => (p2 j).trans (p1 j), fun j => (o2 j).trans (o1 j), fun j => ?_⟩
  rcases q2 j with hq | hq
  · rw [hq]
    exact q1 j
  · exact Or.inr hq

theorem MemShrink.order {s s' : Mem} (hs : MemShrink s s')
    (ho : HeapOrder s) : HeapOrder s' := by
  obtain ⟨hl, hp, _, hq⟩ := hs
  intro j hj q hpar
  rcases hq j with hj' | hj'
  · rw [hp q, hp j]
    exact ho j (by omega) q (hj' ▸ hpar)
  · rw [hj'] at hpar
    cases hpar

theorem shrink_setLeftN (s : Mem) (i v : Nat) : MemShrink s (setLeftN s i v) := by
  refine ⟨by simp, fun j => by simp, fun j => by simp, fun j => Or.inl (by simp)⟩

theorem shrink_setRightN (s : Mem) (i v : Nat) : MemShrink s (setRightN s i v) := by
  refine ⟨by simp, fun j => by simp, fun j => by simp, fun j => Or.inl (by simp)⟩

theorem shrink_setChildN (s : Mem) (i : Nat) (v : Option Nat) :
    MemShrink s (setChildN s i v) := by
  refine ⟨by simp, fun j => by simp, fun j => by simp, fun j => Or.inl (by simp)⟩

theorem shrink_setDegreeN (s : Mem) (i v : Nat) : MemShrink s (setDegreeN s i v) := by
  refine ⟨by simp, fun j => by simp, fun j => by simp, fun j => Or.inl (by simp)⟩

theorem shrink_setMarkN (s : Mem) (i : Nat) (v : Bool) : MemShrink s (setMarkN s i v) := by
  refine ⟨by simp, fun j => by simp, fun j => by simp, fun j => Or.inl (by simp)⟩

theorem shrink_setParentN_none (s : Mem) (i : Nat) : MemShrink s (setParentN s i none) := by
  refine ⟨by simp, fun j => by simp, fun j => by simp, fun j => ?_⟩
  simp only [parF_setParentN]
  split
  · exact Or.inr rfl
  · exact Or.inl rfl

theorem shrink_dll (s : Mem) (hd : Option Nat) (y : Nat) :
    MemShrink s (FibonacciHeap.doublylinkedlist_insert s hd y) := by
  cases hd with
  | none => exact shrink_refl s
  | some hd =>
    unfold FibonacciHeap.doublylinkedlist_insert
    exact shrink_trans (shrink_trans (shrink_trans (shrink_trans (shrink_refl s)
      (shrink_setLeftN _ _ _)) (shrink_setRightN _ _ _)) (shrink_setLeftN _ _ _))
      (shrink_setRightN _ _ _)

theorem shrink_irl (s : Mem) (h : Heap) (e : Nat) :
    MemShrink s (FibonacciHeap.insert_to_root_list s h e).1 := by
  have h1 : MemShrink s (if (getN s e).parent ≠ none then setParentN s e none else s) := by
    split
    · exact shrink_setParentN_none s e
    · exact shrink_refl s
  cases hm : h._min with
  | some m =>
    have he : (FibonacciHeap.insert_to_root_list s h e).1 =
        FibonacciHeap.doublylinkedlist_insert
          (if (getN s e).parent ≠ none then setParentN s e none else s) h._min e := by
      unfold FibonacciHeap.insert_to_root_list
      rw [hm]
    rw [he]
    exact shrink_trans h1 (shrink_dll _ _ _)
  | none =>
    have he : (FibonacciHeap.insert_to_root_list s h e).1 =
        (if (getN s e).parent ≠ none then setParentN s e none else s) := by
      unfold FibonacciHeap.insert_to_root_list
      rw [hm]
    rw [he]
    exact h1

theorem shrink_remove (s : Mem) (h : Heap) (z : Nat) {s' : Mem} {h' : Heap}
    (hr : FibonacciHeap.remove_from_root_list s h z = some (s', h')) :
    MemShrink s s' := by
  unfold FibonacciHeap.remove_from_root_list at hr
  split at hr
  · cases hr
  · split at hr
    · cases hr
      exact shrink_refl s
    · cases hr
      exact shrink_trans (shrink_trans (shrink_trans (shrink_refl s) (shrink_setRightN _ _ _))
        (shrink_setLeftN _ _ _)) (shrink_trans (shrink_setLeftN _ _ _) (shrink_setRightN _ _ _))

theorem shrink_promote (fuel : Nat) : ∀ (s : Mem) (h : Heap) (z x : Nat) {s' : Mem} {h' : Heap},
    FibonacciHeap.promote_children fuel s h z x = some (s', h') → MemShrink s s' := by
  induction fuel with
  | zero => intro s h z x s' h' hr; cases hr
  | succ fuel ih =>
    intro s h z x s' h' hr
    unfold FibonacciHeap.promote_children at hr
    dsimp only [] at hr
    rcases hirl : FibonacciHeap.insert_to_root_list (setParentN s x none) h x with ⟨s2, h2⟩
    rw [hirl] at hr
    have hshr : MemShrink s s2 := by
      have := shrink_irl (setParentN s x none) h x
      rw [hirl] at this
      exact shrink_trans (shrink_setParentN_none s x) this
    split at hr
    · cases hr
      exact shrink_trans hshr (shrink_setChildN _ _ _)
    · exact shrink_trans hshr (ih _ _ _ _ hr)

theorem shrink_drain (fuel : Nat) : ∀ (s : Mem) (h : Heap) (q : List Nat) {s' : Mem} {h' : Heap}
    {q' : List Nat}, FibonacciHeap.drain_roots fuel s h q = some (s', h', q') → MemShrink s s' := by
  induction fuel with
  | zero => intro s h q s' h' q' hr; cases hr
  | succ fuel ih =>
    intro s h q s' h' q' hr
    unfold FibonacciHeap.drain_roots at hr
    split at hr
    · cases hr
      exact shrink_refl s
    · rename_i m hm
      rcases hrm : FibonacciHeap.remove_from_root_list s h m with _ | ⟨s1, h1⟩
      · rw [hrm] at hr
        cases hr
      · rw [hrm] at hr
        exact shrink_trans (shrink_remove s h m hrm) (ih _ _ _ hr)

theorem shrink_rebuild (arr : List (Option Nat)) : ∀ (s : Mem) (h : Heap),
    MemShrink s (FibonacciHeap.rebuild_roots s h arr).1 := by
  induction arr with
  | nil => intro s h; exact shrink_refl s
  | cons a rest ih =>
    intro s h
    cases a with
    | none => exact ih s h
    | some e =>
      unfold FibonacciHeap.rebuild_roots
      cases h._min with
      | none => exact ih s _
      | some m => exact shrink_trans (shrink_irl s h e) (ih _ _)

@[simp] theorem objF_dll (s : Mem) (hd : Option Nat) (y j : Nat) :
    objF (FibonacciHeap.doublylinkedlist_insert s hd y) j = objF s j := by
  cases hd <;> simp [FibonacciHeap.doublylinkedlist_insert]

@[simp] theorem parF_dll (s : Mem) (hd : Option Nat) (y j : Nat) :
    parF (FibonacciHeap.doublylinkedlist_insert s hd y) j = parF s j := by
  cases hd <;> simp [FibonacciHeap.doublylinkedlist_insert]

@[simp] theorem childF_dll (s : Mem) (hd : Option Nat) (y j : Nat) :
    childF (FibonacciHeap.doublylinkedlist_insert s hd y) j = childF s j := by
  cases hd <;> simp [FibonacciHeap.doublylinkedlist_insert]

@[simp] theorem markF_dll (s : Mem) (hd : Option Nat) (y j : Nat) :
    markF (FibonacciHeap.doublylinkedlist_insert s hd y) j = markF s j := by
  cases hd <;> simp [FibonacciHeap.doublylinkedlist_insert]

@[simp] theorem degF_dll (s : Mem) (hd : Option Nat) (y j : Nat) :
    degF (FibonacciHeap.doublylinkedlist_insert s hd y) j = degF s j := by
  cases hd <;> simp [FibonacciHeap.doublylinkedlist_insert]

theorem heap_link_fields (s : Mem) (y x : Nat) :
    (FibonacciHeap.heap_link s y x).length = s.length ∧
    (∀ j, prioF (FibonacciHeap.heap_link s y x) j = prioF s j) ∧
    (∀ j, objF (FibonacciHeap.heap_link s y x) j = objF s j) ∧
    (∀ j, parF (FibonacciHeap.heap_link s y x) j =
      if y = j ∧ j < s.length then some x else parF s j) := by
  unfold FibonacciHeap.heap_link
  rcases hc : (getN s x).child with _ | c
  · refine ⟨by simp, fun j => by simp, fun j => by simp, fun j => by simp⟩
  · refine ⟨by simp, fun j => by simp, fun j => by simp, fun j => by simp⟩

theorem order_heap_link (s : Mem) (y x : Nat)
    (hle : Priority.le (prioF s x) (prioF s y) = true)
    (ho : HeapOrder s) : HeapOrder (FibonacciHeap.heap_link s y x) := by
  obtain ⟨hlen, hprio, _, hpar⟩ := heap_link_fields s y x
  intro j hj q hq
  rw [hlen] at hj
  rw [hpar j] at hq
  rw [hprio q, hprio j]
  by_cases hy : y = j ∧ j < s.length
  · rw [if_pos hy] at hq
    cases hq
    rw [← hy.1]
    exact hle
  · rw [if_neg hy] at hq
    exact ho j hj q hq

theorem order_link_step (fuel : Nat) :
    ∀ (s : Mem) (arr : List (Option Nat)) (x d : Nat) {s' : Mem} {arr' : List (Option Nat)},
      FibonacciHeap.link_step fuel s arr x d = some (s', arr') →
      HeapOrder s → HeapOrder s' := by
  induction fuel with
  | zero => intro s arr x d s' arr' hr; cases hr
  | succ fuel ih =>
    intro s arr x d s' arr' hr ho
    unfold FibonacciHeap.link_step at hr
    dsimp only [] at hr
    rcases hd : arr[d]? with _ | y?
    · rw [hd] at hr
      cases hr
    · rw [hd] at hr
      rcases y? with _ | y
      · cases hr
        exact ho
      · dsimp only [] at hr
        by_cases hsw : Priority.lt (prioF s y) (prioF s x) = true
        · have hp : (if Priority.lt (getN s y).priority (getN s x).priority = true
              then (y, x) else (x, y)) = (y, x) := if_pos hsw
          rw [hp] at hr
          refine ih _ _ _ _ hr (order_heap_link s x y ?_ ho)
          exact Priority.le_of_lt hsw
        · have hp : (if Priority.lt (getN s y).priority (getN s x).priority = true
              then (y, x) else (x, y)) = (x, y) := if_neg hsw
          rw [hp] at hr
          refine ih _ _ _ _ hr (order_heap_link s y x ?_ ho)
          exact Priority.le_of_not_lt (Bool.eq_false_iff.mpr hsw)

theorem order_link_all (q : List Nat) :
    ∀ (s : Mem) (arr : List (Option Nat)) {s' : Mem} {arr' : List (Option Nat)},
      FibonacciHeap.link_all q s arr = some (s', arr') →
      HeapOrder s → HeapOrder s' := by
  induction q with
  | nil =>
    intro s arr s' arr' hr ho
    cases hr
    exact ho
  | cons x q ih =>
    intro s arr s' arr' hr ho
    unfold FibonacciHeap.link_all at hr
    rcases hs : FibonacciHeap.link_step (arr.length + 1) s arr x ((getN s x).degree)
        with _ | ⟨s1, arr1⟩
    · rw [hs] at hr
      cases hr
    · rw [hs] at hr
      exact ih _ _ hr (order_link_step _ _ _ _ _ hs ho)

theorem order_consolidate (s : Mem) (h : Heap) {s' : Mem} {h' : Heap}
    (hc : FibonacciHeap.consolidate s h = some (s', h'))
    (ho : HeapOrder s) : HeapOrder s' := by
  unfold FibonacciHeap.consolidate at hc
  split at hc
  · cases hc
  · dsimp only [] at hc
    rcases hd : FibonacciHeap.drain_roots (s.length + 1) s h [] with _ | ⟨s1, h1, q⟩
    · rw [hd] at hc
      cases hc
    · rw [hd] at hc
      dsimp only [] at hc
      rcases hl : FibonacciHeap.link_all q s1 (List.replicate (FibonacciHeap.slots h._size) none)
          with _ | ⟨s2, arr2⟩
      · rw [hl] at hc
        cases hc
      · rw [hl] at hc
        dsimp only [] at hc
        rcases hre : FibonacciHeap.rebuild_roots s2 h1 arr2 with ⟨s3, h3⟩
        rw [hre] at hc
        cases hc
        have ho1 : HeapOrder s1 := (shrink_drain _ _ _ _ hd).order ho
        have ho2 : HeapOrder s2 := order_link_all q s1 _ hl ho1
        have := (shrink_rebuild arr2 s2 h1).order ho2
        rw [hre] at this
        exact this

theorem order_extract_min (s : Mem) (h : Heap) {s' : Mem} {h' : Heap} {r : Option Nat}
    (he : FibonacciHeap.extract_min s h = some (s', h', r))
    (ho : HeapOrder s) : HeapOrder s' := by
  unfold FibonacciHeap.extract_min at he
  rcases hm : h._min with _ | z
  · rw [hm] at he
    cases he
    exact ho
  · rw [hm] at he
    dsimp only [] at he
    have hstep : ∀ s1 h1, (match (getN s z).child with
        | none => some (s, h)
        | some x => FibonacciHeap.promote_children (s.length + 1) s h z x) = some (s1, h1) →
        MemShrink s s1 := by
      intro s1 h1 hx
      rcases hc : (getN s z).child with _ | x
      · rw [hc] at hx
        cases hx
        exact shrink_refl s
      · rw [hc] at hx
        exact shrink_promote _ _ _ _ _ hx
    rcases h1m : (match (getN s z).child with
        | none => some (s, h)
        | some x => FibonacciHeap.promote_children (s.length + 1) s h z x) with _ | ⟨s1, h1⟩
    · rw [h1m] at he
      cases he
    · rw [h1m] at he
      dsimp only [] at he
      have hshr1 : MemShrink s s1 := hstep s1 h1 h1m
      have ho1 : HeapOrder s1 := hshr1.order ho
      by_cases hz : (getN s1 z).right = z
      · rw [if_pos hz] at he
        rcases hrm : FibonacciHeap.remove_from_root_list s1 { h1 with _min := none } z
            with _ | ⟨s2, h2⟩
        · rw [hrm] at he
          cases he
        · rw [hrm] at he
          dsimp only [] at he
          cases he
          exact (shrink_remove _ _ _ hrm).order ho1
      · rw [if_neg hz] at he
        rcases hrm : FibonacciHeap.remove_from_root_list s1
            { h1 with _min := some ((getN s1 z).right) } z with _ | ⟨s2, h2⟩
        · rw [hrm] at he
          cases he
        · rw [hrm] at he
          dsimp only [] at he
          rcases hcs : FibonacciHeap.consolidate s2 h2 with _ | ⟨s3, h3⟩
          · rw [hcs] at he
            cases he
          · rw [hcs] at he
            dsimp only [] at he
            cases he
            exact order_consolidate s2 h2 hcs ((shrink_remove _ _ _ hrm).order ho1)

theorem parF_append (s : Mem) (e : Elem) (j : Nat) :
    parF (s ++ [e]) j = if j = s.length then e.parent else parF s j := by
  rcases Nat.lt_trichotomy j s.length with hj | hj | hj
  · rw [if_neg (by omega), parF, parF, getN_append_lt s e hj]
  · rw [if_pos hj, parF, hj, getN_append_self]
  · rw [if_neg (by omega), parF, parF]
    simp only [getN, List.getD, List.get?_eq_getElem?]
    rw [List.getElem?_eq_none (l := s ++ [e]) (by simp; omega),
      List.getElem?_eq_none (l := s) (by omega)]

theorem prioF_append (s : Mem) (e : Elem) (j : Nat) :
    prioF (s ++ [e]) j = if j = s.length then e.priority else prioF s j := by
  rcases Nat.lt_trichotomy j s.length with hj | hj | hj
  · rw [if_neg (by omega), prioF, prioF, getN_append_lt s e hj]
  · rw [if_pos hj, prioF, hj, getN_append_self]
  · rw [if_neg (by omega), prioF, prioF]
    simp only [getN, List.getD, List.get?_eq_getElem?]
    rw [List.getElem?_eq_none (l := s ++ [e]) (by simp; omega),
      List.getElem?_eq_none (l := s) (by omega)]

theorem order_insert (s : Mem) (h : Heap) (x : Nat) (p : Priority)
    (hptr : ∀ j, j < s.length → ∀ q, parF s j = some q → q < s.length)
    (ho : HeapOrder s) : HeapOrder (FibonacciHeap.insert s h x p).1 := by
  have hext : HeapOrder (s ++ [newElem s x p]) := by
    intro j hj q hq
    rw [parF_append] at hq
    rcases eq_or_ne j s.length with rfl | hne
    · rw [if_pos rfl] at hq
      cases hq
    · rw [if_neg hne] at hq
      have hjl : j < s.length := by
        simp at hj
        omega
      have hql : q < s.length := hptr j hjl q hq
      rw [prioF_append, prioF_append, if_neg hne, if_neg (by omega)]
      exact ho j hjl q hq
  have : (FibonacciHeap.insert s h x p).1 =
      (FibonacciHeap.insert_to_root_list (s ++ [newElem s x p]) h s.length).1 := rfl
  rw [this]
  exact (shrink_irl _ h s.length).order hext

theorem order_merge (s : Mem) (hA hB : Heap) {s' : Mem} {hA' hB' : Heap}
    (hm : FibonacciHeap.merge s hA hB = some (s', hA', hB'))
    (ho : HeapOrder s) : HeapOrder s' := by
  unfold FibonacciHeap.merge at hm
  cases h1 : hA._min with
  | none =>
    rw [h1] at hm
    dsimp only [] at hm
    cases hm
    exact ho
  | some m1 =>
    rw [h1] at hm
    cases h2 : hB._min with
    | none =>
      rw [h2] at hm
      cases hm
    | some m2 =>
      rw [h2] at hm
      dsimp only [] at hm
      by_cases hr : (getN s m2).right = m2
      · rw [if_neg (not_not_intro hr)] at hm
        rcases hirl : FibonacciHeap.insert_to_root_list s hA m2 with ⟨s2, hh2⟩
        rw [hirl] at hm
        dsimp only [] at hm
        cases hm
        have := (shrink_irl s hA m2).order ho
        rw [hirl] at this
        exact this
      · rw [if_pos hr] at hm
        dsimp only [] at hm
        cases hm
        exact (shrink_trans (shrink_trans (shrink_trans (shrink_trans (shrink_refl s)
          (shrink_setRightN _ _ _))
          (shrink_setLeftN _ _ _)) (shrink_setRightN _ _ _))
            (shrink_setLeftN _ _ _)).order ho

/-! ## Frame facts: priorities, payloads and lengths are preserved -/

/-- `s'` has the same length, priorities and payloads as `s`. -/
def MemFrame (s s' : Mem) : Prop :=
  s'.length = s.length ∧ (∀ j, prioF s' j = prioF s j) ∧ (∀ j, objF s' j = objF s j)

theorem frame_refl (s : Mem) : MemFrame s s := ⟨rfl, fun _ => rfl, fun _ => rfl⟩

theorem frame_trans {s1 s2 s3 : Mem} (h1 : MemFrame s1 s2) (h2 : MemFrame s2 s3) :
    MemFrame s1 s3 :=
  ⟨h2.1.trans h1.1, fun j => (h2.2.1 j).trans (h1.2.1 j),
    fun j => (h2.2.2 j).trans (h1.2.2 j)⟩

theorem MemShrink.frame {s s' : Mem} (h : MemShrink s s') : MemFrame s s' :=
  ⟨h.1, h.2.1, h.2.2.1⟩

theorem frame_heap_link (s : Mem) (y x : Nat) : MemFrame s (FibonacciHeap.heap_link s y x) :=
  ⟨(heap_link_fields s y x).1, (heap_link_fields s y x).2.1, (heap_link_fields s y x).2.2.1⟩

theorem frame_link_step (fuel : Nat) :
    ∀ (s : Mem) (arr : List (Option Nat)) (x d : Nat) {s' : Mem} {arr' : List (Option Nat)},
      FibonacciHeap.link_step fuel s arr x d = some (s', arr') → MemFrame s s' := by
  induction fuel with
  | zero => intro s arr x d s' arr' hr; cases hr
  | succ fuel ih =>
    intro s arr x d s' arr' hr
    unfold FibonacciHeap.link_step at hr
    dsimp only [] at hr
    rcases hd : arr[d]? with _ | y?
    · rw [hd] at hr
      cases hr
    · rw [hd] at hr
      rcases y? with _ | y
      · cases hr
        exact frame_refl s
      · dsimp only [] at hr
        exact frame_trans (frame_heap_link s _ _) (ih _ _ _ _ hr)

theorem frame_link_all (q : List Nat) :
    ∀ (s : Mem) (arr : List (Option Nat)) {s' : Mem} {arr' : List (Option Nat)},
      FibonacciHeap.link_all q s arr = some (s', arr') → MemFrame s s' := by
  induction q with
  | nil =>
    intro s arr s' arr' hr
    cases hr
    exact frame_refl s
  | cons x q ih =>
    intro s arr s' arr' hr
    unfold FibonacciHeap.link_all at hr
    rcases hs : FibonacciHeap.link_step (arr.length + 1) s arr x ((getN s x).degree)
        with _ | ⟨s1, arr1⟩
    · rw [hs] at hr
      cases hr
    · rw [hs] at hr
      exact frame_trans (frame_link_step _ _ _ _ _ hs) (ih _ _ hr)

theorem frame_consolidate (s : Mem) (h : Heap) {s' : Mem} {h' : Heap}
    (hc : FibonacciHeap.consolidate s h = some (s', h')) : MemFrame s s' := by
  unfold FibonacciHeap.consolidate at hc
  split at hc
  · cases hc
  · dsimp only [] at hc
    rcases hd : FibonacciHeap.drain_roots (s.length + 1) s h [] with _ | ⟨s1, h1, q⟩
    · rw [hd] at hc
      cases hc
    · rw [hd] at hc
      dsimp only [] at hc
      rcases hl : FibonacciHeap.link_all q s1 (List.replicate (FibonacciHeap.slots h._size) none)
          with _ | ⟨s2, arr2⟩
      · rw [hl] at hc
        cases hc
      · rw [hl] at hc
        dsimp only [] at hc
        rcases hre : FibonacciHeap.rebuild_roots s2 h1 arr2 with ⟨s3, h3⟩
        rw [hre] at hc
        cases hc
        refine frame_trans (shrink_drain _ _ _ _ hd).frame
          (frame_trans (frame_link_all q s1 _ hl) ?_)
        have := (shrink_rebuild arr2 s2 h1).frame
        rw [hre] at this
        exact this

theorem frame_extract_min (s : Mem) (h : Heap) {s' : Mem} {h' : Heap} {r : Option Nat}
    (he : FibonacciHeap.extract_min s h = some (s', h', r)) : MemFrame s s' := by
  unfold FibonacciHeap.extract_min at he
  rcases hm : h._min with _ | z
  · rw [hm] at he
    cases he
    exact frame_refl s
  · rw [hm] at he
    dsimp only [] at he
    have hstep : ∀ s1 h1, (match (getN s z).child with
        | none => some (s, h)
        | some x => FibonacciHeap.promote_children (s.length + 1) s h z x) = some (s1, h1) →
        MemFrame s s1 := by
      intro s1 h1 hx
      rcases hc : (getN s z).child with _ | x
      · rw [hc] at hx
        cases hx
        exact frame_refl s
      · rw [hc] at hx
        exact (shrink_promote _ _ _ _ _ hx).frame
    rcases h1m : (match (getN s z).child with
        | none => some (s, h)
        | some x => FibonacciHeap.promote_children (s.length + 1) s h z x) with _ | ⟨s1, h1⟩
    · rw [h1m] at he
      cases he
    · rw [h1m] at he
      dsimp only [] at he
      have hf1 : MemFrame s s1 := hstep s1 h1 h1m
      by_cases hz : (getN s1 z).right = z
      · rw [if_pos hz] at he
        rcases hrm : FibonacciHeap.remove_from_root_list s1 { h1 with _min := none } z
            with _ | ⟨s2, h2⟩
        · rw [hrm] at he
          cases he
        · rw [hrm] at he
          dsimp only [] at he
          cases he
          exact frame_trans hf1 (shrink_remove _ _ _ hrm).frame
      · rw [if_neg hz] at he
        rcases hrm : FibonacciHeap.remove_from_root_list s1
            { h1 with _min := some ((getN s1 z).right) } z with _ | ⟨s2, h2⟩
        · rw [hrm] at he
          cases he
        · rw [hrm] at he
          dsimp only [] at he
          rcases hcs : FibonacciHeap.consolidate s2 h2 with _ | ⟨s3, h3⟩
          · rw [hcs] at he
            cases he
          · rw [hcs] at he
            dsimp only [] at he
            cases he
            exact frame_trans (frame_trans hf1 (shrink_remove _ _ _ hrm).frame)
              (frame_consolidate s2 h2 hcs)

/-! ## Structural invariants for the cut / cascading-cut path -/

/-- All pointers stored in live nodes stay inside the allocated store. -/
def WFptr (s : Mem) : Prop := ∀ i, i < s.length →
  leftF s i < s.length ∧ rightF s i < s.length ∧
  (∀ q, parF s i = some q → q < s.length) ∧
  (∀ c, childF s i = some c → c < s.length)

/-- `left` and `right` are mutually inverse (rings are well linked). -/
def ringLR (s : Mem) : Prop := ∀ i, i < s.length →
  leftF s (rightF s i) = i ∧ rightF s (leftF s i) = i

/-- The right sibling of a node with a parent has the same parent. -/
def sibParR (s : Mem) : Prop := ∀ i, i < s.length → ∀ q, parF s i = some q →
  parF s (rightF s i) = some q

/-- The left sibling of a node with a parent has the same parent. -/
def sibParL (s : Mem) : Prop := ∀ i, i < s.length → ∀ q, parF s i = some q →
  parF s (leftF s i) = some q

/-- Siblings of a root are roots. -/
def rootSib (s : Mem) : Prop := ∀ i, i < s.length → parF s i = none →
  parF s (rightF s i) = none ∧ parF s (leftF s i) = none

/-- The designated child points back to its parent. -/
def childParent (s : Mem) : Prop := ∀ i, i < s.length → ∀ c, childF s i = some c →
  parF s c = some i

/-- No node is its own parent. -/
def noSelfPar (s : Mem) : Prop := ∀ i, i < s.length → parF s i ≠ some i

/-- The heap's `_min`, when present, is a live root. -/
def minRootOk (s : Mem) (h : Heap) : Prop := ∀ m, h._min = some m →
  m < s.length ∧ parF s m = none

/-- On an empty heap every stored (dead) node is parentless. -/
def emptyAllRoots (s : Mem) (h : Heap) : Prop :=
  h._min = none → ∀ i, i < s.length → parF s i = none

/-- The structural invariant needed to reason about `_cut`/`_cascading_cut`. -/
def StructInv (s : Mem) (h : Heap) : Prop :=
  WFptr s ∧ ringLR s ∧ sibParR s ∧ sibParL s ∧ rootSib s ∧ childParent s ∧
  noSelfPar s ∧ minRootOk s h ∧ emptyAllRoots s h

/-- The spec's root-mark invariant: roots are never marked. -/
def RootsUnmarked (s : Mem) : Prop := ∀ i, i < s.length → parF s i = none →
  markF s i = false

theorem leftF_dll (s : Mem) (hd y j : Nat) :
    leftF (FibonacciHeap.doublylinkedlist_insert s (some hd) y) j =
      if y = j ∧ j < s.length then hd
      else if (getN s hd).right = j ∧ j < s.length then y
      else leftF s j := by
  unfold FibonacciHeap.doublylinkedlist_insert
  dsimp only []
  simp

theorem rightF_dll (s : Mem) (hd y j : Nat) :
    rightF (FibonacciHeap.doublylinkedlist_insert s (some hd) y) j =
      if y = j ∧ j < s.length then (getN s hd).right
      else if hd = j ∧ j < s.length then y
      else rightF s j := by
  unfold FibonacciHeap.doublylinkedlist_insert
  dsimp only []
  simp

/-- The store produced by `_cut(x, y)` when `x` is the only child of `y`
(`x.right == x`) and the root-list head is `m`. -/
def cutA (s : Mem) (x y m : Nat) : Mem :=
  setMarkN
    (setDegreeN
      (FibonacciHeap.doublylinkedlist_insert (setParentN (setChildN s y none) x none) (some m) x)
      y
      ((getN (FibonacciHeap.doublylinkedlist_insert
          (setParentN (setChildN s y none) x none) (some m) x) y).degree - 1))
    x false

theorem cutA_fields (s : Mem) (x y m : Nat) (hx : x < s.length) (hy : y < s.length)
    (hmx : m ≠ x) (hml : m < s.length) (htl : rightF s m < s.length) :
    (cutA s x y m).length = s.length ∧
    (∀ j, prioF (cutA s x y m) j = prioF s j) ∧
    (∀ j, objF (cutA s x y m) j = objF s j) ∧
    (∀ j, markF (cutA s x y m) j = if j = x then false else markF s j) ∧
    (∀ j, degF (cutA s x y m) j = if j = y then degF s y - 1 else degF s j) ∧
    (∀ j, childF (cutA s x y m) j = if j = y then none else childF s j) ∧
    (∀ j, parF (cutA s x y m) j = if j = x then none else parF s j) ∧
    (∀ j, leftF (cutA s x y m) j = if j = x then m
      else if j = rightF s m then x else leftF s j) ∧
    (∀ j, rightF (cutA s x y m) j = if j = x then rightF s m
      else if j = m then x else rightF s j) := by
  have htail : (getN (setParentN (setChildN s y none) x none) m).right = rightF s m := by
    show rightF _ _ = _
    simp
  have hdeg : (getN (FibonacciHeap.doublylinkedlist_insert
      (setParentN (setChildN s y none) x none) (some m) x) y).degree = degF s y := by
    show degF _ _ = _
    simp
  refine ⟨by simp [cutA], ?_, ?_, ?_, ?_, ?_, ?_, ?_, ?_⟩
  · intro j
    simp [cutA]
  · intro j
    simp [cutA]
  · intro j
    simp only [cutA, markF_setMarkN, markF_setDegreeN, markF_dll, markF_setParentN,
      markF_setChildN, length_setDegreeN, length_dll, length_setParentN, length_setChildN]
    rcases eq_or_ne j x with rfl | hjx
    · simp [hx]
    · simp [hjx, Ne.symm hjx]
  · intro j
    simp only [cutA, degF_setMarkN, degF_setDegreeN, hdeg, degF_dll, degF_setParentN,
      degF_setChildN, length_dll, length_setParentN, length_setChildN]
    rcases eq_or_ne j y with rfl | hjy
    · simp [hy]
    · simp [hjy, Ne.symm hjy]
  · intro j
    simp only [cutA, childF_setMarkN, childF_setDegreeN, childF_dll, childF_setParentN,
      childF_setChildN, length_dll, length_setParentN, length_setChildN]
    rcases eq_or_ne j y with rfl | hjy
    · simp [hy]
    · simp [hjy, Ne.symm hjy]
  · intro j
    simp only [cutA, parF_setMarkN, parF_setDegreeN, parF_dll, parF_setParentN,
      parF_setChildN, length_dll, length_setChildN]
    rcases eq_or_ne j x with rfl | hjx
    · simp [hx]
    · simp [hjx, Ne.symm hjx]
  · intro j
    simp only [cutA, leftF_setMarkN, leftF_setDegreeN, leftF_dll, htail,
      leftF_setParentN, leftF_setChildN, length_setParentN, length_setChildN]
    rcases eq_or_ne j x with rfl | hjx
    · simp [hx]
    · rcases eq_or_ne j (rightF s m) with rfl | hjt
      · simp [htl, hjx, Ne.symm hjx]
      · simp [hjx, Ne.symm hjx, hjt, Ne.symm hjt]
  · intro j
    simp only [cutA, rightF_setMarkN, rightF_setDegreeN, rightF_dll, htail,
      rightF_setParentN, rightF_setChildN, length_setParentN, length_setChildN]
    rcases eq_or_ne j x with rfl | hjx
    · simp [hx]
    · rcases eq_or_ne j m with rfl | hjm
      · simp [hjx, Ne.symm hjx, hml]
      · simp [hjx, Ne.symm hjx, hjm, Ne.symm hjm]

/-- The store produced by `_cut(x, y)` when `x` has siblings
(`x.right != x`) and the root-list head is `m`. -/
def cutB (s : Mem) (x y m : Nat) : Mem :=
  setMarkN
    (setDegreeN
      (FibonacciHeap.doublylinkedlist_insert
        (setParentN
          (setRightN
            (setLeftN (setParentN (setChildN s y (some ((getN s x).right)))
              ((getN s x).right) (some y)) ((getN s x).right) ((getN s x).left))
            ((getN s x).left) ((getN s x).right))
          x none)
        (some m) x)
      y (degF s y - 1))
    x false

theorem cutB_fields (s : Mem) (x y m : Nat) (hx : x < s.length) (hy : y < s.length)
    (hml : m < s.length) (hrl : rightF s x < s.length) (hll : leftF s x < s.length)
    (htl : rightF s m < s.length)
    (hmx : m ≠ x) (hrx : rightF s x ≠ x) (hlx : leftF s x ≠ x) (htx : rightF s m ≠ x)
    (htr : rightF s m ≠ rightF s x) (htll : rightF s m ≠ leftF s x)
    (hmr : m ≠ rightF s x) (hmll : m ≠ leftF s x) :
    (cutB s x y m).length = s.length ∧
    (∀ j, prioF (cutB s x y m) j = prioF s j) ∧
    (∀ j, objF (cutB s x y m) j = objF s j) ∧
    (∀ j, markF (cutB s x y m) j = if j = x then false else markF s j) ∧
    (∀ j, degF (cutB s x y m) j = if j = y then degF s y - 1 else degF s j) ∧
    (∀ j, childF (cutB s x y m) j = if j = y then some (rightF s x) else childF s j) ∧
    (∀ j, parF (cutB s x y m) j = if j = x then none
      else if j = rightF s x then some y else parF s j) ∧
    (∀ j, leftF (cutB s x y m) j = if j = x then m
      else if j = rightF s m then x
      else if j = rightF s x then leftF s x else leftF s j) ∧
    (∀ j, rightF (cutB s x y m) j = if j = x then rightF s m
      else if j = m then x
      else if j = leftF s x then rightF s x else rightF s j) := by
  have hRr : (getN s x).right = rightF s x := rfl
  have hLl : (getN s x).left = leftF s x := rfl
  have htail : (getN (setParentN
      (setRightN
        (setLeftN (setParentN (setChildN s y (some (rightF s x)))
          (rightF s x) (some y)) (rightF s x) (leftF s x))
        (leftF s x) (rightF s x))
      x none) m).right = rightF s m := by
    show rightF _ _ = _
    simp [hmll, Ne.symm hmll, hmx, Ne.symm hmx]
  refine ⟨by simp [cutB], ?_, ?_, ?_, ?_, ?_, ?_, ?_, ?_⟩
  · intro j
    simp [cutB]
  · intro j
    simp [cutB]
  · intro j
    simp only [hRr, hLl, cutB, markF_setMarkN, markF_setDegreeN, markF_dll, markF_setParentN,
      markF_setRightN, markF_setLeftN, markF_setChildN, length_setDegreeN, length_dll,
      length_setParentN, length_setRightN, length_setLeftN, length_setChildN]
    rcases eq_or_ne j x with rfl | hjx
    · simp [hx]
    · simp [hjx, Ne.symm hjx]
  · intro j
    simp only [hRr, hLl, cutB, degF_setMarkN, degF_setDegreeN, degF_dll, degF_setParentN,
      degF_setRightN, degF_setLeftN, degF_setChildN, length_dll,
      length_setParentN, length_setRightN, length_setLeftN, length_setChildN]
    rcases eq_or_ne j y with rfl | hjy
    · simp [hy]
    · simp [hjy, Ne.symm hjy]
  · intro j
    simp only [hRr, hLl, cutB, childF_setMarkN, childF_setDegreeN, childF_dll, childF_setParentN,
      childF_setRightN, childF_setLeftN, childF_setChildN, length_dll,
      length_setParentN, length_setRightN, length_setLeftN, length_setChildN]
    rcases eq_or_ne j y with rfl | hjy
    · simp [hy]
    · simp [hjy, Ne.symm hjy]
  · intro j
    simp only [hRr, hLl, cutB, parF_setMarkN, parF_setDegreeN, parF_dll, parF_setParentN,
      parF_setRightN, parF_setLeftN, parF_setChildN, length_dll,
      length_setParentN, length_setRightN, length_setLeftN, length_setChildN]
    rcases eq_or_ne j x with rfl | hjx
    · simp [hx]
    · rcases eq_or_ne j (rightF s x) with rfl | hjr
      · simp [hjx, Ne.symm hjx, hrl]
      · simp [hjx, Ne.symm hjx, hjr, Ne.symm hjr]
  · intro j
    simp only [hRr, hLl, cutB, leftF_setMarkN, leftF_setDegreeN, leftF_dll, htail,
      leftF_setParentN, leftF_setRightN, leftF_setLeftN, leftF_setChildN, length_dll,
      length_setParentN, length_setRightN, length_setLeftN, length_setChildN]
    rcases eq_or_ne j x with rfl | hjx
    · simp [hx]
    · rcases eq_or_ne j (rightF s m) with rfl | hjt
      · simp [hjx, Ne.symm hjx, htl, htr, Ne.symm htr]
      · rcases eq_or_ne j (rightF s x) with rfl | hjr
        · simp [hjx, Ne.symm hjx, hjt, Ne.symm hjt, hrl]
        · simp [hjx, Ne.symm hjx, hjt, Ne.symm hjt, hjr, Ne.symm hjr]
  · intro j
    simp only [hRr, hLl, cutB, rightF_setMarkN, rightF_setDegreeN, rightF_dll, htail,
      rightF_setParentN, rightF_setRightN, rightF_setLeftN, rightF_setChildN, length_dll,
      length_setParentN, length_setRightN, length_setLeftN, length_setChildN]
    rcases eq_or_ne j x with rfl | hjx
    · simp [hx]
    · rcases eq_or_ne j m with rfl | hjm
      · simp [hjx, Ne.symm hjx, hml, hmll, Ne.symm hmll]
      · rcases eq_or_ne j (leftF s x) with rfl | hjl
        · simp [hjx, Ne.symm hjx, hjm, Ne.symm hjm, hll]
        · simp [hjx, Ne.symm hjx, hjm, Ne.symm hjm, hjl, Ne.symm hjl]

theorem cutA_inv (s : Mem) (h : Heap) (x y m : Nat)
    (hW : WFptr s) (hLR : ringLR s) (hSR : sibParR s) (hSL : sibParL s)
    (hRS : rootSib s) (hCP : childParent s) (hNS : noSelfPar s) (hMR : minRootOk s h)
    (hm : h._min = some m) (hx : x < s.length) (hxyF : parF s x = some y)
    (hrx : rightF s x = x) :
    StructInv (cutA s x y m) h ∧
    (cutA s x y m).length = s.length ∧
    (∀ j, prioF (cutA s x y m) j = prioF s j) ∧
    (∀ j, objF (cutA s x y m) j = objF s j) ∧
    (∀ j, parF (cutA s x y m) j = if j = x then none else parF s j) ∧
    (∀ j, markF (cutA s x y m) j = if j = x then false else markF s j) := by
  have hy : y < s.length := (hW x hx).2.2.1 y hxyF
  have hml : m < s.length := (hMR m hm).1
  have hmroot : parF s m = none := (hMR m hm).2
  have hmx : m ≠ x := fun he => by rw [he, hxyF] at hmroot; cases hmroot
  have htroot : parF s (rightF s m) = none := (hRS m hml hmroot).1
  have htx : rightF s m ≠ x := fun he => by rw [he, hxyF] at htroot; cases htroot
  have htl : rightF s m < s.length := (hW m hml).2.1
  have hlxx : leftF s x = x := by
    have := (hLR x hx).1
    rw [hrx] at this
    exact this
  have hRightInjX : ∀ i, i < s.length → rightF s i = x → i = x := by
    intro i hi he
    have := (hLR i hi).1
    rw [he, hlxx] at this
    exact this.symm
  have hLeftInjX : ∀ i, i < s.length → leftF s i = x → i = x := by
    intro i hi he
    have := (hLR i hi).2
    rw [he, hrx] at this
    exact this.symm
  have hRightInjT : ∀ i, i < s.length → rightF s i = rightF s m → i = m := by
    intro i hi he
    have h1 := (hLR i hi).1
    have h2 := (hLR m hml).1
    rw [he] at h1
    rw [h1] at h2
    exact h2
  have hLeftInjM : ∀ i, i < s.length → leftF s i = m → i = rightF s m := by
    intro i hi he
    have := (hLR i hi).2
    rw [he] at this
    exact this.symm
  obtain ⟨Flen, Fprio, Fobj, Fmark, Fdeg, Fchild, Fpar, Fleft, Fright⟩ :=
    cutA_fields s x y m hx hy hmx hml htl
  refine ⟨⟨?_, ?_, ?_, ?_, ?_, ?_, ?_, ?_,
    fun hnone => by rw [hm] at hnone; cases hnone⟩, Flen, Fprio, Fobj, Fpar, Fmark⟩
  · -- WFptr
    intro i hi
    rw [Flen] at hi
    refine ⟨?_, ?_, ?_, ?_⟩
    · rw [Flen, Fleft]
      split
      · exact hml
      · split
        · exact hx
        · exact (hW i hi).1
    · rw [Flen, Fright]
      split
      · exact htl
      · split
        · exact hx
        · exact (hW i hi).2.1
    · intro q hq
      rw [Fpar] at hq
      rw [Flen]
      split at hq
      · cases hq
      · exact (hW i hi).2.2.1 q hq
    · intro c hc
      rw [Fchild] at hc
      rw [Flen]
      split at hc
      · cases hc
      · exact (hW i hi).2.2.2 c hc
  · -- ringLR
    intro i hi
    rw [Flen] at hi
    constructor
    · rw [Fright i]
      rcases eq_or_ne i x with rfl | hix
      · rw [if_pos rfl, Fleft]
        rw [if_neg htx, if_pos rfl]
      · rw [if_neg hix]
        rcases eq_or_ne i m with rfl | him
        · rw [if_pos rfl, Fleft, if_pos rfl]
        · rw [if_neg him, Fleft]
          have hnx : rightF s i ≠ x := fun he => hix (hRightInjX i hi he)
          have hnt : rightF s i ≠ rightF s m := fun he => him (hRightInjT i hi he)
          rw [if_neg hnx, if_neg hnt]
          exact (hLR i hi).1
    · rw [Fleft i]
      rcases eq_or_ne i x with rfl | hix
      · rw [if_pos rfl, Fright, if_neg hmx, if_pos rfl]
      · rw [if_neg hix]
        rcases eq_or_ne i (rightF s m) with rfl | hit
        · rw [if_pos rfl, Fright, if_pos rfl]
        · rw [if_neg hit, Fright]
          have hnx : leftF s i ≠ x := fun he => hix (hLeftInjX i hi he)
          have hnm : leftF s i ≠ m := fun he => hit (hLeftInjM i hi he)
          rw [if_neg hnx, if_neg hnm]
          exact (hLR i hi).2
  · -- sibParR
    intro i hi q hq
    rw [Flen] at hi
    rw [Fpar] at hq
    split at hq
    · cases hq
    · rename_i hix
      have him : i ≠ m := fun he => by rw [he, hmroot] at hq; cases hq
      rw [Fright, if_neg hix, if_neg him, Fpar]
      have hnx : rightF s i ≠ x := fun he => hix (hRightInjX i hi he)
      rw [if_neg hnx]
      exact hSR i hi q hq
  · -- sibParL
    intro i hi q hq
    rw [Flen] at hi
    rw [Fpar] at hq
    split at hq
    · cases hq
    · rename_i hix
      have hit : i ≠ rightF s m := fun he => by rw [he, htroot] at hq; cases hq
      rw [Fleft, if_neg hix, if_neg hit, Fpar]
      have hnx : leftF s i ≠ x := fun he => hix (hLeftInjX i hi he)
      rw [if_neg hnx]
      exact hSL i hi q hq
  · -- rootSib
    intro i hi hroot
    rw [Flen] at hi
    rw [Fpar] at hroot
    rcases eq_or_ne i x with rfl | hix
    · constructor
      · rw [Fright, if_pos rfl, Fpar, if_neg htx]
        exact htroot
      · rw [Fleft, if_pos rfl, Fpar, if_neg hmx]
        exact hmroot
    · rw [if_neg hix] at hroot
      constructor
      · rcases eq_or_ne i m with rfl | him
        · rw [Fright, if_neg hix, if_pos rfl, Fpar, if_pos rfl]
        · rw [Fright, if_neg hix, if_neg him, Fpar]
          have hnx : rightF s i ≠ x := fun he => hix (hRightInjX i hi he)
          rw [if_neg hnx]
          exact (hRS i hi hroot).1
      · rcases eq_or_ne i (rightF s m) with rfl | hit
        · rw [Fleft, if_neg hix, if_pos rfl, Fpar, if_pos rfl]
        · rw [Fleft, if_neg hix, if_neg hit, Fpar]
          have hnx : leftF s i ≠ x := fun he => hix (hLeftInjX i hi he)
          rw [if_neg hnx]
          exact (hRS i hi hroot).2
  · -- childParent
    intro i hi c hc
    rw [Flen] at hi
    rw [Fchild] at hc
    split at hc
    · cases hc
    · rename_i hiy
      have hcx : c ≠ x := by
        intro he
        subst he
        have := hCP i hi c hc
        rw [hxyF] at this
        exact hiy (Option.some_inj.mp this).symm
      rw [Fpar, if_neg hcx]
      exact hCP i hi c hc
  · -- noSelfPar
    intro i hi hq
    rw [Flen] at hi
    rw [Fpar] at hq
    split at hq
    · cases hq
    · exact hNS i hi hq
  · -- minRootOk
    intro m' hm'
    rw [hm] at hm'
    cases hm'
    rw [Flen, Fpar, if_neg hmx]
    exact ⟨hml, hmroot⟩

theorem cutB_inv (s : Mem) (h : Heap) (x y m : Nat)
    (hW : WFptr s) (hLR : ringLR s) (hSR : sibParR s) (hSL : sibParL s)
    (hRS : rootSib s) (hCP : childParent s) (hNS : noSelfPar s) (hMR : minRootOk s h)
    (hm : h._min = some m) (hx : x < s.length) (hxyF : parF s x = some y)
    (hrxne : rightF s x ≠ x) :
    StructInv (cutB s x y m) h ∧
    (cutB s x y m).length = s.length ∧
    (∀ j, prioF (cutB s x y m) j = prioF s j) ∧
    (∀ j, objF (cutB s x y m) j = objF s j) ∧
    (∀ j, parF (cutB s x y m) j = if j = x then none else parF s j) ∧
    (∀ j, markF (cutB s x y m) j = if j = x then false else markF s j) := by
  have hy : y < s.length := (hW x hx).2.2.1 y hxyF
  have hml : m < s.length := (hMR m hm).1
  have hmroot : parF s m = none := (hMR m hm).2
  have hmx : m ≠ x := fun he => by rw [he, hxyF] at hmroot; cases hmroot
  have htroot : parF s (rightF s m) = none := (hRS m hml hmroot).1
  have htx : rightF s m ≠ x := fun he => by rw [he, hxyF] at htroot; cases htroot
  have htl : rightF s m < s.length := (hW m hml).2.1
  have hr_par : parF s (rightF s x) = some y := hSR x hx y hxyF
  have hl_par : parF s (leftF s x) = some y := hSL x hx y hxyF
  have hrl : rightF s x < s.length := (hW x hx).2.1
  have hll : leftF s x < s.length := (hW x hx).1
  have hlx : leftF s x ≠ x := by
    intro he
    apply hrxne
    have := (hLR x hx).2
    rw [he] at this
    exact this
  have htr : rightF s m ≠ rightF s x := fun he => by rw [he, hr_par] at htroot; cases htroot
  have htll : rightF s m ≠ leftF s x := fun he => by rw [he, hl_par] at htroot; cases htroot
  have hmr : m ≠ rightF s x := fun he => by rw [he, hr_par] at hmroot; cases hmroot
  have hmll : m ≠ leftF s x := fun he => by rw [he, hl_par] at hmroot; cases hmroot
  have hRightInjX : ∀ i, i < s.length → rightF s i = x → i = leftF s x := by
    intro i hi he
    have h1 := (hLR i hi).1
    rw [he] at h1
    exact h1.symm
  have hRightInjT : ∀ i, i < s.length → rightF s i = rightF s m → i = m := by
    intro i hi he
    have h1 := (hLR i hi).1
    have h2 := (hLR m hml).1
    rw [he] at h1
    rw [h1] at h2
    exact h2
  have hRightInjR : ∀ i, i < s.length → rightF s i = rightF s x → i = x := by
    intro i hi he
    have h1 := (hLR i hi).1
    have h2 := (hLR x hx).1
    rw [he] at h1
    rw [h1] at h2
    exact h2
  have hLeftInjX : ∀ i, i < s.length → leftF s i = x → i = rightF s x := by
    intro i hi he
    have h1 := (hLR i hi).2
    rw [he] at h1
    exact h1.symm
  have hLeftInjM : ∀ i, i < s.length → leftF s i = m → i = rightF s m := by
    intro i hi he
    have h1 := (hLR i hi).2
    rw [he] at h1
    exact h1.symm
  have hLeftInjL : ∀ i, i < s.length → leftF s i = leftF s x → i = x := by
    intro i hi he
    have h1 := (hLR i hi).2
    have h2 := (hLR x hx).2
    rw [he] at h1
    rw [h1] at h2
    exact h2
  obtain ⟨Flen, Fprio, Fobj, Fmark, Fdeg, Fchild, Fpar, Fleft, Fright⟩ :=
    cutB_fields s x y m hx hy hml hrl hll htl hmx hrxne hlx htx htr htll hmr hmll
  have FpC : ∀ j, parF (cutB s x y m) j = if j = x then none else parF s j := by
    intro j
    rw [Fpar]
    rcases eq_or_ne j x with rfl | hjx
    · rw [if_pos rfl, if_pos rfl]
    · rw [if_neg hjx, if_neg hjx]
      rcases eq_or_ne j (rightF s x) with rfl | hjr
      · rw [if_pos rfl, hr_par]
      · rw [if_neg hjr]
  refine ⟨⟨?_, ?_, ?_, ?_, ?_, ?_, ?_, ?_,
    fun hnone => by rw [hm] at hnone; cases hnone⟩, Flen, Fprio, Fobj, FpC, Fmark⟩
  · -- WFptr
    intro i hi
    rw [Flen] at hi
    refine ⟨?_, ?_, ?_, ?_⟩
    · rw [Flen, Fleft]
      split
      · exact hml
      · split
        · exact hx
        · split
          · exact hll
          · exact (hW i hi).1
    · rw [Flen, Fright]
      split
      · exact htl
      · split
        · exact hx
        · split
          · exact hrl
          · exact (hW i hi).2.1
    · intro q hq
      rw [FpC] at hq
      rw [Flen]
      split at hq
      · cases hq
      · exact (hW i hi).2.2.1 q hq
    · intro c hc
      rw [Fchild] at hc
      rw [Flen]
      split at hc
      · cases hc
        exact hrl
      · exact (hW i hi).2.2.2 c hc
  · -- ringLR
    intro i hi
    rw [Flen] at hi
    constructor
    · rw [Fright i]
      rcases eq_or_ne i x with rfl | hix
      · rw [if_pos rfl, Fleft, if_neg htx, if_pos rfl]
      · rw [if_neg hix]
        rcases eq_or_ne i m with rfl | him
        · rw [if_pos rfl, Fleft, if_pos rfl]
        · rw [if_neg him]
          rcases eq_or_ne i (leftF s x) with rfl | hil
          · rw [if_pos rfl, Fleft, if_neg hrxne, if_neg (Ne.symm htr), if_pos rfl]
          · rw [if_neg hil, Fleft]
            have hnx : rightF s i ≠ x := fun he => hil (hRightInjX i hi he)
            have hnt : rightF s i ≠ rightF s m := fun he => him (hRightInjT i hi he)
            have hnr : rightF s i ≠ rightF s x := fun he => hix (hRightInjR i hi he)
            rw [if_neg hnx, if_neg hnt, if_neg hnr]
            exact (hLR i hi).1
    · rw [Fleft i]
      rcases eq_or_ne i x with rfl | hix
      · rw [if_pos rfl, Fright, if_neg hmx, if_pos rfl]
      · rw [if_neg hix]
        rcases eq_or_ne i (rightF s m) with rfl | hit
        · rw [if_pos rfl, Fright, if_pos rfl]
        · rw [if_neg hit]
          rcases eq_or_ne i (rightF s x) with rfl | hir
          · rw [if_pos rfl, Fright, if_neg hlx, if_neg (Ne.symm hmll), if_pos rfl]
          · rw [if_neg hir, Fright]
            have hnx : leftF s i ≠ x := fun he => hir (hLeftInjX i hi he)
            have hnm : leftF s i ≠ m := fun he => hit (hLeftInjM i hi he)
            have hnl : leftF s i ≠ leftF s x := fun he => hix (hLeftInjL i hi he)
            rw [if_neg hnx, if_neg hnm, if_neg hnl]
            exact (hLR i hi).2
  · -- sibParR
    intro i hi q hq
    rw [Flen] at hi
    rw [FpC] at hq
    split at hq
    · cases hq
    · rename_i hix
      have him : i ≠ m := fun he => by rw [he, hmroot] at hq; cases hq
      rw [Fright, if_neg hix, if_neg him]
      rcases eq_or_ne i (leftF s x) with rfl | hil
      · rw [if_pos rfl, FpC, if_neg hrxne, hr_par]
        rw [hl_par] at hq
        exact hq
      · rw [if_neg hil, FpC]
        have hnx : rightF s i ≠ x := fun he => hil (hRightInjX i hi he)
        rw [if_neg hnx]
        exact hSR i hi q hq
  · -- sibParL
    intro i hi q hq
    rw [Flen] at hi
    rw [FpC] at hq
    split at hq
    · cases hq
    · rename_i hix
      have hit : i ≠ rightF s m := fun he => by rw [he, htroot] at hq; cases hq
      rw [Fleft, if_neg hix, if_neg hit]
      rcases eq_or_ne i (rightF s x) with rfl | hir
      · rw [if_pos rfl, FpC, if_neg hlx, hl_par]
        rw [hr_par] at hq
        exact hq
      · rw [if_neg hir, FpC]
        have hnx : leftF s i ≠ x := fun he => hir (hLeftInjX i hi he)
        rw [if_neg hnx]
        exact hSL i hi q hq
  · -- rootSib
    intro i hi hroot
    rw [Flen] at hi
    rw [FpC] at hroot
    rcases eq_or_ne i x with rfl | hix
    · constructor
      · rw [Fright, if_pos rfl, FpC, if_neg htx]
        exact htroot
      · rw [Fleft, if_pos rfl, FpC, if_neg hmx]
        exact hmroot
    · rw [if_neg hix] at hroot
      have hil : i ≠ leftF s x := fun he => by rw [he, hl_par] at hroot; cases hroot
      have hir : i ≠ rightF s x := fun he => by rw [he, hr_par] at hroot; cases hroot
      constructor
      · rcases eq_or_ne i m with rfl | him
        · rw [Fright, if_neg hix, if_pos rfl, FpC, if_pos rfl]
        · rw [Fright, if_neg hix, if_neg him, if_neg hil, FpC]
          have hnx : rightF s i ≠ x := fun he => hil (hRightInjX i hi he)
          rw [if_neg hnx]
          exact (hRS i hi hroot).1
      · rcases eq_or_ne i (rightF s m) with rfl | hit
        · rw [Fleft, if_neg hix, if_pos rfl, FpC, if_pos rfl]
        · rw [Fleft, if_neg hix, if_neg hit, if_neg hir, FpC]
          have hnx : leftF s i ≠ x := fun he => hir (hLeftInjX i hi he)
          rw [if_neg hnx]
          exact (hRS i hi hroot).2
  · -- childParent
    intro i hi c hc
    rw [Flen] at hi
    rw [Fchild] at hc
    split at hc
    · rename_i hiy
      cases hc
      rw [FpC, if_neg hrxne, hr_par, hiy]
    · rename_i hiy
      have hcx : c ≠ x := by
        intro he
        subst he
        have := hCP i hi c hc
        rw [hxyF] at this
        exact hiy (Option.some_inj.mp this).symm
      rw [FpC, if_neg hcx]
      exact hCP i hi c hc
  · -- noSelfPar
    intro i hi hq
    rw [Flen] at hi
    rw [FpC] at hq
    split at hq
    · cases hq
    · exact hNS i hi hq
  · -- minRootOk
    intro m' hm'
    rw [hm] at hm'
    cases hm'
    rw [Flen, FpC, if_neg hmx]
    exact ⟨hml, hmroot⟩

theorem cut_spec (s : Mem) (h : Heap) (x y m : Nat) {s' : Mem} {h' : Heap}
    (hInv : StructInv s h) (hm : h._min = some m) (hx : x < s.length)
    (hc : FibonacciHeap.cut s h x y = some (s', h')) :
    h' = h ∧ s'.length = s.length ∧
    (∀ j, prioF s' j = prioF s j) ∧ (∀ j, objF s' j = objF s j) ∧
    (∀ j, parF s' j = if j = x then none else parF s j) ∧
    (∀ j, markF s' j = if j = x then false else markF s j) ∧
    StructInv s' h := by
  obtain ⟨hW, hLR, hSR, hSL, hRS, hCP, hNS, hMR, hMN⟩ := hInv
  unfold FibonacciHeap.cut at hc
  by_cases hxy : (getN s x).parent = some y
  case neg =>
    rw [if_pos hxy] at hc
    cases hc
  case pos =>
    rw [if_neg (not_not_intro hxy)] at hc
    dsimp only [] at hc
    by_cases hrx : (getN s x).right = x
    · -- x is the only child of y
      rw [if_pos hrx] at hc
      have hpmid : (getN (setChildN s y none) x).parent = some y := by
        show parF _ _ = _
        rw [parF_setChildN]
        exact hxy
      have hirl : FibonacciHeap.insert_to_root_list (setChildN s y none) h x =
          (FibonacciHeap.doublylinkedlist_insert
            (setParentN (setChildN s y none) x none) (some m) x, h) := by
        unfold FibonacciHeap.insert_to_root_list
        rw [hm, if_pos (by rw [hpmid]; simp)]
      rw [hirl] at hc
      dsimp only [] at hc
      cases hc
      obtain ⟨FInv, Flen, Fprio, Fobj, Fpar, Fmark⟩ :=
        cutA_inv s h x y m hW hLR hSR hSL hRS hCP hNS hMR hm hx hxy hrx
      exact ⟨rfl, Flen, Fprio, Fobj, Fpar, Fmark, FInv⟩
    · -- x has siblings
      rw [if_neg hrx] at hc
      have e1 : (getN (setChildN s y (some ((getN s x).right))) x).right
          = (getN s x).right := by
        show rightF _ _ = rightF s x
        rw [rightF_setChildN]
      rw [e1] at hc
      have e2r : (getN (setParentN (setChildN s y (some ((getN s x).right)))
          ((getN s x).right) (some y)) x).right = (getN s x).right := by
        show rightF _ _ = rightF s x
        rw [rightF_setParentN, rightF_setChildN]
      have e2l : (getN (setParentN (setChildN s y (some ((getN s x).right)))
          ((getN s x).right) (some y)) x).left = (getN s x).left := by
        show leftF _ _ = leftF s x
        rw [leftF_setParentN, leftF_setChildN]
      rw [e2r, e2l] at hc
      have e3l : (getN (setLeftN (setParentN (setChildN s y (some ((getN s x).right)))
          ((getN s x).right) (some y)) ((getN s x).right) ((getN s x).left)) x).left
          = (getN s x).left := by
        show leftF _ _ = leftF s x
        rw [leftF_setLeftN, if_neg (by simp [hrx]), leftF_setParentN, leftF_setChildN]
      have e3r : (getN (setLeftN (setParentN (setChildN s y (some ((getN s x).right)))
          ((getN s x).right) (some y)) ((getN s x).right) ((getN s x).left)) x).right
          = (getN s x).right := by
        show rightF _ _ = rightF s x
        rw [rightF_setLeftN, rightF_setParentN, rightF_setChildN]
      rw [e3l, e3r] at hc
      have e4 : (getN (setRightN (setLeftN (setParentN (setChildN s y
          (some ((getN s x).right))) ((getN s x).right) (some y)) ((getN s x).right)
          ((getN s x).left)) ((getN s x).left) ((getN s x).right)) x).parent
          = some y := by
        show parF _ _ = some y
        rw [parF_setRightN, parF_setLeftN, parF_setParentN, if_neg (by simp [hrx]),
          parF_setChildN]
        exact hxy
      have hirl : FibonacciHeap.insert_to_root_list (setRightN (setLeftN (setParentN
          (setChildN s y (some ((getN s x).right))) ((getN s x).right) (some y))
          ((getN s x).right) ((getN s x).left)) ((getN s x).left) ((getN s x).right)) h x =
          (FibonacciHeap.doublylinkedlist_insert (setParentN (setRightN (setLeftN
            (setParentN (setChildN s y (some ((getN s x).right))) ((getN s x).right)
            (some y)) ((getN s x).right) ((getN s x).left)) ((getN s x).left)
            ((getN s x).right)) x none) (some m) x, h) := by
        unfold FibonacciHeap.insert_to_root_list
        rw [hm, if_pos (by rw [e4]; simp)]
      rw [hirl] at hc
      dsimp only [] at hc
      have hdeg : (getN (FibonacciHeap.doublylinkedlist_insert (setParentN (setRightN
          (setLeftN (setParentN (setChildN s y (some ((getN s x).right)))
          ((getN s x).right) (some y)) ((getN s x).right) ((getN s x).left))
          ((getN s x).left) ((getN s x).right)) x none) (some m) x) y).degree
          = degF s y := by
        show degF _ _ = _
        simp
      rw [hdeg] at hc
      cases hc
      obtain ⟨FInv, Flen, Fprio, Fobj, FpC, Fmark⟩ :=
        cutB_inv s h x y m hW hLR hSR hSL hRS hCP hNS hMR hm hx hxy hrx
      exact ⟨rfl, Flen, Fprio, Fobj, FpC, Fmark, FInv⟩

theorem structinv_setMarkN (s : Mem) (h : Heap) (y : Nat) (v : Bool)
    (hI : StructInv s h) : StructInv (setMarkN s y v) h := by
  obtain ⟨hW, hLR, hSR, hSL, hRS, hCP, hNS, hMR, hMN⟩ := hI
  refine ⟨?_, ?_, ?_, ?_, ?_, ?_, ?_, ?_, ?_⟩
  · intro i hi
    simp only [length_setMarkN] at hi ⊢
    simp only [leftF_setMarkN, rightF_setMarkN, parF_setMarkN, childF_setMarkN]
    exact hW i hi
  · intro i hi
    simp only [length_setMarkN] at hi
    simp only [leftF_setMarkN, rightF_setMarkN]
    exact hLR i hi
  · intro i hi q hq
    simp only [length_setMarkN] at hi
    simp only [parF_setMarkN, rightF_setMarkN] at hq ⊢
    exact hSR i hi q hq
  · intro i hi q hq
    simp only [length_setMarkN] at hi
    simp only [parF_setMarkN, leftF_setMarkN] at hq ⊢
    exact hSL i hi q hq
  · intro i hi hq
    simp only [length_setMarkN] at hi
    simp only [parF_setMarkN, rightF_setMarkN, leftF_setMarkN] at hq ⊢
    exact hRS i hi hq
  · intro i hi c hc
    simp only [length_setMarkN] at hi
    simp only [childF_setMarkN, parF_setMarkN] at hc ⊢
    exact hCP i hi c hc
  · intro i hi
    simp only [length_setMarkN] at hi
    simp only [parF_setMarkN]
    exact hNS i hi
  · intro m' hm'
    simp only [length_setMarkN, parF_setMarkN]
    exact hMR m' hm'
  · intro hnone i hi
    simp only [length_setMarkN] at hi
    simp only [parF_setMarkN]
    exact hMN hnone i hi

theorem structinv_setPriorityN (s : Mem) (h : Heap) (x : Nat) (p : Priority)
    (hI : StructInv s h) : StructInv (setPriorityN s x p) h := by
  obtain ⟨hW, hLR, hSR, hSL, hRS, hCP, hNS, hMR, hMN⟩ := hI
  refine ⟨?_, ?_, ?_, ?_, ?_, ?_, ?_, ?_, ?_⟩
  · intro i hi
    simp only [length_setPriorityN] at hi ⊢
    simp only [leftF_setPriorityN, rightF_setPriorityN, parF_setPriorityN,
      childF_setPriorityN]
    exact hW i hi
  · intro i hi
    simp only [length_setPriorityN] at hi
    simp only [leftF_setPriorityN, rightF_setPriorityN]
    exact hLR i hi
  · intro i hi q hq
    simp only [length_setPriorityN] at hi
    simp only [parF_setPriorityN, rightF_setPriorityN] at hq ⊢
    exact hSR i hi q hq
  · intro i hi q hq
    simp only [length_setPriorityN] at hi
    simp only [parF_setPriorityN, leftF_setPriorityN] at hq ⊢
    exact hSL i hi q hq
  · intro i hi hq
    simp only [length_setPriorityN] at hi
    simp only [parF_setPriorityN, rightF_setPriorityN, leftF_setPriorityN] at hq ⊢
    exact hRS i hi hq
  · intro i hi c hc
    simp only [length_setPriorityN] at hi
    simp only [childF_setPriorityN, parF_setPriorityN] at hc ⊢
    exact hCP i hi c hc
  · intro i hi
    simp only [length_setPriorityN] at hi
    simp only [parF_setPriorityN]
    exact hNS i hi
  · intro m' hm'
    simp only [length_setPriorityN, parF_setPriorityN]
    exact hMR m' hm'
  · intro hnone i hi
    simp only [length_setPriorityN] at hi
    simp only [parF_setPriorityN]
    exact hMN hnone i hi

theorem casc_spec (fuel : Nat) : ∀ (s : Mem) (h : Heap) (y m : Nat) {s' : Mem} {h' : Heap},
    StructInv s h → h._min = some m → y < s.length →
    FibonacciHeap.cascading_cut fuel s h y = some (s', h') →
    h' = h ∧ s'.length = s.length ∧
    (∀ j, prioF s' j = prioF s j) ∧ (∀ j, objF s' j = objF s j) ∧
    (∀ j, parF s' j = parF s j ∨ parF s' j = none) ∧
    StructInv s' h ∧
    (HeapOrder s → HeapOrder s') ∧
    (RootsUnmarked s → RootsUnmarked s') := by
  induction fuel with
  | zero =>
    intro s h y m s' h' _ _ _ hr
    cases hr
  | succ fuel ih =>
    intro s h y m s' h' hI hm hy hr
    unfold FibonacciHeap.cascading_cut at hr
    rcases hp : (getN s y).parent with _ | z
    · rw [hp] at hr
      cases hr
      exact ⟨rfl, rfl, fun _ => rfl, fun _ => rfl, fun _ => Or.inl rfl, hI,
        fun ho => ho, fun hr => hr⟩
    · rw [hp] at hr
      dsimp only [] at hr
      by_cases hmk : (getN s y).mark = false
      · rw [if_pos hmk] at hr
        cases hr
        refine ⟨rfl, by simp, fun j => by simp, fun j => by simp,
          fun j => Or.inl (by simp), structinv_setMarkN s h y true hI, ?_, ?_⟩
        · intro ho j hj q hq
          simp only [length_setMarkN] at hj
          simp only [parF_setMarkN] at hq
          simp only [prioF_setMarkN]
          exact ho j hj q hq
        · intro hru i hi hroot
          simp only [length_setMarkN] at hi
          simp only [parF_setMarkN] at hroot
          simp only [markF_setMarkN]
          rcases eq_or_ne y i with rfl | hyne
          · exfalso
            have hpy : parF s y = some z := hp
            rw [hroot] at hpy
            cases hpy
          · rw [if_neg (by intro hcon; exact hyne hcon.1)]
            exact hru i hi hroot
      · rw [if_neg hmk] at hr
        rcases hcut : FibonacciHeap.cut s h y z with _ | ⟨s1, h1⟩
        · rw [hcut] at hr
          cases hr
        · rw [hcut] at hr
          obtain ⟨hh1, hlen1, hprio1, hobj1, hpar1, hmark1, hI1⟩ :=
            cut_spec s h y z m hI hm hy hcut
          rw [hh1] at hr
          have hz : z < s.length := ((hI.1) y hy).2.2.1 z hp
          have hz1 : z < s1.length := by rw [hlen1]; exact hz
          obtain ⟨hh', hlen', hprio', hobj', hpar', hI', hord', hru'⟩ :=
            ih s1 h z m hI1 hm hz1 hr
          refine ⟨hh', hlen'.trans hlen1, fun j => (hprio' j).trans (hprio1 j),
            fun j => (hobj' j).trans (hobj1 j), ?_, hI', ?_, ?_⟩
          · intro j
            rcases hpar' j with hj | hj
            · rw [hj, hpar1 j]
              split
              · exact Or.inr rfl
              · exact Or.inl rfl
            · exact Or.inr hj
          · intro ho
            apply hord'
            intro j hj q hq
            rw [hlen1] at hj
            rw [hpar1 j] at hq
            rw [hprio1 q, hprio1 j]
            split at hq
            · cases hq
            · exact ho j hj q hq
          · intro hru
            apply hru'
            intro i hi hroot
            rw [hlen1] at hi
            rw [hpar1 i] at hroot
            rw [hmark1 i]
            rcases eq_or_ne i y with rfl | hiy
            · rw [if_pos rfl]
            · rw [if_neg hiy]
              rw [if_neg hiy] at hroot
              exact hru i hi hroot

theorem decrease_key_ok_spec (s : Mem) (h : Heap) (x : Nat) (p : Priority) (m : Nat)
    {s' : Mem} {h' : Heap}
    (hInv : StructInv s h) (hm : h._min = some m) (hx : x < s.length)
    (hdk : FibonacciHeap.decrease_key s h x p = .ok (s', h')) :
    s'.length = s.length ∧
    prioF s' x = p ∧ (∀ j, j ≠ x → prioF s' j = prioF s j) ∧
    (∀ j, objF s' j = objF s j) ∧
    h'._size = h._size ∧
    (HeapOrder s → HeapOrder s') ∧
    (RootsUnmarked s → RootsUnmarked s') ∧
    (m = x → h'._min = some x) ∧
    (m ≠ x → Priority.lt p (prioF s m) = true → h'._min = some x) ∧
    (m ≠ x → Priority.lt p (prioF s m) = false → h'._min = some m) := by
  unfold FibonacciHeap.decrease_key at hdk
  split at hdk
  · split at hdk <;> cases hdk
  rename_i hle
  have hlef : Priority.le (prioF s x) p = false := Bool.of_not_eq_true hle
  have hplex : Priority.le p (prioF s x) = true := by
    rcases Priority.le_total (prioF s x) p with ht | ht
    · rw [ht] at hlef
      cases hlef
    · exact ht
  dsimp only [] at hdk
  have hprio1 : ∀ j, prioF (setPriorityN s x p) j =
      if j = x then p else prioF s j := by
    intro j
    rcases eq_or_ne j x with rfl | hj
    · simp [hx]
    · simp [hj, Ne.symm hj]
  have hpar1 : ∀ j, parF (setPriorityN s x p) j = parF s j := by
    intro j
    simp
  have hlen1 : (setPriorityN s x p).length = s.length := by simp
  have hI1 : StructInv (setPriorityN s x p) h := structinv_setPriorityN s h x p hInv
  have hpar_s1 : (getN (setPriorityN s x p) x).parent = (getN s x).parent := hpar1 x
  rw [hpar_s1] at hdk
  -- the order-with-exceptions fact for the updated store
  have hOrd1X : HeapOrder s → ∀ j, j < s.length → ∀ q, parF s j = some q → j ≠ x →
      Priority.le (prioF (setPriorityN s x p) q) (prioF (setPriorityN s x p) j) = true := by
    intro ho j hj q hq hjx
    rw [hprio1 q, hprio1 j, if_neg hjx]
    rcases eq_or_ne q x with rfl | hqx
    · rw [if_pos rfl]
      exact Priority.le_trans hplex (ho j hj q hq)
    · rw [if_neg hqx]
      exact ho j hj q hq
  have hRU1 : RootsUnmarked s → RootsUnmarked (setPriorityN s x p) := by
    intro hru i hi hroot
    rw [hlen1] at hi
    rw [hpar1] at hroot
    have : markF (setPriorityN s x p) i = markF s i := by simp
    rw [this]
    exact hru i hi hroot
  rcases hpp : (getN s x).parent with _ | y
  · -- x is a root: no cut
    rw [hpp] at hdk
    dsimp only [] at hdk
    rw [hm] at hdk
    dsimp only [] at hdk
    have hOrd1 : HeapOrder s → HeapOrder (setPriorityN s x p) := by
      intro ho j hj q hq
      rw [hlen1] at hj
      rw [hpar1] at hq
      rcases eq_or_ne j x with rfl | hjx
      · rw [show parF s j = none from hpp] at hq
        cases hq
      · exact hOrd1X ho j hj q hq hjx
    split at hdk
    · cases hdk
      rename_i hC
      refine ⟨hlen1, by rw [hprio1, if_pos rfl], fun j hj => by rw [hprio1, if_neg hj],
        fun j => by simp, rfl, hOrd1, hRU1, ?_, ?_, ?_⟩
      · intro _
        rfl
      · intro _ _
        rfl
      · intro hmx hlt
        exfalso
        have hC2 : Priority.lt (prioF (setPriorityN s x p) x)
            (prioF (setPriorityN s x p) m) = true := hC
        rw [hprio1, if_pos rfl, hprio1, if_neg hmx] at hC2
        rw [hC2] at hlt
        cases hlt
    · cases hdk
      rename_i hC
      refine ⟨hlen1, by rw [hprio1, if_pos rfl], fun j hj => by rw [hprio1, if_neg hj],
        fun j => by simp, rfl, hOrd1, hRU1, ?_, ?_, ?_⟩
      · intro hmx
        rw [hm, hmx]
      · intro hmx hlt
        exfalso
        have hC2 : ¬ Priority.lt (prioF (setPriorityN s x p) x)
            (prioF (setPriorityN s x p) m) = true := hC
        rw [hprio1, if_pos rfl, hprio1, if_neg hmx] at hC2
        exact hC2 hlt
      · intro _ _
        exact hm
  · -- x has a parent y
    rw [hpp] at hdk
    dsimp only [] at hdk
    have hxy : parF s x = some y := hpp
    have hyx : y ≠ x := by
      intro he
      exact hInv.2.2.2.2.2.2.1 x hx (by rw [hxy, he])
    have hcndE : (getN (setPriorityN s x p) x).priority = p := by
      show prioF _ _ = p
      rw [hprio1, if_pos rfl]
    have hcndY : (getN (setPriorityN s x p) y).priority = prioF s y := by
      show prioF _ _ = _
      rw [hprio1, if_neg hyx]
    rw [hcndE, hcndY] at hdk
    by_cases hlt : Priority.lt p (prioF s y) = true
    · -- heap order violated: cut + cascading cut
      rw [if_pos hlt] at hdk
      rcases hcut : FibonacciHeap.cut (setPriorityN s x p) h x y with _ | ⟨sc, hc1⟩
      · rw [hcut] at hdk
        dsimp only [] at hdk
        cases hdk
      · rw [hcut] at hdk
        dsimp only [] at hdk
        obtain ⟨hhc, hlenc, hprioc, hobjc, hparc, hmarkc, hIc⟩ :=
          cut_spec (setPriorityN s x p) h x y m hI1 hm (by rw [hlen1]; exact hx) hcut
        rw [hhc] at hdk
        have hylt : y < sc.length := by
          rw [hlenc, hlen1]
          exact (hInv.1 x hx).2.2.1 y hxy
        rcases hcas : FibonacciHeap.cascading_cut (sc.length + 1) sc h y with _ | ⟨s2, h2⟩
        · rw [hcas] at hdk
          cases hdk
        · rw [hcas] at hdk
          obtain ⟨hh2, hlen2, hprio2, hobj2, hpar2, hI2, hord2, hru2⟩ :=
            casc_spec (sc.length + 1) sc h y m hIc hm hylt hcas
          rw [hh2] at hdk
          dsimp only [] at hdk
          rw [hm] at hdk
          dsimp only [] at hdk
          have hpx2 : prioF s2 x = p := by
            rw [hprio2, hprioc, hprio1, if_pos rfl]
          have hpm2 : m ≠ x → prioF s2 m = prioF s m := by
            intro hmx
            rw [hprio2, hprioc, hprio1, if_neg hmx]
          have hOrdc : HeapOrder s → HeapOrder sc := by
            intro ho j hj q hq
            rw [hlenc, hlen1] at hj
            rw [hparc j, hpar1] at hq
            rw [hprioc q, hprioc j]
            split at hq
            · cases hq
            · rename_i hjx
              exact hOrd1X ho j hj q hq hjx
          have hRUc : RootsUnmarked s → RootsUnmarked sc := by
            intro hru i hi hroot
            rw [hlenc, hlen1] at hi
            rw [hparc i, hpar1] at hroot
            rw [hmarkc i]
            rcases eq_or_ne i x with rfl | hix
            · rw [if_pos rfl]
            · rw [if_neg hix]
              rw [if_neg hix] at hroot
              have : markF (setPriorityN s x p) i = markF s i := by simp
              rw [this]
              exact hru i hi hroot
          have hgx : (getN s2 x).priority = p := hpx2
          rw [hgx] at hdk
          split at hdk
          · cases hdk
            rename_i hC
            refine ⟨hlen2.trans (hlenc.trans hlen1), hpx2,
              fun j hj => by rw [hprio2, hprioc, hprio1, if_neg hj],
              fun j => by rw [hobj2, hobjc]; simp, rfl,
              fun ho => hord2 (hOrdc ho), fun hru => hru2 (hRUc hru), ?_, ?_, ?_⟩
            · intro _
              rfl
            · intro _ _
              rfl
            · intro hmx hlt2
              exfalso
              have hC2 : Priority.lt p (prioF s' m) = true := hC
              rw [show prioF s' m = prioF s m from hpm2 hmx] at hC2
              rw [hC2] at hlt2
              cases hlt2
          · cases hdk
            rename_i hC
            refine ⟨hlen2.trans (hlenc.trans hlen1), hpx2,
              fun j hj => by rw [hprio2, hprioc, hprio1, if_neg hj],
              fun j => by rw [hobj2, hobjc]; simp, rfl,
              fun ho => hord2 (hOrdc ho), fun hru => hru2 (hRUc hru), ?_, ?_, ?_⟩
            · intro hmx
              rw [hm, hmx]
            · intro hmx hlt2
              exfalso
              apply hC
              show Priority.lt p (prioF s' m) = true
              rw [show prioF s' m = prioF s m from hpm2 hmx]
              exact hlt2
            · intro _ _
              exact hm
    · -- no cut needed
      rw [if_neg hlt] at hdk
      dsimp only [] at hdk
      rw [hm] at hdk
      dsimp only [] at hdk
      have hOrd1 : HeapOrder s → HeapOrder (setPriorityN s x p) := by
        intro ho j hj q hq
        rw [hlen1] at hj
        rw [hpar1] at hq
        rcases eq_or_ne j x with rfl | hjx
        · rw [hxy] at hq
          cases hq
          rw [hprio1, if_neg hyx, hprio1, if_pos rfl]
          exact Priority.le_of_not_lt (Bool.of_not_eq_true hlt)
        · exact hOrd1X ho j hj q hq hjx
      split at hdk
      · cases hdk
        rename_i hC
        refine ⟨hlen1, by rw [hprio1, if_pos rfl], fun j hj => by rw [hprio1, if_neg hj],
          fun j => by simp, rfl, hOrd1, hRU1, ?_, ?_, ?_⟩
        · intro _
          rfl
        · intro _ _
          rfl
        · intro hmx hlt2
          exfalso
          have hC2 : Priority.lt (prioF (setPriorityN s x p) x)
              (prioF (setPriorityN s x p) m) = true := hC
          rw [hprio1, if_pos rfl, hprio1, if_neg hmx] at hC2
          rw [hC2] at hlt2
          cases hlt2
      · cases hdk
        rename_i hC
        refine ⟨hlen1, by rw [hprio1, if_pos rfl], fun j hj => by rw [hprio1, if_neg hj],
          fun j => by simp, rfl, hOrd1, hRU1, ?_, ?_, ?_⟩
        · intro hmx
          rw [hm, hmx]
        · intro hmx hlt2
          exfalso
          have hC2 : ¬ Priority.lt (prioF (setPriorityN s x p) x)
              (prioF (setPriorityN s x p) m) = true := hC
          rw [hprio1, if_pos rfl, hprio1, if_neg hmx] at hC2
          exact hC2 hlt2
        · intro _ _
          exact hm

theorem parF_oob (s : Mem) {x : Nat} (hx : s.length ≤ x) : parF s x = none := by
  unfold parF getN List.getD
  rw [List.get?_eq_getElem?, List.getElem?_eq_none hx]
  rfl

theorem decrease_key_verr (s : Mem) (h : Heap) (x : Nat) (p : Priority)
    {r : Mem × Heap} (hdk : FibonacciHeap.decrease_key s h x p = .verr r) :
    r = (s, h) := by
  unfold FibonacciHeap.decrease_key at hdk
  split at hdk
  · split at hdk
    · cases hdk
      rfl
    · cases hdk
  · dsimp only [] at hdk
    split at hdk
    · cases hdk
    · split at hdk
      · cases hdk
      · split at hdk <;> cases hdk

theorem decrease_key_empty_not_ok (s : Mem) (h : Heap) (x : Nat) (p : Priority)
    {r : Mem × Heap} (hI : StructInv s h) (hnone : h._min = none) :
    FibonacciHeap.decrease_key s h x p ≠ .ok r := by
  intro hdk
  unfold FibonacciHeap.decrease_key at hdk
  split at hdk
  · split at hdk <;> cases hdk
  · dsimp only [] at hdk
    have hpx : (getN (setPriorityN s x p) x).parent = none := by
      show parF _ _ = none
      rw [parF_setPriorityN]
      rcases Nat.lt_or_ge x s.length with hxl | hxl
      · exact hI.2.2.2.2.2.2.2.2 hnone x hxl
      · exact parF_oob s hxl
    rw [hpx] at hdk
    dsimp only [] at hdk
    rw [hnone] at hdk
    cases hdk
theorem decrease_key_oob_ok (s : Mem) (h : Heap) (x : Nat) (p : Priority)
    {s' : Mem} {h' : Heap} (hx : s.length ≤ x)
    (hdk : FibonacciHeap.decrease_key s h x p = .ok (s', h')) : s' = s := by
  unfold FibonacciHeap.decrease_key at hdk
  split at hdk
  · split at hdk <;> cases hdk
  · dsimp only [] at hdk
    have hsp : setPriorityN s x p = s := by
      unfold setPriorityN updN
      exact List.set_eq_of_length_le hx
    rw [hsp] at hdk
    have hp2 : (getN s x).parent = none := parF_oob s hx
    rw [hp2] at hdk
    dsimp only [] at hdk
    rcases hmm : h._min with _ | mm
    · rw [hmm] at hdk
      cases hdk
    · rw [hmm] at hdk
      dsimp only [] at hdk
      split at hdk <;> cases hdk <;> rfl

/-- C7: starting from a structurally well-formed, heap-ordered state, every
public operation (insert, extractMin, decreaseKey, delete, merge) that
returns normally or rejects with `ValueError` leaves the store heap-ordered:
the parent's priority is `≤` each child's priority along every
parent-to-child edge. -/
theorem heap_order_preserved (s : Mem) (h : Heap) (op : Op) {s' : Mem} {h' : Heap}
    (hInv : StructInv s h) (ho : HeapOrder s)
    (hstep : step s h op = .ok (s', h') ∨ step s h op = .verr (s', h')) :
    HeapOrder s' := by
  cases op with
  | insert x p =>
    rcases hstep with hstep | hstep
    · simp only [step] at hstep
      cases hstep
      exact order_insert s h x p (fun j hj q hq => (hInv.1 j hj).2.2.1 q hq) ho
    · simp only [step] at hstep
      cases hstep
  | extractMin =>
    rcases hstep with hstep | hstep
    · simp only [step] at hstep
      rcases he : FibonacciHeap.extract_min s h with _ | ⟨s2, h2, r⟩ <;> rw [he] at hstep
      · cases hstep
      · dsimp only [] at hstep
        cases hstep
        exact order_extract_min s h he ho
    · simp only [step] at hstep
      rcases he : FibonacciHeap.extract_min s h with _ | ⟨s2, h2, r⟩ <;> rw [he] at hstep <;>
        cases hstep
  | decreaseKey x p =>
    rcases hstep with hstep | hstep
    · simp only [step] at hstep
      rcases hmm : h._min with _ | m
      · exact absurd hstep (decrease_key_empty_not_ok s h x p hInv hmm)
      · rcases Nat.lt_or_ge x s.length with hx | hx
        · exact (decrease_key_ok_spec s h x p m hInv hmm hx hstep).2.2.2.2.2.1 ho
        · rw [decrease_key_oob_ok s h x p hx hstep]
          exact ho
    · simp only [step] at hstep
      have h2 := decrease_key_verr s h x p hstep
      injection h2 with h2a h2b
      rw [h2a]
      exact ho
  | delete x =>
    have horder1 : ∀ s1 h1, FibonacciHeap.decrease_key s h x .negInf = .ok (s1, h1) →
        HeapOrder s1 := by
      intro s1 h1 hdk
      rcases hmm : h._min with _ | m
      · exact absurd hdk (decrease_key_empty_not_ok s h x .negInf hInv hmm)
      · rcases Nat.lt_or_ge x s.length with hx | hx
        · exact (decrease_key_ok_spec s h x .negInf m hInv hmm hx hdk).2.2.2.2.2.1 ho
        · rw [decrease_key_oob_ok s h x .negInf hx hdk]
          exact ho
    rcases hstep with hstep | hstep
    · simp only [step] at hstep
      unfold FibonacciHeap.delete at hstep
      rcases hdk : FibonacciHeap.decrease_key s h x .negInf with ⟨s1, h1⟩ | r1 | _ <;>
        rw [hdk] at hstep
      · dsimp only [] at hstep
        rcases he : FibonacciHeap.extract_min s1 h1 with _ | ⟨s2, h2, r⟩ <;> rw [he] at hstep
        · cases hstep
        · dsimp only [] at hstep
          cases hstep
          exact order_extract_min s1 h1 he (horder1 s1 h1 hdk)
      · cases hstep
      · cases hstep
    · simp only [step] at hstep
      unfold FibonacciHeap.delete at hstep
      rcases hdk : FibonacciHeap.decrease_key s h x .negInf with ⟨s1, h1⟩ | r1 | _ <;>
        rw [hdk] at hstep
      · dsimp only [] at hstep
        rcases he : FibonacciHeap.extract_min s1 h1 with _ | ⟨s2, h2, r⟩ <;> rw [he] at hstep <;>
          cases hstep
      · cases hstep
        have h2 := decrease_key_verr s h x .negInf hdk
        injection h2 with h2a h2b
        rw [h2a]
        exact ho
      · cases hstep
  | merge other =>
    rcases hstep with hstep | hstep
    · simp only [step] at hstep
      rcases hm : FibonacciHeap.merge s h other with _ | ⟨s2, h2, hB2⟩ <;> rw [hm] at hstep
      · cases hstep
      · dsimp only [] at hstep
        cases hstep
        exact order_merge s h other hm ho
    · simp only [step] at hstep
      rcases hm : FibonacciHeap.merge s h other with _ | ⟨s2, h2, hB2⟩ <;> rw [hm] at hstep <;>
        cases hstep

theorem heap_order_preserved_witness :
    HeapOrder (FibonacciHeap.insert [] FibonacciHeap.empty 5 (Priority.fin 3)).1 :=
  heap_order_preserved [] FibonacciHeap.empty (Op.insert 5 (Priority.fin 3))
    ⟨fun i hi => absurd hi (Nat.not_lt_zero i), fun i hi => absurd hi (Nat.not_lt_zero i),
     fun i hi => absurd hi (Nat.not_lt_zero i), fun i hi => absurd hi (Nat.not_lt_zero i),
     fun i hi => absurd hi (Nat.not_lt_zero i), fun i hi => absurd hi (Nat.not_lt_zero i),
     fun i hi => absurd hi (Nat.not_lt_zero i), fun _ hm => Option.noConfusion hm,
     fun _ i hi => absurd hi (Nat.not_lt_zero i)⟩
    (fun i hi => absurd hi (Nat.not_lt_zero i))
    (Or.inl rfl)

/-- Run a list of public operations in sequence, stopping at the first
abnormal result. -/
def runOps (s : Mem) (h : Heap) : List Op → Res (Mem × Heap)
  | [] => .ok (s, h)
  | op :: ops =>
    match step s h op with
    | .ok (s, h) => runOps s h ops
    | .verr r => .verr r
    | .crash => .crash

/-- The operation sequence of the C2 counterexample: five inserts, an
extract-min (links the trees), a decrease-key that marks an internal node,
and an extract-min that promotes that still-marked node to the root list. -/
def c2ops : List Op :=
  [.insert 10 (.fin 2), .insert 11 (.fin 5), .insert 12 (.fin 4),
   .insert 13 (.fin 3), .insert 14 (.fin 1),
   .extractMin, .decreaseKey 2 (.fin 0), .extractMin]

theorem markF_append (s : Mem) (e : Elem) (j : Nat) :
    markF (s ++ [e]) j = if j = s.length then e.mark else markF s j := by
  rcases Nat.lt_trichotomy j s.length with hj | hj | hj
  · rw [if_neg (by omega), markF, markF, getN_append_lt s e hj]
  · rw [if_pos hj, markF, hj, getN_append_self]
  · rw [if_neg (by omega), markF, markF]
    simp only [getN, List.getD, List.get?_eq_getElem?]
    rw [List.getElem?_eq_none (l := s ++ [e]) (by simp; omega),
      List.getElem?_eq_none (l := s) (by omega)]

theorem parF_insert (s : Mem) (h : Heap) (x : Nat) (p : Priority) (j : Nat) :
    parF (FibonacciHeap.insert s h x p).1 j = if j = s.length then none else parF s j := by
  have h0 : (FibonacciHeap.insert s h x p).1 =
      (FibonacciHeap.insert_to_root_list (s ++ [newElem s x p]) h s.length).1 := rfl
  rw [h0]
  unfold FibonacciHeap.insert_to_root_list
  dsimp only []
  rw [getN_append_self]
  dsimp only [newElem]
  rw [if_neg (by simp)]
  rcases hm : h._min with _ | m
  · dsimp only []
    rw [parF_append]
  · dsimp only []
    rw [parF_dll, parF_append]

theorem markF_insert (s : Mem) (h : Heap) (x : Nat) (p : Priority) (j : Nat) :
    markF (FibonacciHeap.insert s h x p).1 j = if j = s.length then false else markF s j := by
  have h0 : (FibonacciHeap.insert s h x p).1 =
      (FibonacciHeap.insert_to_root_list (s ++ [newElem s x p]) h s.length).1 := rfl
  rw [h0]
  unfold FibonacciHeap.insert_to_root_list
  dsimp only []
  rw [getN_append_self]
  dsimp only [newElem]
  rw [if_neg (by simp)]
  rcases hm : h._min with _ | m
  · dsimp only []
    rw [markF_append]
  · dsimp only []
    rw [markF_dll, markF_append]

/-- The operations under which the root-mark invariant can be preserved:
`extract_min` (and hence `delete`) promote still-marked children, and
`merge` assumes the argument heap's minimum is one of its roots. -/
def Op.markSafe (s : Mem) : Op → Prop
  | .extractMin => False
  | .delete _ => False
  | .merge other => minRootOk s other
  | _ => True

instance (s : Mem) : Decidable (RootsUnmarked s) := by
  unfold RootsUnmarked
  infer_instance

/-- Memory after `c2ops` (computed from the embedding). -/
def c2s1 : Mem :=
  [⟨10, .fin 2, 0, 0, none, some 1, 2, false⟩,
   ⟨11, .fin 5, 3, 3, some 0, none, 0, false⟩,
   ⟨12, .fin 0, 2, 2, none, none, 0, false⟩,
   ⟨13, .fin 3, 1, 1, some 0, none, 0, true⟩,
   ⟨14, .fin 1, 4, 4, none, none, 0, false⟩]

/-- Heap state after `c2ops`. -/
def c2h1 : Heap := ⟨3, some 0⟩

/-- Memory after `c2ops ++ [extractMin]`. -/
def c2s2 : Mem :=
  [⟨10, .fin 2, 0, 0, none, none, 2, false⟩,
   ⟨11, .fin 5, 1, 1, some 3, none, 0, false⟩,
   ⟨12, .fin 0, 2, 2, none, none, 0, false⟩,
   ⟨13, .fin 3, 3, 3, none, some 1, 1, true⟩,
   ⟨14, .fin 1, 4, 4, none, none, 0, false⟩]

/-- Heap state after `c2ops ++ [extractMin]`. -/
def c2h2 : Heap := ⟨2, some 3⟩

/-- C2 counterexample: after five inserts, an extract-min (which links the
trees), a decrease-key cutting a grandchild (which marks internal node 3 via
cascading-cut), and an extract-min, the heap reaches the state
`(c2s1, c2h1)` in which every root is unmarked; but one more extract-min
promotes node 3 into the root list without clearing its mark, leaving a
marked root — and even makes it the new minimum.  So extract-min does *not*
preserve "roots are unmarked". -/
theorem extract_min_leaves_marked_root :
    runOps [] FibonacciHeap.empty c2ops = .ok (c2s1, c2h1) ∧
    RootsUnmarked c2s1 ∧
    step c2s1 c2h1 .extractMin = .ok (c2s2, c2h2) ∧
    parF c2s2 3 = none ∧ markF c2s2 3 = true ∧ c2h2._min = some 3 ∧
    ¬ RootsUnmarked c2s2 := by
  decide

/-- C2 (amended): "every root is unmarked" is preserved by `insert`,
`decrease_key` (normal return or `ValueError`) and — provided the argument
heap's minimum is one of its roots — by `merge`; it is *not* claimed for
`extract_min`/`delete`, whose promotion of the minimum's children does not
clear their marks (see the counterexample). -/
theorem roots_unmarked_preserved (s : Mem) (h : Heap) (op : Op) {s' : Mem} {h' : Heap}
    (hInv : StructInv s h) (hru : RootsUnmarked s) (hsafe : Op.markSafe s op)
    (hstep : step s h op = .ok (s', h') ∨ step s h op = .verr (s', h')) :
    RootsUnmarked s' := by
  cases op with
  | insert x p =>
    have hmain : RootsUnmarked (FibonacciHeap.insert s h x p).1 := by
      intro i hi hpar
      rw [markF_insert]
      rw [parF_insert] at hpar
      rcases eq_or_ne i s.length with rfl | hne
      · rw [if_pos rfl]
      · rw [if_neg hne] at hpar ⊢
        have hlen : (FibonacciHeap.insert s h x p).1.length = s.length + 1 :=
          (insert_mem_eq s h x p).1
        rw [hlen] at hi
        exact hru i (by omega) hpar
    rcases hstep with hstep | hstep <;> simp only [step] at hstep
    · cases hstep
      exact hmain
    · cases hstep
  | extractMin => exact False.elim hsafe
  | decreaseKey x p =>
    rcases hstep with hstep | hstep
    · simp only [step] at hstep
      rcases hmm : h._min with _ | m
      · exact absurd hstep (decrease_key_empty_not_ok s h x p hInv hmm)
      · rcases Nat.lt_or_ge x s.length with hx | hx
        · exact (decrease_key_ok_spec s h x p m hInv hmm hx hstep).2.2.2.2.2.2.1 hru
        · rw [decrease_key_oob_ok s h x p hx hstep]
          exact hru
    · simp only [step] at hstep
      have h2 := decrease_key_verr s h x p hstep
      injection h2 with h2a h2b
      rw [h2a]
      exact hru
  | delete x => exact False.elim hsafe
  | merge other =>
    have hmain : ∀ s2 h2 hB2, FibonacciHeap.merge s h other = some (s2, h2, hB2) →
        RootsUnmarked s2 := by
      intro s2 h2 hB2 hm
      unfold FibonacciHeap.merge at hm
      dsimp only [] at hm
      rcases h1 : h._min with _ | m1 <;> rw [h1] at hm
      · dsimp only [] at hm
        cases hm
        exact hru
      · rcases h2m : other._min with _ | m2 <;> rw [h2m] at hm
        · dsimp only [] at hm
          cases hm
        · dsimp only [] at hm
          by_cases hc : (getN s m2).right ≠ m2
          · rw [if_pos hc] at hm
            dsimp only [] at hm
            cases hm
            intro i hi hpar
            simp only [length_setLeftN, length_setRightN] at hi
            simp only [parF_setLeftN, parF_setRightN] at hpar
            show markF _ _ = false
            simp only [markF_setLeftN, markF_setRightN]
            exact hru i hi hpar
          · have hpm2 : (getN s m2).parent = none := (hsafe m2 h2m).2
            have hIval : FibonacciHeap.insert_to_root_list s h m2 =
                (FibonacciHeap.doublylinkedlist_insert s h._min m2, h) := by
              unfold FibonacciHeap.insert_to_root_list
              rw [hpm2]
              rw [if_neg (by simp)]
              rw [h1]
            rw [if_neg hc, hIval] at hm
            dsimp only [] at hm
            cases hm
            intro i hi hpar
            rw [length_dll] at hi
            rw [parF_dll] at hpar
            show markF _ _ = false
            rw [markF_dll]
            exact hru i hi hpar
    rcases hstep with hstep | hstep
    · simp only [step] at hstep
      rcases hm : FibonacciHeap.merge s h other with _ | ⟨s2, h2, hB2⟩ <;> rw [hm] at hstep
      · cases hstep
      · dsimp only [] at hstep
        cases hstep
        exact hmain _ _ _ hm
    · simp only [step] at hstep
      rcases hm : FibonacciHeap.merge s h other with _ | ⟨s2, h2, hB2⟩ <;> rw [hm] at hstep <;>
        cases hstep

theorem roots_unmarked_preserved_witness :
    RootsUnmarked (FibonacciHeap.insert [] FibonacciHeap.empty 5 (Priority.fin 3)).1 :=
  roots_unmarked_preserved [] FibonacciHeap.empty (Op.insert 5 (Priority.fin 3))
    ⟨fun i hi => absurd hi (Nat.not_lt_zero i), fun i hi => absurd hi (Nat.not_lt_zero i),
     fun i hi => absurd hi (Nat.not_lt_zero i), fun i hi => absurd hi (Nat.not_lt_zero i),
     fun i hi => absurd hi (Nat.not_lt_zero i), fun i hi => absurd hi (Nat.not_lt_zero i),
     fun i hi => absurd hi (Nat.not_lt_zero i), fun _ hm => Option.noConfusion hm,
     fun _ i hi => absurd hi (Nat.not_lt_zero i)⟩
    (fun i hi => absurd hi (Nat.not_lt_zero i)) trivial (Or.inl rfl)

/-- Length of the parent chain from `y` (with fuel): `some n` iff following
parent pointers from `y` reaches a root after `n` steps within the fuel. -/
def chainLen : Nat → Mem → Nat → Option Nat
  | 0, _, _ => none
  | fuel + 1, s, y =>
    match parF s y with
    | none => some 0
    | some z => (chainLen fuel s z).map (· + 1)

theorem chain_mono : ∀ (fuel : Nat) (s s' : Mem) (y n : Nat),
    (∀ j, parF s' j = parF s j ∨ parF s' j = none) →
    chainLen fuel s y = some n →
    ∃ n', chainLen fuel s' y = some n' := by
  intro fuel
  induction fuel with
  | zero =>
    intro s s' y n _ hc
    cases hc
  | succ fuel ih =>
    intro s s' y n hsh hc
    unfold chainLen at hc ⊢
    rcases hd : parF s' y with _ | w
    · exact ⟨0, rfl⟩
    · have hpy : parF s y = some w := by
        rcases hsh y with h1 | h1
        · rw [← h1, hd]
        · rw [h1] at hd
          cases hd
      rw [hpy] at hc
      dsimp only [] at hc
      rcases hmap : chainLen fuel s w with _ | n0
      · rw [hmap] at hc
        cases hc
      · obtain ⟨n', hn'⟩ := ih s s' w n0 hsh hmap
        exact ⟨n' + 1, by dsimp only []; rw [hn']; rfl⟩

theorem cut_isSome (s : Mem) (h : Heap) (x y : Nat)
    (hxy : (getN s x).parent = some y) :
    FibonacciHeap.cut s h x y ≠ none := by
  intro hcon
  unfold FibonacciHeap.cut at hcon
  rw [if_neg (not_not_intro hxy)] at hcon
  dsimp only [] at hcon
  split at hcon <;> cases hcon

theorem casc_total : ∀ (fuel : Nat) (s : Mem) (h : Heap) (y m n : Nat),
    StructInv s h → h._min = some m → y < s.length →
    chainLen fuel s y = some n →
    ∃ s' h', FibonacciHeap.cascading_cut fuel s h y = some (s', h') := by
  intro fuel
  induction fuel with
  | zero =>
    intro s h y m n _ _ _ hc
    cases hc
  | succ fuel ih =>
    intro s h y m n hI hm hy hc
    unfold FibonacciHeap.cascading_cut
    unfold chainLen at hc
    rcases hp : parF s y with _ | z
    · have hp' : (getN s y).parent = none := hp
      rw [hp']
      exact ⟨s, h, rfl⟩
    · have hp' : (getN s y).parent = some z := hp
      rw [hp']
      dsimp only []
      by_cases hmk : (getN s y).mark = false
      · rw [if_pos hmk]
        exact ⟨_, _, rfl⟩
      · rw [if_neg hmk]
        rcases hcut : FibonacciHeap.cut s h y z with _ | ⟨s1, h1⟩
        · exact absurd hcut (cut_isSome s h y z hp')
        · dsimp only []
          obtain ⟨hh1, hlen1, _, _, hpar1, _, hI1⟩ := cut_spec s h y z m hI hm hy hcut
          rw [hp] at hc
          dsimp only [] at hc
          rcases hcz : chainLen fuel s z with _ | n0
          · rw [hcz] at hc
            cases hc
          · have hsh : ∀ j, parF s1 j = parF s j ∨ parF s1 j = none := by
              intro j
              rw [hpar1 j]
              rcases eq_or_ne j y with rfl | hne
              · right
                rw [if_pos rfl]
              · left
                rw [if_neg hne]
            obtain ⟨n1, hc1⟩ := chain_mono fuel s s1 z n0 hsh hcz
            have hz : z < s1.length := by
              rw [hlen1]
              exact (hI.1 y hy).2.2.1 z hp'
            have hI1' : StructInv s1 h1 := by
              rw [hh1]
              exact hI1
            have hm1 : h1._min = some m := by
              rw [hh1]
              exact hm
            exact ih s1 h1 z m n1 hI1' hm1 hz hc1

/-- C4 (amended): for a live handle `x` of a well-formed heap whose parent
chains terminate and whose current priority is finite, `decrease_key(x, p)`
raises `ValueError` if and only if `p` is not strictly below `x`'s current
priority, and on that error it returns with the store and the heap record
exactly as they were (size, minimum, every priority and the whole structure
unchanged); when `p` is strictly smaller the call returns normally.  The
finiteness restriction is essential: when the current priority is `-inf`
(a state `delete` itself creates), the rejecting `raise` formats `-np.inf`
with `%d`, which itself raises `OverflowError`, so no `ValueError` ever
escapes. -/
theorem decrease_key_rejects_iff (s : Mem) (h : Heap) (x : Nat) (p : Priority) (m : Nat)
    (hInv : StructInv s h) (hm : h._min = some m) (hx : x < s.length)
    (hfin : prioF s x ≠ Priority.negInf)
    (hAc : ∀ y, y < s.length → (chainLen (s.length + 1) s y).isSome = true) :
    (Priority.le (prioF s x) p = true →
      FibonacciHeap.decrease_key s h x p = .verr (s, h)) ∧
    (Priority.le (prioF s x) p = false →
      ∃ s' h', FibonacciHeap.decrease_key s h x p = .ok (s', h')) := by
  constructor
  · intro hle
    have hle' : Priority.le (getN s x).priority p = true := hle
    rcases hpk : prioF s x with _ | k
    · exact absurd hpk hfin
    · have hpk' : (getN s x).priority = Priority.fin k := hpk
      rcases p with _ | j
      · rw [hpk'] at hle'
        exact Bool.noConfusion hle'
      · unfold FibonacciHeap.decrease_key
        rw [if_pos hle', hpk']
  · intro hle
    have hle' : Priority.le (getN s x).priority p = false := hle
    unfold FibonacciHeap.decrease_key
    rw [if_neg (by rw [hle']; exact fun hcon => Bool.noConfusion hcon)]
    dsimp only []
    have hI1 : StructInv (setPriorityN s x p) h := structinv_setPriorityN s h x p hInv
    have hx1 : x < (setPriorityN s x p).length := by
      rw [length_setPriorityN]
      exact hx
    rcases hpp : (getN (setPriorityN s x p) x).parent with _ | y
    · dsimp only []
      rw [hm]
      dsimp only []
      by_cases hlt2 : Priority.lt (getN (setPriorityN s x p) x).priority
          (getN (setPriorityN s x p) m).priority = true
      · rw [if_pos hlt2]
        exact ⟨_, _, rfl⟩
      · rw [if_neg hlt2]
        exact ⟨_, _, rfl⟩
    · dsimp only []
      have hpxy : parF s x = some y := by
        have : parF (setPriorityN s x p) x = some y := hpp
        rwa [parF_setPriorityN] at this
      have hy : y < s.length := (hInv.1 x hx).2.2.1 y hpxy
      by_cases hlt2 : Priority.lt (getN (setPriorityN s x p) x).priority
          (getN (setPriorityN s x p) y).priority = true
      · rw [if_pos hlt2]
        rcases hcut : FibonacciHeap.cut (setPriorityN s x p) h x y with _ | ⟨s2, h2⟩
        · exact absurd hcut (cut_isSome (setPriorityN s x p) h x y hpp)
        · dsimp only []
          obtain ⟨hh2, hlen2, _, _, hpar2, _, hI2⟩ :=
            cut_spec (setPriorityN s x p) h x y m hI1 hm hx1 hcut
          have hsh : ∀ j, parF s2 j = parF s j ∨ parF s2 j = none := by
            intro j
            rw [hpar2 j]
            rcases eq_or_ne j x with rfl | hne
            · right
              rw [if_pos rfl]
            · left
              rw [if_neg hne, parF_setPriorityN]
          obtain ⟨n0, hc0⟩ := Option.isSome_iff_exists.1 (hAc y hy)
          obtain ⟨n1, hc1⟩ := chain_mono (s.length + 1) s s2 y n0 hsh hc0
          have hlen2' : s2.length = s.length := by
            rw [hlen2, length_setPriorityN]
          have hy2 : y < s2.length := by
            rw [hlen2']
            exact hy
          have hc1' : chainLen (s2.length + 1) s2 y = some n1 := by
            rw [hlen2']
            exact hc1
          have hI2' : StructInv s2 h2 := by
            rw [hh2]
            exact hI2
          have hm2 : h2._min = some m := by
            rw [hh2]
            exact hm
          obtain ⟨s3, h3, hcas⟩ := casc_total (s2.length + 1) s2 h2 y m n1 hI2' hm2 hy2 hc1'
          rw [hcas]
          dsimp only []
          obtain ⟨hh3, _⟩ := casc_spec (s2.length + 1) s2 h2 y m hI2' hm2 hy2 hcas
          have hm3 : h3._min = some m := by
            rw [hh3]
            exact hm2
          rw [hm3]
          dsimp only []
          by_cases hlt3 : Priority.lt (getN s3 x).priority (getN s3 m).priority = true
          · rw [if_pos hlt3]
            exact ⟨_, _, rfl⟩
          · rw [if_neg hlt3]
            exact ⟨_, _, rfl⟩
      · rw [if_neg hlt2]
        dsimp only []
        rw [hm]
        dsimp only []
        by_cases hlt3 : Priority.lt (getN (setPriorityN s x p) x).priority
            (getN (setPriorityN s x p) m).priority = true
        · rw [if_pos hlt3]
          exact ⟨_, _, rfl⟩
        · rw [if_neg hlt3]
          exact ⟨_, _, rfl⟩

/-- A one-node heap used to witness the decrease-key specification. -/
def c4s : Mem := [⟨10, .fin 5, 0, 0, none, none, 0, false⟩]

/-- Heap record of the one-node witness heap. -/
def c4h : Heap := ⟨1, some 0⟩

theorem c4_structinv : StructInv c4s c4h := by
  refine ⟨?_, ?_, ?_, ?_, ?_, ?_, ?_, ?_, ?_⟩
  · intro i hi
    have h0 : i = 0 := Nat.lt_one_iff.1 hi
    subst h0
    exact ⟨by decide, by decide, fun q hq => Option.noConfusion hq,
      fun c hc => Option.noConfusion hc⟩
  · intro i hi
    have h0 : i = 0 := Nat.lt_one_iff.1 hi
    subst h0
    exact ⟨by decide, by decide⟩
  · intro i hi
    have h0 : i = 0 := Nat.lt_one_iff.1 hi
    subst h0
    exact fun q hq => Option.noConfusion hq
  · intro i hi
    have h0 : i = 0 := Nat.lt_one_iff.1 hi
    subst h0
    exact fun q hq => Option.noConfusion hq
  · intro i hi
    have h0 : i = 0 := Nat.lt_one_iff.1 hi
    subst h0
    exact fun _ => ⟨by decide, by decide⟩
  · intro i hi
    have h0 : i = 0 := Nat.lt_one_iff.1 hi
    subst h0
    exact fun c hc => Option.noConfusion hc
  · intro i hi
    have h0 : i = 0 := Nat.lt_one_iff.1 hi
    subst h0
    exact fun hcon => Option.noConfusion hcon
  · intro m hm
    cases hm
    exact ⟨by decide, rfl⟩
  · intro hnone
    exact Option.noConfusion hnone

theorem decrease_key_rejects_iff_witness :
    FibonacciHeap.decrease_key c4s c4h 0 (Priority.fin 7) = .verr (c4s, c4h) ∧
    ∃ s' h', FibonacciHeap.decrease_key c4s c4h 0 (Priority.fin 3) = .ok (s', h') :=
  ⟨(decrease_key_rejects_iff c4s c4h 0 (Priority.fin 7) 0 c4_structinv rfl (by decide)
      (by decide) (by decide)).1 (by decide),
   (decrease_key_rejects_iff c4s c4h 0 (Priority.fin 3) 0 c4_structinv rfl (by decide)
      (by decide) (by decide)).2 (by decide)⟩

theorem size_irl (s : Mem) (h : Heap) (e : Nat) :
    (FibonacciHeap.insert_to_root_list s h e).2._size = h._size := by
  rw [min_irl]
  cases hm : h._min <;> rfl

theorem size_remove (s : Mem) (h : Heap) (z : Nat) {s' : Mem} {h' : Heap}
    (hr : FibonacciHeap.remove_from_root_list s h z = some (s', h')) :
    h'._size = h._size := by
  unfold FibonacciHeap.remove_from_root_list at hr
  split at hr
  · cases hr
  · split at hr
    · cases hr
      rfl
    · dsimp only [] at hr
      cases hr
      split <;> rfl

theorem size_promote : ∀ (fuel : Nat) (s : Mem) (h : Heap) (z x : Nat) {s' : Mem} {h' : Heap},
    FibonacciHeap.promote_children fuel s h z x = some (s', h') → h'._size = h._size := by
  intro fuel
  induction fuel with
  | zero =>
    intro s h z x s' h' hp
    cases hp
  | succ fuel ih =>
    intro s h z x s' h' hp
    unfold FibonacciHeap.promote_children at hp
    dsimp only [] at hp
    rcases hirl : FibonacciHeap.insert_to_root_list (setParentN s x none) h x with ⟨s1, h1⟩
    rw [hirl] at hp
    dsimp only [] at hp
    have hs1 : h1._size = h._size := by
      have := congrArg Prod.snd hirl
      dsimp only [] at this
      rw [← this]
      exact size_irl _ _ _
    split at hp
    · cases hp
      exact hs1
    · exact (ih _ _ _ _ hp).trans hs1

theorem size_drain : ∀ (fuel : Nat) (s : Mem) (h : Heap) (q : List Nat)
    {s' : Mem} {h' : Heap} {q' : List Nat},
    FibonacciHeap.drain_roots fuel s h q = some (s', h', q') → h'._size = h._size := by
  intro fuel
  induction fuel with
  | zero =>
    intro s h q s' h' q' hd
    cases hd
  | succ fuel ih =>
    intro s h q s' h' q' hd
    unfold FibonacciHeap.drain_roots at hd
    rcases hm : h._min with _ | m <;> rw [hm] at hd
    · cases hd
      rfl
    · dsimp only [] at hd
      rcases hr : FibonacciHeap.remove_from_root_list s h m with _ | ⟨s1, h1⟩ <;> rw [hr] at hd
      · cases hd
      · dsimp only [] at hd
        exact (ih _ _ _ hd).trans (size_remove _ _ _ hr)

theorem size_rebuild : ∀ (arr : List (Option Nat)) (s : Mem) (h : Heap),
    ((FibonacciHeap.rebuild_roots s h arr).2)._size = h._size := by
  intro arr
  induction arr with
  | nil =>
    intro s h
    rfl
  | cons a rest ih =>
    intro s h
    cases a with
    | none => exact ih s h
    | some e =>
      unfold FibonacciHeap.rebuild_roots
      cases hm : h._min with
      | none => exact ih s _
      | some m =>
        rcases hirl : FibonacciHeap.insert_to_root_list s h e with ⟨s1, h1⟩
        dsimp only []
        have hs1 : h1._size = h._size := by
          have := congrArg Prod.snd hirl
          dsimp only [] at this
          rw [← this]
          exact size_irl _ _ _
        refine (ih s1 _).trans ?_
        rcases hm1 : h1._min with _ | m1
        · exact hs1
        · dsimp only []
          split <;> exact hs1

theorem size_consolidate (s : Mem) (h : Heap) {s' : Mem} {h' : Heap}
    (hc : FibonacciHeap.consolidate s h = some (s', h')) : h'._size = h._size := by
  unfold FibonacciHeap.consolidate at hc
  split at hc
  · cases hc
  · dsimp only [] at hc
    rcases hd : FibonacciHeap.drain_roots (s.length + 1) s h [] with _ | ⟨s1, h1, q⟩ <;>
      rw [hd] at hc
    · cases hc
    · dsimp only [] at hc
      rcases hl : FibonacciHeap.link_all q s1 (List.replicate (FibonacciHeap.slots h._size) none)
          with _ | ⟨s2, arr2⟩ <;> rw [hl] at hc
      · cases hc
      · dsimp only [] at hc
        injection hc with hc2
        have := congrArg Prod.snd hc2
        dsimp only [] at this
        rw [← this]
        exact (size_rebuild _ _ _).trans (size_drain _ _ _ _ hd)

theorem extract_min_ok (s : Mem) (h : Heap) (z : Nat) {s' : Mem} {h' : Heap} {r : Option Nat}
    (hm : h._min = some z)
    (he : FibonacciHeap.extract_min s h = some (s', h', r)) :
    h'._size = h._size - 1 ∧ r = some z := by
  unfold FibonacciHeap.extract_min at he
  rw [hm] at he
  dsimp only [] at he
  have hstep1 : ∀ s1 h1, (match (getN s z).child with
      | none => some (s, h)
      | some x => FibonacciHeap.promote_children (s.length + 1) s h z x) = some (s1, h1) →
      h1._size = h._size := by
    intro s1 h1 hx
    rcases hc : (getN s z).child with _ | x <;> rw [hc] at hx
    · cases hx
      rfl
    · exact size_promote _ _ _ _ _ hx
  rcases h1eq : (match (getN s z).child with
      | none => some (s, h)
      | some x => FibonacciHeap.promote_children (s.length + 1) s h z x) with _ | ⟨s1, h1⟩ <;>
    rw [h1eq] at he
  · cases he
  · dsimp only [] at he
    have hs1 : h1._size = h._size := hstep1 s1 h1 h1eq
    by_cases hrz : (getN s1 z).right = z
    · rw [if_pos hrz] at he
      rcases hrm : FibonacciHeap.remove_from_root_list s1 { h1 with _min := none } z
          with _ | ⟨s2, h2⟩ <;> rw [hrm] at he
      · cases he
      · dsimp only [] at he
        cases he
        refine ⟨?_, rfl⟩
        show h2._size - 1 = h._size - 1
        rw [size_remove _ _ _ hrm]
        show h1._size - 1 = h._size - 1
        rw [hs1]
    · rw [if_neg hrz] at he
      rcases hrm : FibonacciHeap.remove_from_root_list s1
          { h1 with _min := some ((getN s1 z).right) } z with _ | ⟨s2, h2⟩ <;> rw [hrm] at he
      · cases he
      · dsimp only [] at he
        rcases hcons : FibonacciHeap.consolidate s2 h2 with _ | ⟨s3, h3⟩ <;> rw [hcons] at he
        · cases he
        · dsimp only [] at he
          cases he
          refine ⟨?_, rfl⟩
          show h3._size - 1 = h._size - 1
          rw [size_consolidate _ _ hcons, size_remove _ _ _ hrm]
          show h1._size - 1 = h._size - 1
          rw [hs1]

/-- C9 (amended): deleting a live handle `x` (in a well-formed heap whose
minimum's priority is finite) removes exactly that element — the size drops
by one, `x`'s stored priority becomes `-inf`, and every other node's
priority and payload are untouched — and a second `delete` of the same
handle crashes: the inner `decrease_key(x, -inf)` does reject it (`-inf ≤
-inf` is not a strict decrease), but the rejecting `raise` formats both
priorities with `%d`, and formatting `-np.inf` with `%d` itself raises
`OverflowError` before the `ValueError` is constructed, so the call escapes
with `OverflowError` (modelled as `.crash`); there is no dedicated
InvalidHandle check.  The error is raised before any mutation, so the state
is not corrupted. -/
theorem delete_then_delete (s : Mem) (h : Heap) (x m : Nat)
    (hInv : StructInv s h) (hm : h._min = some m) (hx : x < s.length)
    (hmfin : prioF s m ≠ .negInf)
    {s' : Mem} {h' : Heap}
    (hdel : FibonacciHeap.delete s h x = .ok (s', h')) :
    h'._size = h._size - 1 ∧ s'.length = s.length ∧
    (∀ j, j ≠ x → prioF s' j = prioF s j) ∧ (∀ j, objF s' j = objF s j) ∧
    prioF s' x = .negInf ∧
    FibonacciHeap.delete s' h' x = .crash := by
  unfold FibonacciHeap.delete at hdel
  rcases hdk : FibonacciHeap.decrease_key s h x .negInf with ⟨s1, h1⟩ | r1 | _ <;>
    rw [hdk] at hdel
  · dsimp only [] at hdel
    obtain ⟨hlen1, hpx1, hpoth1, hobj1, hsz1, _, _, hminx1, hminx2, _⟩ :=
      decrease_key_ok_spec s h x .negInf m hInv hm hx hdk
    have hmin1 : h1._min = some x := by
      rcases eq_or_ne m x with rfl | hmx
      · exact hminx1 rfl
      · apply hminx2 hmx
        rcases hpm : prioF s m with _ | k
        · exact absurd hpm hmfin
        · rfl
    rcases he : FibonacciHeap.extract_min s1 h1 with _ | ⟨s2, h2, r⟩ <;> rw [he] at hdel
    · cases hdel
    · dsimp only [] at hdel
      cases hdel
      obtain ⟨hsz2, hr2⟩ := extract_min_ok s1 h1 x hmin1 he
      obtain ⟨hlen2, hprio2, hobj2⟩ := frame_extract_min s1 h1 he
      have hps2x : prioF s' x = .negInf := by
        rw [hprio2 x, hpx1]
      refine ⟨?_, ?_, ?_, ?_, hps2x, ?_⟩
      · rw [hsz2, hsz1]
      · rw [hlen2, hlen1]
      · intro j hj
        rw [hprio2 j, hpoth1 j hj]
      · intro j
        rw [hobj2 j, hobj1 j]
      · have hdk2 : FibonacciHeap.decrease_key s' h' x .negInf = .crash := by
          have hcond : Priority.le (getN s' x).priority Priority.negInf = true := by
            show Priority.le (prioF s' x) Priority.negInf = true
            rw [hps2x]
            rfl
          have hpx' : (getN s' x).priority = Priority.negInf := hps2x
          unfold FibonacciHeap.decrease_key
          rw [if_pos hcond, hpx']
        unfold FibonacciHeap.delete
        rw [hdk2]
  · cases hdel
  · cases hdel

/-- Memory after deleting the only node of the one-node witness heap: the
node stays in the arena with priority `-inf`. -/
def c9s : Mem := [⟨10, .negInf, 0, 0, none, none, 0, false⟩]

/-- Heap record after that delete: empty. -/
def c9h : Heap := ⟨0, none⟩

/-- C9 counterexample: deleting the same handle twice is rejected before any
mutation, but not by an InvalidHandle / fail-fast check — there is none in
the code — and not even by `ValueError`.  The second `delete` falls into
`decrease_key(x, -inf)`, whose rejecting `raise` formats the current
priority `-np.inf` with `%d`; that formatting raises `OverflowError` before
the `ValueError` is constructed, so the call crashes with `OverflowError`. -/
theorem second_delete_overflows :
    FibonacciHeap.delete c4s c4h 0 = .ok (c9s, c9h) ∧
    FibonacciHeap.delete c9s c9h 0 = .crash := by
  decide

/-- C4 counterexample: "ValueError iff `p` is not a strict decrease" fails
once the current priority is `-inf`, a state `delete` itself creates.
Lowering the witness node to `-inf` succeeds and leaves the heap record
unchanged; a further `decrease_key` with any new priority is then rejected,
but the rejecting `raise` formats the current priority `-np.inf` with `%d`
and that raises `OverflowError`, so the call crashes instead of raising
`ValueError`. -/
theorem decrease_key_neginf_overflows :
    FibonacciHeap.decrease_key c4s c4h 0 .negInf = .ok (c9s, c4h) ∧
    FibonacciHeap.decrease_key c9s c4h 0 (.fin 7) = .crash := by
  decide

theorem delete_then_delete_witness :
    c9h._size = c4h._size - 1 ∧ c9s.length = c4s.length ∧
    (∀ j, j ≠ 0 → prioF c9s j = prioF c4s j) ∧ (∀ j, objF c9s j = objF c4s j) ∧
    prioF c9s 0 = .negInf ∧
    FibonacciHeap.delete c9s c9h 0 = .crash :=
  delete_then_delete c4s c4h 0 0 c4_structinv rfl (by decide) (by decide) (by decide)

/-! ## Root-ring machinery for the consolidate postcondition -/

/-- Cyclic indexing into a node list. -/
def ringGet (l : List Nat) (i : Nat) : Nat := l.getD (i % l.length) 0

/-- `l` lists a circular doubly-linked ring of `s` in order: each node's
`right` is the next list element (cyclically) and `left` inverts it. -/
def IsRing (s : Mem) (l : List Nat) : Prop :=
  l ≠ [] ∧ ∀ i, i < l.length →
    rightF s (ringGet l i) = ringGet l (i + 1) ∧
    leftF s (ringGet l (i + 1)) = ringGet l i

theorem ringGet_mod (l : List Nat) (i : Nat) : ringGet l (i % l.length) = ringGet l i := by
  unfold ringGet
  rw [Nat.mod_mod_of_dvd _ (dvd_refl _)]

theorem ringGet_lt (l : List Nat) (i : Nat) (hi : i < l.length) :
    ringGet l i = l.getD i 0 := by
  unfold ringGet
  rw [Nat.mod_eq_of_lt hi]

theorem ringGet_mem (l : List Nat) (i : Nat) (hne : l ≠ []) : ringGet l i ∈ l := by
  unfold ringGet
  have hlen : 0 < l.length := List.length_pos.mpr hne
  have : i % l.length < l.length := Nat.mod_lt _ hlen
  rw [List.getD_eq_getElem l 0 this]
  exact List.getElem_mem _

theorem nodup_getD_inj (l : List Nat) (hnd : l.Nodup) (i j : Nat) (hi : i < l.length)
    (hj : j < l.length) (he : l.getD i 0 = l.getD j 0) : i = j := by
  rw [List.getD_eq_getElem l 0 hi, List.getD_eq_getElem l 0 hj] at he
  have h2 := (List.Nodup.get_inj_iff hnd (i := ⟨i, hi⟩) (j := ⟨j, hj⟩)).1 he
  exact congrArg Fin.val h2

theorem remove_ring_single (s : Mem) (h : Heap) (z : Nat)
    (hring : IsRing s [z]) (hpar : parF s z = none) :
    FibonacciHeap.remove_from_root_list s h z = some (s, { h with _min := none }) := by
  have hrz : (getN s z).right = z := by
    have h0 := (hring.2 0 (by simp)).1
    show rightF s z = z
    have e0 : ringGet [z] 0 = z := by simp [ringGet]
    have e1 : ringGet [z] 1 = z := by simp [ringGet]
    rw [e0, e1] at h0
    exact h0
  unfold FibonacciHeap.remove_from_root_list
  rw [if_neg (not_not_intro (show (getN s z).parent = none from hpar))]
  rw [if_pos hrz]

theorem remove_ring_cons (s : Mem) (h : Heap) (z r0 : Nat) (rest2 : List Nat)
    (hring : IsRing s (z :: r0 :: rest2)) (hnd : (z :: r0 :: rest2).Nodup)
    (hpar : parF s z = none) (hlive : ∀ e, e ∈ z :: r0 :: rest2 → e < s.length)
    (hmin : h._min = some z) :
    ∃ s', FibonacciHeap.remove_from_root_list s h z = some (s', { h with _min := some r0 }) ∧
      IsRing s' (r0 :: rest2) ∧ s'.length = s.length ∧
      (∀ j, prioF s' j = prioF s j) ∧ (∀ j, objF s' j = objF s j) ∧
      (∀ j, parF s' j = parF s j) ∧ (∀ j, degF s' j = degF s j) ∧
      (∀ j, markF s' j = markF s j) ∧ (∀ j, childF s' j = childF s j) ∧
      (∀ j, j ∉ z :: r0 :: rest2 → rightF s' j = rightF s j ∧ leftF s' j = leftF s j) ∧
      rightF s' z = z ∧ leftF s' z = z := by
  have hlen : (z :: r0 :: rest2).length = rest2.length + 2 := by simp
  have g0 : ringGet (z :: r0 :: rest2) 0 = z := by
    rw [ringGet_lt _ _ (by simp)]
    rfl
  have g1 : ringGet (z :: r0 :: rest2) 1 = r0 := by
    rw [ringGet_lt _ _ (by simp)]
    rfl
  have gn : ringGet (z :: r0 :: rest2) (rest2.length + 2) = z := by
    unfold ringGet
    rw [hlen, Nat.mod_self]
    rfl
  have hrz : rightF s z = r0 := by
    have h0 := (hring.2 0 (by simp)).1
    rwa [g0, g1] at h0
  have hlz : leftF s z = ringGet (z :: r0 :: rest2) (rest2.length + 1) := by
    have h0 := (hring.2 (rest2.length + 1) (by simp)).2
    rwa [gn] at h0
  have hrL : rightF s (ringGet (z :: r0 :: rest2) (rest2.length + 1)) = z := by
    have h0 := (hring.2 (rest2.length + 1) (by simp)).1
    rwa [gn] at h0
  have hgL : ringGet (z :: r0 :: rest2) (rest2.length + 1) =
      (z :: r0 :: rest2).getD (rest2.length + 1) 0 :=
    ringGet_lt _ _ (by simp)
  have hLz : ringGet (z :: r0 :: rest2) (rest2.length + 1) ≠ z := by
    intro hcon
    have h2 : (z :: r0 :: rest2).getD (rest2.length + 1) 0 = (z :: r0 :: rest2).getD 0 0 := by
      rw [← hgL, hcon]
      rfl
    have := nodup_getD_inj _ hnd (rest2.length + 1) 0 (by simp) (by simp) h2
    omega
  have hzr0 : z ≠ r0 := by
    intro hcon
    exact (List.nodup_cons.1 hnd).1 (by rw [hcon]; exact List.mem_cons_self _ _)
  have hzlive : z < s.length := hlive z (by simp)
  have hLlive : ringGet (z :: r0 :: rest2) (rest2.length + 1) < s.length :=
    hlive _ (ringGet_mem _ _ (by simp))
  have heq : FibonacciHeap.remove_from_root_list s h z =
      some (setRightN (setLeftN (setLeftN
          (setRightN s (ringGet (z :: r0 :: rest2) (rest2.length + 1)) r0) r0
          (ringGet (z :: r0 :: rest2) (rest2.length + 1))) z z) z z,
        { h with _min := some r0 }) := by
    unfold FibonacciHeap.remove_from_root_list
    rw [if_neg (not_not_intro (show (getN s z).parent = none from hpar))]
    rw [if_neg (show ¬ (getN s z).right = z from by
      show ¬ rightF s z = z
      rw [hrz]
      exact fun hc => hzr0 hc.symm)]
    dsimp only []
    rw [hmin, if_pos rfl]
    have f1 : (getN s z).right = r0 := hrz
    have f3 : (getN s z).left = ringGet (z :: r0 :: rest2) (rest2.length + 1) := hlz
    rw [f1, f3]
    have g2r : (getN (setRightN s (ringGet (z :: r0 :: rest2) (rest2.length + 1)) r0) z).right
        = r0 := by
      show rightF _ _ = _
      rw [rightF_setRightN, if_neg (fun hc => hLz hc.1)]
      exact hrz
    have g2l : (getN (setRightN s (ringGet (z :: r0 :: rest2) (rest2.length + 1)) r0) z).left
        = ringGet (z :: r0 :: rest2) (rest2.length + 1) := by
      show leftF _ _ = _
      rw [leftF_setRightN]
      exact hlz
    rw [g2r, g2l]
  have hright : ∀ j, rightF (setRightN (setLeftN (setLeftN
      (setRightN s (ringGet (z :: r0 :: rest2) (rest2.length + 1)) r0) r0
      (ringGet (z :: r0 :: rest2) (rest2.length + 1))) z z) z z) j =
      if z = j then z
      else if ringGet (z :: r0 :: rest2) (rest2.length + 1) = j then r0
      else rightF s j := by
    intro j
    simp only [rightF_setRightN, rightF_setLeftN, length_setLeftN, length_setRightN]
    rcases eq_or_ne z j with rfl | hzj
    · rw [if_pos ⟨rfl, hzlive⟩, if_pos rfl]
    · rw [if_neg (fun hc => hzj hc.1), if_neg hzj]
      rcases eq_or_ne (ringGet (z :: r0 :: rest2) (rest2.length + 1)) j with rfl | hLj
      · rw [if_pos ⟨rfl, hLlive⟩, if_pos rfl]
      · rw [if_neg (fun hc => hLj hc.1), if_neg hLj]
  have hleft : ∀ j, leftF (setRightN (setLeftN (setLeftN
      (setRightN s (ringGet (z :: r0 :: rest2) (rest2.length + 1)) r0) r0
      (ringGet (z :: r0 :: rest2) (rest2.length + 1))) z z) z z) j =
      if z = j then z
      else if r0 = j then ringGet (z :: r0 :: rest2) (rest2.length + 1)
      else leftF s j := by
    intro j
    simp only [leftF_setRightN, leftF_setLeftN, length_setLeftN, length_setRightN]
    rcases eq_or_ne z j with rfl | hzj
    · rw [if_pos ⟨rfl, hzlive⟩, if_pos rfl]
    · rw [if_neg (fun hc => hzj hc.1), if_neg hzj]
      rcases eq_or_ne r0 j with rfl | hr0j
      · rw [if_pos ⟨rfl, hlive r0 (by simp)⟩, if_pos rfl]
      · rw [if_neg (fun hc => hr0j hc.1), if_neg hr0j]
  refine ⟨_, heq, ?_, by simp, fun j => by simp, fun j => by simp, fun j => by simp,
    fun j => by simp, fun j => by simp, fun j => by simp, ?_, ?_, ?_⟩
  rotate_left 1
  · intro j hj
    constructor
    · rw [hright]
      rw [if_neg (fun hc => hj (by rw [← hc]; exact List.mem_cons_self _ _))]
      rw [if_neg (fun hc => hj (by rw [← hc]; exact ringGet_mem _ _ (by simp)))]
    · rw [hleft]
      rw [if_neg (fun hc => hj (by rw [← hc]; exact List.mem_cons_self _ _))]
      rw [if_neg (fun hc => hj (by rw [← hc]; simp))]
  · rw [hright, if_pos rfl]
  · rw [hleft, if_pos rfl]
  refine ⟨by simp, ?_⟩
  intro i hi
  have hshift : ∀ k, k < rest2.length + 1 →
      ringGet (r0 :: rest2) k = ringGet (z :: r0 :: rest2) (k + 1) := by
    intro k hk
    rw [ringGet_lt _ _ (by simpa using hk), ringGet_lt _ _ (by simp; omega)]
    rfl
  have hwrap : ringGet (r0 :: rest2) (rest2.length + 1) = r0 := by
    unfold ringGet
    rw [show (r0 :: rest2).length = rest2.length + 1 from by simp, Nat.mod_self]
    rfl
  have hmlen : (r0 :: rest2).length = rest2.length + 1 := by simp
  rw [hmlen] at hi
  constructor
  · rw [hright]
    rcases Nat.lt_or_ge i rest2.length with hilt | hige
    · rw [hshift i (by omega), hshift (i + 1) (by omega)]
      have ha := (hring.2 (i + 1) (by simp; omega)).1
      have hne1 : ringGet (z :: r0 :: rest2) (i + 1) ≠ z := by
        intro hcon
        have h2 : (z :: r0 :: rest2).getD (i + 1) 0 = (z :: r0 :: rest2).getD 0 0 := by
          rw [← ringGet_lt _ _ (by simp; omega)]
          exact hcon
        have := nodup_getD_inj _ hnd (i + 1) 0 (by simp; omega) (by simp) h2
        omega
      have hne2 : ringGet (z :: r0 :: rest2) (rest2.length + 1) ≠
          ringGet (z :: r0 :: rest2) (i + 1) := by
        intro hcon
        have h2 : (z :: r0 :: rest2).getD (rest2.length + 1) 0 =
            (z :: r0 :: rest2).getD (i + 1) 0 := by
          rw [← ringGet_lt _ _ (by simp), ← ringGet_lt _ _ (by simp; omega)]
          exact hcon
        have := nodup_getD_inj _ hnd (rest2.length + 1) (i + 1) (by simp) (by simp; omega) h2
        omega
      rw [if_neg (fun hc => hne1 hc.symm), if_neg hne2]
      exact ha
    · have hieq : i = rest2.length := by omega
      subst hieq
      rw [hshift rest2.length (by omega), hwrap]
      rw [if_neg (fun hc => hLz hc.symm), if_pos rfl]
  · rw [hleft]
    rcases Nat.lt_or_ge (i + 1) (rest2.length + 1) with hilt | hige
    · rw [hshift (i + 1) (by omega), hshift i (by omega)]
      have ha := (hring.2 (i + 1) (by simp; omega)).2
      have hne1 : ringGet (z :: r0 :: rest2) (i + 1 + 1) ≠ z := by
        intro hcon
        have h2 : (z :: r0 :: rest2).getD (i + 1 + 1) 0 = (z :: r0 :: rest2).getD 0 0 := by
          rw [← ringGet_lt _ _ (by simp; omega)]
          exact hcon
        have := nodup_getD_inj _ hnd (i + 1 + 1) 0 (by simp; omega) (by simp) h2
        omega
      have hne2 : r0 ≠ ringGet (z :: r0 :: rest2) (i + 1 + 1) := by
        intro hcon
        have h2 : (z :: r0 :: rest2).getD 1 0 = (z :: r0 :: rest2).getD (i + 1 + 1) 0 := by
          rw [← ringGet_lt _ _ (by simp), ← ringGet_lt _ _ (by simp; omega), g1]
          exact hcon
        have := nodup_getD_inj _ hnd 1 (i + 1 + 1) (by simp) (by simp; omega) h2
        omega
      rw [if_neg (fun hc => hne1 hc.symm), if_neg hne2]
      exact ha
    · have hieq : i = rest2.length := by omega
      subst hieq
      rw [hwrap]
      rw [if_neg (fun hc => hzr0 hc), if_pos rfl]
      rw [hshift rest2.length (by omega)]

theorem drain_ring : ∀ (l : List Nat) (fuel : Nat) (s : Mem) (h : Heap) (q0 : List Nat)
    {s' : Mem} {h' : Heap} {q' : List Nat},
    h._min = l.head? →
    (l ≠ [] → IsRing s l) → l.Nodup → (∀ e, e ∈ l → e < s.length ∧ parF s e = none) →
    FibonacciHeap.drain_roots fuel s h q0 = some (s', h', q') →
    q' = q0 ++ l ∧ h'._min = none ∧ s'.length = s.length ∧
    (∀ j, prioF s' j = prioF s j) ∧ (∀ j, objF s' j = objF s j) ∧
    (∀ j, parF s' j = parF s j) ∧ (∀ j, degF s' j = degF s j) ∧
    (∀ j, childF s' j = childF s j) ∧
    (∀ j, j ∉ l → rightF s' j = rightF s j ∧ leftF s' j = leftF s j) ∧
    (∀ e, e ∈ l → rightF s' e = e ∧ leftF s' e = e) := by
  intro l
  induction l with
  | nil =>
    intro fuel s h q0 s' h' q' hmin _ _ _ hd
    cases fuel with
    | zero => cases hd
    | succ fuel =>
      unfold FibonacciHeap.drain_roots at hd
      rw [show h._min = none from hmin] at hd
      cases hd
      exact ⟨by simp, hmin, rfl, fun j => rfl, fun j => rfl, fun j => rfl, fun j => rfl,
        fun j => rfl, fun j _ => ⟨rfl, rfl⟩, fun e he => absurd he (List.not_mem_nil e)⟩
  | cons z rest ih =>
    intro fuel s h q0 s' h' q' hmin hring hnd hlive hd
    cases fuel with
    | zero => cases hd
    | succ fuel =>
      unfold FibonacciHeap.drain_roots at hd
      have hminz : h._min = some z := hmin
      rw [hminz] at hd
      dsimp only [] at hd
      cases rest with
      | nil =>
        have hr := remove_ring_single s h z (hring (by simp)) (hlive z (by simp)).2
        rw [hr] at hd
        dsimp only [] at hd
        obtain ⟨hq, hmn, hlen2, hprio2, hobj2, hpar2, hdeg2, hchi2, hfr2, _⟩ :=
          ih fuel s { h with _min := none } (q0 ++ [z]) rfl
            (fun hc => absurd rfl hc) (by simp) (by simp) hd
        have hzr : rightF s z = z := by
          have h0 := ((hring (by simp)).2 0 (by simp)).1
          have e0 : ringGet [z] 0 = z := by simp [ringGet]
          have e1 : ringGet [z] 1 = z := by simp [ringGet]
          rw [e0, e1] at h0
          exact h0
        have hzl : leftF s z = z := by
          have h0 := ((hring (by simp)).2 0 (by simp)).2
          have e0 : ringGet [z] 0 = z := by simp [ringGet]
          have e1 : ringGet [z] 1 = z := by simp [ringGet]
          rw [e0, e1] at h0
          exact h0
        refine ⟨by rw [hq]; simp, hmn, hlen2, hprio2, hobj2, hpar2, hdeg2, hchi2, ?_, ?_⟩
        · intro j hj
          exact hfr2 j (List.not_mem_nil j)
        · intro e he
          rw [List.mem_singleton.1 he]
          rw [(hfr2 z (List.not_mem_nil z)).1, (hfr2 z (List.not_mem_nil z)).2]
          exact ⟨hzr, hzl⟩
      | cons r0 rest2 =>
        obtain ⟨s1, hr, hring1, hlen1, hprio1, hobj1, hpar1, hdeg1, hmark1, hchild1,
            hframe1, hzr1, hzl1⟩ :=
          remove_ring_cons s h z r0 rest2 (hring (by simp)) hnd (hlive z (by simp)).2
            (fun e he => (hlive e he).1) hminz
        rw [hr] at hd
        dsimp only [] at hd
        have hlive1 : ∀ e, e ∈ r0 :: rest2 → e < s1.length ∧ parF s1 e = none := by
          intro e he
          refine ⟨?_, ?_⟩
          · rw [hlen1]
            exact (hlive e (List.mem_cons_of_mem z he)).1
          · rw [hpar1]
            exact (hlive e (List.mem_cons_of_mem z he)).2
        have hnd1 : (r0 :: rest2).Nodup := (List.nodup_cons.1 hnd).2
        obtain ⟨hq, hmn, hlen2, hprio2, hobj2, hpar2, hdeg2, hchi2, hfr2, hmem2⟩ :=
          ih fuel s1 { h with _min := some r0 } (q0 ++ [z]) rfl (fun _ => hring1) hnd1 hlive1 hd
        have hznotin : z ∉ r0 :: rest2 := (List.nodup_cons.1 hnd).1
        refine ⟨by rw [hq]; simp, hmn, by rw [hlen2, hlen1], fun j => by rw [hprio2 j, hprio1 j],
          fun j => by rw [hobj2 j, hobj1 j], fun j => by rw [hpar2 j, hpar1 j],
          fun j => by rw [hdeg2 j, hdeg1 j], fun j => by rw [hchi2 j, hchild1 j], ?_, ?_⟩
        · intro j hj
          have hj2 : j ∉ r0 :: rest2 := fun hc => hj (List.mem_cons_of_mem _ hc)
          refine ⟨?_, ?_⟩
          · rw [(hfr2 j hj2).1, (hframe1 j hj).1]
          · rw [(hfr2 j hj2).2, (hframe1 j hj).2]
        · intro e he
          rcases List.mem_cons.1 he with rfl | he2
          · refine ⟨?_, ?_⟩
            · rw [(hfr2 e hznotin).1, hzr1]
            · rw [(hfr2 e hznotin).2, hzl1]
          · exact hmem2 e he2

theorem ringGet_congr (l : List Nat) (i j : Nat) (hij : i % l.length = j % l.length) :
    ringGet l i = ringGet l j := by
  unfold ringGet
  rw [hij]

theorem ring_rotate (s : Mem) (a : Nat) (l : List Nat) (hring : IsRing s (a :: l)) :
    IsRing s (l ++ [a]) := by
  cases l with
  | nil => exact hring
  | cons b l2 =>
    have hn2 : 2 ≤ (a :: b :: l2).length := by simp
    have hmap : ∀ k, ringGet ((b :: l2) ++ [a]) k = ringGet (a :: b :: l2) (k + 1) := by
      intro k
      have hL1 : ((b :: l2) ++ [a]).length = l2.length + 2 := by simp
      have hL2 : (a :: b :: l2).length = l2.length + 2 := by simp
      unfold ringGet
      rw [hL1, hL2]
      have hm : k % (l2.length + 2) < l2.length + 2 := Nat.mod_lt _ (by omega)
      rcases Nat.lt_or_ge (k % (l2.length + 2)) (l2.length + 1) with h1 | h1
      · have h2 : (k + 1) % (l2.length + 2) = k % (l2.length + 2) + 1 := by
          rw [Nat.add_mod, Nat.mod_eq_of_lt (show 1 < l2.length + 2 from by omega),
            Nat.mod_eq_of_lt (by omega)]
        rw [h2]
        rw [List.getD_append _ _ _ _
          (show k % (l2.length + 2) < (b :: l2).length from by simp; omega)]
        rw [List.getD_cons_succ]
      · have h2 : k % (l2.length + 2) = l2.length + 1 := by omega
        have h3 : (k + 1) % (l2.length + 2) = 0 := by
          rw [Nat.add_mod, h2, Nat.mod_eq_of_lt (show 1 < l2.length + 2 from by omega)]
          simp
        rw [h2, h3]
        rw [show ((b :: l2) ++ [a]).getD (l2.length + 1) 0 = a from by
          rw [List.getD_append_right _ _ _ _
            (show (b :: l2).length ≤ l2.length + 1 from by simp)]
          simp]
        rfl
    refine ⟨by simp, ?_⟩
    intro i hi
    rw [hmap i, hmap (i + 1)]
    have hb := hring.2 ((i + 1) % (a :: b :: l2).length) (Nat.mod_lt _ (by simp))
    have e1 : ringGet (a :: b :: l2) ((i + 1) % (a :: b :: l2).length) =
        ringGet (a :: b :: l2) (i + 1) :=
      ringGet_congr _ _ _ (Nat.mod_mod_of_dvd _ (dvd_refl _))
    have e2 : ringGet (a :: b :: l2) ((i + 1) % (a :: b :: l2).length + 1) =
        ringGet (a :: b :: l2) (i + 1 + 1) := by
      apply ringGet_congr
      rw [Nat.add_mod ((i + 1) % (a :: b :: l2).length) 1, Nat.mod_mod_of_dvd _ (dvd_refl _),
        ← Nat.add_mod]
    rw [e1, e2] at hb
    exact hb

theorem ring_insert (s : Mem) (m e : Nat) (rl2 : List Nat)
    (hring : IsRing s (m :: rl2)) (hnd : (m :: rl2).Nodup) (hnew : e ∉ m :: rl2)
    (hlive : ∀ a, a ∈ m :: rl2 → a < s.length) (hel : e < s.length) :
    IsRing (FibonacciHeap.doublylinkedlist_insert s (some m) e) (m :: e :: rl2) := by
  have hml : m < s.length := hlive m (by simp)
  have hem : e ≠ m := fun hc => hnew (by rw [hc]; exact List.mem_cons_self _ _)
  have hR : ∀ j, rightF (FibonacciHeap.doublylinkedlist_insert s (some m) e) j =
      if e = j then (getN s m).right else if m = j then e else rightF s j := by
    intro j
    rw [rightF_dll]
    rcases eq_or_ne e j with rfl | hej
    · rw [if_pos ⟨rfl, hel⟩, if_pos rfl]
    · rw [if_neg (fun hc => hej hc.1), if_neg hej]
      rcases eq_or_ne m j with rfl | hmj
      · rw [if_pos ⟨rfl, hml⟩, if_pos rfl]
      · rw [if_neg (fun hc => hmj hc.1), if_neg hmj]
  have hr1 : (getN s m).right = ringGet (m :: rl2) 1 := by
    have h0 := (hring.2 0 (by simp)).1
    rw [show ringGet (m :: rl2) 0 = m from by rw [ringGet_lt _ _ (by simp)]; rfl] at h0
    exact h0
  have hL : ∀ j, leftF (FibonacciHeap.doublylinkedlist_insert s (some m) e) j =
      if e = j then m else if (getN s m).right = j then e else leftF s j := by
    intro j
    rw [leftF_dll]
    rcases eq_or_ne e j with rfl | hej
    · rw [if_pos ⟨rfl, hel⟩, if_pos rfl]
    · rw [if_neg (fun hc => hej hc.1), if_neg hej]
      rcases eq_or_ne ((getN s m).right) j with rfl | hmj
      · have hrb : (getN s m).right < s.length := by
          rw [hr1]
          exact hlive _ (ringGet_mem _ _ (by simp))
        rw [if_pos ⟨rfl, hrb⟩, if_pos rfl]
      · rw [if_neg (fun hc => hmj hc.1), if_neg hmj]
  have hmap : ∀ k, 1 ≤ k → k ≤ (m :: rl2).length →
      ringGet (m :: e :: rl2) (k + 1) = ringGet (m :: rl2) k := by
    intro k hk1 hk2
    have hL2 : (m :: rl2).length = rl2.length + 1 := by simp
    rcases Nat.lt_or_ge k (rl2.length + 1) with h1 | h1
    · rw [ringGet_lt _ _ (by simp; omega), ringGet_lt _ _ (by simp; omega)]
      rcases Nat.exists_eq_add_of_le hk1 with ⟨k0, rfl⟩
      rw [show 1 + k0 + 1 = k0 + 2 from by omega, show 1 + k0 = k0 + 1 from by omega]
      rfl
    · have hke : k = rl2.length + 1 := by omega
      subst hke
      have e1 : ringGet (m :: e :: rl2) (rl2.length + 2) = m := by
        unfold ringGet
        rw [show (m :: e :: rl2).length = rl2.length + 2 from by simp, Nat.mod_self]
        rfl
      have e2 : ringGet (m :: rl2) (rl2.length + 1) = m := by
        unfold ringGet
        rw [hL2, Nat.mod_self]
        rfl
      rw [show rl2.length + 1 + 1 = rl2.length + 2 from rfl, e1, e2]
  have hg0 : ringGet (m :: e :: rl2) 0 = m := by
    rw [ringGet_lt _ _ (by simp)]
    rfl
  have hg1 : ringGet (m :: e :: rl2) 1 = e := by
    rw [ringGet_lt _ _ (by simp)]
    rfl
  have hnodupId : ∀ i j, i < (m :: rl2).length → j < (m :: rl2).length →
      ringGet (m :: rl2) i = ringGet (m :: rl2) j → i = j := by
    intro i j hi hj hij
    apply nodup_getD_inj _ hnd i j hi hj
    rw [← ringGet_lt _ _ hi, ← ringGet_lt _ _ hj]
    exact hij
  refine ⟨by simp, ?_⟩
  intro i hi
  rw [show (m :: e :: rl2).length = rl2.length + 2 from by simp] at hi
  rcases i with _ | i1
  · constructor
    · rw [show (0 : Nat) + 1 = 1 from rfl, hg0, hg1, hR]
      rw [if_neg hem, if_pos rfl]
    · rw [show (0 : Nat) + 1 = 1 from rfl, hg0, hg1, hL]
      rw [if_pos rfl]
  · rcases i1 with _ | i2
    · constructor
      · rw [show (0 : Nat) + 1 = 1 from rfl, hg1, hR, if_pos rfl]
        rw [show (1 : Nat) + 1 = 1 + 1 from rfl, hmap 1 (by omega) (by simp)]
        exact hr1
      · rw [show (0 : Nat) + 1 = 1 from rfl, hg1]
        rw [show (1 : Nat) + 1 = 1 + 1 from rfl, hmap 1 (by omega) (by simp)]
        rw [hL]
        rw [if_neg (fun hc => hnew (by rw [hc]; exact ringGet_mem (m :: rl2) 1 (by simp)))]
        rw [if_pos hr1]
    · have hi2 : i2 < rl2.length := by omega
      have hn2 : 1 ≤ rl2.length := by omega
      constructor
      · rw [show i2 + 1 + 1 = (i2 + 1) + 1 from rfl,
          hmap (i2 + 1) (by omega) (by simp; omega)]
        rw [show i2 + 1 + 1 + 1 = (i2 + 2) + 1 from rfl,
          hmap (i2 + 2) (by omega) (by simp; omega)]
        rw [hR]
        rw [if_neg (fun hc => hnew (by rw [hc]; exact ringGet_mem (m :: rl2) (i2 + 1) (by simp)))]
        rw [if_neg ?nem]
        case nem =>
          intro hc
          have h2 : (0 : Nat) = i2 + 1 := by
            apply hnodupId 0 (i2 + 1) (by simp) (by simp; omega)
            rw [show ringGet (m :: rl2) 0 = m from by rw [ringGet_lt _ _ (by simp)]; rfl]
            exact hc
          omega
        exact (hring.2 (i2 + 1) (by simp; omega)).1
      · rw [show i2 + 1 + 1 = (i2 + 1) + 1 from rfl,
          hmap (i2 + 1) (by omega) (by simp; omega)]
        rw [show i2 + 1 + 1 + 1 = (i2 + 2) + 1 from rfl,
          hmap (i2 + 2) (by omega) (by simp; omega)]
        rw [hL]
        rw [if_neg (fun hc => hnew (by rw [hc]; exact ringGet_mem (m :: rl2) (i2 + 2) (by simp)))]
        rw [if_neg ?ner]
        case ner =>
          intro hc
          rw [hr1] at hc
          have hmodred : ringGet (m :: rl2) (i2 + 2) =
              ringGet (m :: rl2) ((i2 + 2) % (rl2.length + 1)) := by
            apply ringGet_congr
            rw [show (m :: rl2).length = rl2.length + 1 from by simp]
            rw [Nat.mod_mod_of_dvd _ (dvd_refl _)]
          rw [hmodred] at hc
          have hmlt : (i2 + 2) % (rl2.length + 1) < rl2.length + 1 :=
            Nat.mod_lt _ (by omega)
          have h2 : (1 : Nat) = (i2 + 2) % (rl2.length + 1) :=
            hnodupId 1 ((i2 + 2) % (rl2.length + 1)) (by simp; omega) (by simp; omega) hc
          rcases Nat.lt_or_ge (i2 + 2) (rl2.length + 1) with hcase | hcase
          · rw [Nat.mod_eq_of_lt hcase] at h2
            omega
          · have hceq : i2 + 2 = rl2.length + 1 := by omega
            rw [hceq, Nat.mod_self] at h2
            omega
        have hb := (hring.2 (i2 + 1) (by simp; omega)).2
        exact hb

theorem degF_heap_link_ne (s : Mem) (y x j : Nat) (hxj : x ≠ j) :
    degF (FibonacciHeap.heap_link s y x) j = degF s j := by
  unfold FibonacciHeap.heap_link
  rcases hc : (getN s x).child with _ | c <;> dsimp only [] <;>
    simp [hxj]

theorem degF_heap_link_self (s : Mem) (y x : Nat) (hx : x < s.length) :
    degF (FibonacciHeap.heap_link s y x) x = degF s x + 1 := by
  unfold FibonacciHeap.heap_link
  rcases hc : (getN s x).child with _ | c <;> dsimp only []
  · have hv : (getN (setParentN (setChildN s x (some y)) y (some x)) x).degree = degF s x := by
      show degF _ _ = _
      simp
    rw [hv]
    simp [hx]
  · have hv : (getN (setParentN
        (FibonacciHeap.doublylinkedlist_insert s (some c) y) y (some x)) x).degree
        = degF s x := by
      show degF _ _ = _
      simp
    rw [hv]
    simp [hx]

theorem childF_heap_link (s : Mem) (y x : Nat) (j : Nat) :
    childF (FibonacciHeap.heap_link s y x) j =
      match (getN s x).child with
      | none => if x = j ∧ j < s.length then some y else childF s j
      | some _ => childF s j := by
  unfold FibonacciHeap.heap_link
  rcases hc : (getN s x).child with _ | c <;> dsimp only [] <;> simp

theorem rightF_heap_link (s : Mem) (y x : Nat) (j : Nat) :
    rightF (FibonacciHeap.heap_link s y x) j =
      match (getN s x).child with
      | none => rightF s j
      | some c => if y = j ∧ j < s.length then (getN s c).right
          else if c = j ∧ j < s.length then y else rightF s j := by
  unfold FibonacciHeap.heap_link
  rcases hc : (getN s x).child with _ | c <;> dsimp only []
  · simp
  · simp only [rightF_setMarkN, rightF_setDegreeN, rightF_setParentN]
    rw [rightF_dll]

theorem leftF_heap_link (s : Mem) (y x : Nat) (j : Nat) :
    leftF (FibonacciHeap.heap_link s y x) j =
      match (getN s x).child with
      | none => leftF s j
      | some c => if y = j ∧ j < s.length then c
          else if (getN s c).right = j ∧ j < s.length then y else leftF s j := by
  unfold FibonacciHeap.heap_link
  rcases hc : (getN s x).child with _ | c <;> dsimp only []
  · simp
  · simp only [leftF_setMarkN, leftF_setDegreeN, leftF_setParentN]
    rw [leftF_dll]

/-- Every parentless (root or detached) node is its own sibling ring. -/
def SelfLoops (s : Mem) : Prop := ∀ j, j < s.length → parF s j = none →
  rightF s j = j ∧ leftF s j = j

/-- The pointer coherence carried through the consolidation link loop. -/
def LinkInv (s : Mem) : Prop := WFptr s ∧ SelfLoops s ∧ childParent s ∧ sibParR s

theorem heap_link_preserves (s : Mem) (y2 x2 : Nat)
    (hx2l : x2 < s.length) (hy2l : y2 < s.length)
    (hy2p : parF s y2 = none)
    (hinv : LinkInv s) : LinkInv (FibonacciHeap.heap_link s y2 x2) := by
  obtain ⟨hwf, hsl, hcp, hsp⟩ := hinv
  obtain ⟨hlkLen, hlkPrio, hlkObj, hlkPar⟩ := heap_link_fields s y2 x2
  rcases hchild : (getN s x2).child with _ | c
  · have hR : ∀ j, rightF (FibonacciHeap.heap_link s y2 x2) j = rightF s j := by
      intro j
      rw [rightF_heap_link, hchild]
    have hL : ∀ j, leftF (FibonacciHeap.heap_link s y2 x2) j = leftF s j := by
      intro j
      rw [leftF_heap_link, hchild]
    have hC : ∀ j, childF (FibonacciHeap.heap_link s y2 x2) j =
        if x2 = j ∧ j < s.length then some y2 else childF s j := by
      intro j
      rw [childF_heap_link, hchild]
    refine ⟨?_, ?_, ?_, ?_⟩
    · intro i hi
      rw [hlkLen] at hi
      refine ⟨by rw [hlkLen, hL]; exact (hwf i hi).1, by rw [hlkLen, hR]; exact (hwf i hi).2.1,
        ?_, ?_⟩
      · intro q hq
        rw [hlkLen]
        rw [hlkPar i] at hq
        rcases eq_or_ne y2 i with rfl | hyi
        · rw [if_pos ⟨rfl, hi⟩] at hq
          cases hq
          exact hx2l
        · rw [if_neg (fun hcc => hyi hcc.1)] at hq
          exact (hwf i hi).2.2.1 q hq
      · intro cc hcc
        rw [hlkLen]
        rw [hC i] at hcc
        rcases eq_or_ne x2 i with rfl | hxi
        · rw [if_pos ⟨rfl, hi⟩] at hcc
          cases hcc
          exact hy2l
        · rw [if_neg (fun h2 => hxi h2.1)] at hcc
          exact (hwf i hi).2.2.2 cc hcc
    · intro j hj hpj
      rw [hlkLen] at hj
      rw [hR, hL]
      rw [hlkPar j] at hpj
      rcases eq_or_ne y2 j with rfl | hyj
      · rw [if_pos ⟨rfl, hj⟩] at hpj
        cases hpj
      · rw [if_neg (fun hcc => hyj hcc.1)] at hpj
        exact hsl j hj hpj
    · intro i hi cc hcc
      rw [hlkLen] at hi
      rw [hC i] at hcc
      rw [hlkPar cc]
      rcases eq_or_ne x2 i with rfl | hxi
      · rw [if_pos ⟨rfl, hi⟩] at hcc
        cases hcc
        rw [if_pos ⟨rfl, hy2l⟩]
      · rw [if_neg (fun h2 => hxi h2.1)] at hcc
        have := hcp i hi cc hcc
        rw [if_neg ?hne]
        · exact this
        case hne =>
          intro h2
          rw [h2.1] at hy2p
          rw [this] at hy2p
          cases hy2p
    · intro i hi q hq
      rw [hlkLen] at hi
      rw [hlkPar i] at hq
      rw [hR i, hlkPar (rightF s i)]
      rcases eq_or_ne y2 i with rfl | hyi
      · rw [if_pos ⟨rfl, hi⟩] at hq
        cases hq
        have hself := (hsl y2 hi hy2p).1
        rw [hself]
        rw [if_pos ⟨rfl, hi⟩]
      · rw [if_neg (fun hcc => hyi hcc.1)] at hq
        have := hsp i hi q hq
        rw [if_neg ?hne2]
        · exact this
        case hne2 =>
          intro h2
          rw [h2.1] at hy2p
          rw [this] at hy2p
          cases hy2p
  · have hcl : c < s.length := (hwf x2 hx2l).2.2.2 c hchild
    have hpc : parF s c = some x2 := hcp x2 hx2l c hchild
    have htl : rightF s c < s.length := (hwf c hcl).2.1
    have hpt : parF s (rightF s c) = some x2 := hsp c hcl x2 hpc
    have hcy : c ≠ y2 := by
      intro hcc
      rw [hcc, hy2p] at hpc
      cases hpc
    have hty : rightF s c ≠ y2 := by
      intro hcc
      rw [hcc, hy2p] at hpt
      cases hpt
    have hR : ∀ j, rightF (FibonacciHeap.heap_link s y2 x2) j =
        if y2 = j ∧ j < s.length then (getN s c).right
        else if c = j ∧ j < s.length then y2 else rightF s j := by
      intro j
      rw [rightF_heap_link, hchild]
    have hL : ∀ j, leftF (FibonacciHeap.heap_link s y2 x2) j =
        if y2 = j ∧ j < s.length then c
        else if (getN s c).right = j ∧ j < s.length then y2 else leftF s j := by
      intro j
      rw [leftF_heap_link, hchild]
    have hC : ∀ j, childF (FibonacciHeap.heap_link s y2 x2) j = childF s j := by
      intro j
      rw [childF_heap_link, hchild]
    have hrc : (getN s c).right = rightF s c := rfl
    refine ⟨?_, ?_, ?_, ?_⟩
    · intro i hi
      rw [hlkLen] at hi
      refine ⟨?_, ?_, ?_, ?_⟩
      · rw [hlkLen, hL]
        split
        · exact hcl
        · split
          · exact hy2l
          · exact (hwf i hi).1
      · rw [hlkLen, hR]
        split
        · rw [hrc]
          exact htl
        · split
          · exact hy2l
          · exact (hwf i hi).2.1
      · intro q hq
        rw [hlkLen]
        rw [hlkPar i] at hq
        rcases eq_or_ne y2 i with rfl | hyi
        · rw [if_pos ⟨rfl, hi⟩] at hq
          cases hq
          exact hx2l
        · rw [if_neg (fun hcc => hyi hcc.1)] at hq
          exact (hwf i hi).2.2.1 q hq
      · intro cc hcc
        rw [hlkLen]
        rw [hC i] at hcc
        exact (hwf i hi).2.2.2 cc hcc
    · intro j hj hpj
      rw [hlkLen] at hj
      rw [hlkPar j] at hpj
      rcases eq_or_ne y2 j with rfl | hyj
      · rw [if_pos ⟨rfl, hj⟩] at hpj
        cases hpj
      · rw [if_neg (fun hcc => hyj hcc.1)] at hpj
        have hjc : c ≠ j := by
          intro hcc
          rw [hcc, hpj] at hpc
          cases hpc
        have hjt : (getN s c).right ≠ j := by
          intro hcc
          rw [hrc] at hcc
          rw [hcc, hpj] at hpt
          cases hpt
        rw [hR, hL, if_neg (fun hcc => hyj hcc.1), if_neg (fun hcc => hjc hcc.1),
          if_neg (fun hcc => hyj hcc.1), if_neg (fun hcc => hjt hcc.1)]
        exact hsl j hj hpj
    · intro i hi cc hcc
      rw [hlkLen] at hi
      rw [hC i] at hcc
      rw [hlkPar cc]
      have := hcp i hi cc hcc
      rw [if_neg ?hne3]
      · exact this
      case hne3 =>
        intro h2
        rw [h2.1] at hy2p
        rw [this] at hy2p
        cases hy2p
    · intro i hi q hq
      rw [hlkLen] at hi
      rw [hlkPar i] at hq
      rcases eq_or_ne y2 i with rfl | hyi
      · rw [if_pos ⟨rfl, hi⟩] at hq
        cases hq
        have hr2 : rightF (FibonacciHeap.heap_link s y2 x2) y2 = rightF s c := by
          rw [hR, if_pos ⟨rfl, hi⟩]
          exact hrc
        rw [hr2, hlkPar, if_neg (fun hcc => hty hcc.1.symm)]
        exact hpt
      · rw [if_neg (fun hcc => hyi hcc.1)] at hq
        have hold := hsp i hi q hq
        rcases eq_or_ne c i with rfl | hci
        · rw [hq] at hpc
          injection hpc with hqx
          rw [hqx]
          have hr2 : rightF (FibonacciHeap.heap_link s y2 x2) c = y2 := by
            rw [hR, if_neg (fun hcc => hcy hcc.1.symm), if_pos ⟨rfl, hi⟩]
          rw [hr2, hlkPar, if_pos ⟨rfl, hy2l⟩]
        · have hry : y2 ≠ rightF s i := by
            intro hcc
            rw [← hcc] at hold
            rw [hy2p] at hold
            cases hold
          have hr2 : rightF (FibonacciHeap.heap_link s y2 x2) i = rightF s i := by
            rw [hR, if_neg (fun hcc => hyi hcc.1), if_neg (fun hcc => hci hcc.1)]
          rw [hr2, hlkPar, if_neg (fun hcc => hry hcc.1)]
          exact hold

/-- Membership in the consolidation slot table. -/
def inArr (arr : List (Option Nat)) (e : Nat) : Prop := ∃ i : Nat, arr[i]? = some (some e)

theorem link_step_inv : ∀ (fuel : Nat) (s : Mem) (arr : List (Option Nat)) (x d : Nat)
    {s' : Mem} {arr' : List (Option Nat)},
    FibonacciHeap.link_step fuel s arr x d = some (s', arr') →
    degF s x = d → x < s.length → parF s x = none → LinkInv s →
    (∀ (i e : Nat), arr[i]? = some (some e) → degF s e = i ∧ e < s.length ∧ parF s e = none ∧ e ≠ x) →
    (∀ (i j e : Nat), arr[i]? = some (some e) → arr[j]? = some (some e) → i = j) →
    (∀ (i e : Nat), arr'[i]? = some (some e) → degF s' e = i ∧ e < s'.length ∧ parF s' e = none) ∧
    (∀ (i j e : Nat), arr'[i]? = some (some e) → arr'[j]? = some (some e) → i = j) ∧
    (∀ e, inArr arr' e → inArr arr e ∨ e = x) ∧
    s'.length = s.length ∧ (∀ j, prioF s' j = prioF s j) ∧ (∀ j, objF s' j = objF s j) ∧
    (∀ j, ¬ inArr arr j → j ≠ x → parF s' j = parF s j) ∧
    (∃ e, inArr arr' e) ∧ LinkInv s' := by
  intro fuel
  induction fuel with
  | zero =>
    intro s arr x d s' arr' hl
    cases hl
  | succ fuel ih =>
    intro s arr x d s' arr' hl hdx hx hpx hli hwf hinj
    unfold FibonacciHeap.link_step at hl
    rcases had : arr[d]? with _ | od <;> rw [had] at hl
    · cases hl
    · have hdlt : d < arr.length := by
        by_contra hge
        rw [List.getElem?_eq_none (Nat.le_of_not_lt hge)] at had
        cases had
      rcases od with _ | y
      · dsimp only [] at hl
        cases hl
        refine ⟨?_, ?_, ?_, rfl, fun j => rfl, fun j => rfl, fun j _ _ => rfl,
          ⟨x, d, by rw [List.getElem?_set_self hdlt]⟩, hli⟩
        · intro i e hie
          rcases eq_or_ne d i with rfl | hid
          · rw [List.getElem?_set_self hdlt] at hie
            cases hie
            exact ⟨hdx, hx, hpx⟩
          · rw [List.getElem?_set_ne hid] at hie
            obtain ⟨h1, h2, h3, _⟩ := hwf i e hie
            exact ⟨h1, h2, h3⟩
        · intro i j e hie hje
          rcases eq_or_ne d i with rfl | hdi
          · rcases eq_or_ne d j with rfl | hdj
            · rfl
            · rw [List.getElem?_set_self hdlt] at hie
              rw [List.getElem?_set_ne hdj] at hje
              cases hie
              exact absurd rfl (hwf j x hje).2.2.2
          · rw [List.getElem?_set_ne hdi] at hie
            rcases eq_or_ne d j with rfl | hdj
            · rw [List.getElem?_set_self hdlt] at hje
              cases hje
              exact absurd rfl (hwf i x hie).2.2.2
            · rw [List.getElem?_set_ne hdj] at hje
              exact hinj i j e hie hje
        · intro e he
          obtain ⟨i, hi⟩ := he
          rcases eq_or_ne d i with rfl | hdi
          · rw [List.getElem?_set_self hdlt] at hi
            cases hi
            exact Or.inr rfl
          · rw [List.getElem?_set_ne hdi] at hi
            exact Or.inl ⟨i, hi⟩
      · dsimp only [] at hl
        obtain ⟨hyd, hyl, hyp, hyx⟩ := hwf d y had
        have main : ∀ x2 y2, (x2 = x ∨ x2 = y) → (y2 = x ∨ y2 = y) → x2 ≠ y2 →
            FibonacciHeap.link_step fuel (FibonacciHeap.heap_link s y2 x2) (arr.set d none)
              x2 (d + 1) = some (s', arr') →
            (∀ (i e : Nat), arr'[i]? = some (some e) →
              degF s' e = i ∧ e < s'.length ∧ parF s' e = none) ∧
            (∀ (i j e : Nat), arr'[i]? = some (some e) → arr'[j]? = some (some e) → i = j) ∧
            (∀ e, inArr arr' e → inArr arr e ∨ e = x) ∧
            s'.length = s.length ∧ (∀ j, prioF s' j = prioF s j) ∧
            (∀ j, objF s' j = objF s j) ∧
            (∀ j, ¬ inArr arr j → j ≠ x → parF s' j = parF s j) ∧
            (∃ e, inArr arr' e) ∧ LinkInv s' := by
          intro x2 y2 hx2 hy2 hxy2 hl2
          have hx2d : degF s x2 = d := by
            rcases hx2 with rfl | rfl
            · exact hdx
            · exact hyd
          have hx2l : x2 < s.length := by
            rcases hx2 with rfl | rfl
            · exact hx
            · exact hyl
          have hx2p : parF s x2 = none := by
            rcases hx2 with rfl | rfl
            · exact hpx
            · exact hyp
          have hy2l : y2 < s.length := by
            rcases hy2 with rfl | rfl
            · exact hx
            · exact hyl
          have hy2p : parF s y2 = none := by
            rcases hy2 with rfl | rfl
            · exact hpx
            · exact hyp
          have hli1 : LinkInv (FibonacciHeap.heap_link s y2 x2) :=
            heap_link_preserves s y2 x2 hx2l hy2l hy2p hli
          obtain ⟨hlkLen, hlkPrio, hlkObj, hlkPar⟩ := heap_link_fields s y2 x2
          have hd1 : degF (FibonacciHeap.heap_link s y2 x2) x2 = d + 1 := by
            rw [degF_heap_link_self s y2 x2 hx2l, hx2d]
          have hx1l : x2 < (FibonacciHeap.heap_link s y2 x2).length := by
            rw [hlkLen]
            exact hx2l
          have hp1 : parF (FibonacciHeap.heap_link s y2 x2) x2 = none := by
            rw [hlkPar x2, if_neg (fun hc => hxy2 hc.1.symm)]
            exact hx2p
          have hwf1 : ∀ (i e : Nat), (arr.set d none)[i]? = some (some e) →
              degF (FibonacciHeap.heap_link s y2 x2) e = i ∧
              e < (FibonacciHeap.heap_link s y2 x2).length ∧
              parF (FibonacciHeap.heap_link s y2 x2) e = none ∧ e ≠ x2 := by
            intro i e hie
            rcases eq_or_ne d i with rfl | hdi
            · rw [List.getElem?_set_self hdlt] at hie
              cases hie
            · rw [List.getElem?_set_ne hdi] at hie
              obtain ⟨h1, h2, h3, h4⟩ := hwf i e hie
              have hey : e ≠ y := by
                intro hc
                subst hc
                exact hdi (hinj d i e had hie)
              have hex2 : e ≠ x2 := by
                rcases hx2 with rfl | rfl
                · exact h4
                · exact hey
              have hey2 : y2 ≠ e := by
                rcases hy2 with rfl | rfl
                · exact fun hc => h4 hc.symm
                · exact fun hc => hey hc.symm
              refine ⟨?_, ?_, ?_, hex2⟩
              · rw [degF_heap_link_ne s y2 x2 e (fun hc => hex2 hc.symm)]
                exact h1
              · rw [hlkLen]
                exact h2
              · rw [hlkPar e, if_neg (fun hc => hey2 hc.1)]
                exact h3
          have hinj1 : ∀ (i j e : Nat), (arr.set d none)[i]? = some (some e) →
              (arr.set d none)[j]? = some (some e) → i = j := by
            intro i j e hie hje
            rcases eq_or_ne d i with rfl | hdi
            · rw [List.getElem?_set_self hdlt] at hie
              cases hie
            · rcases eq_or_ne d j with rfl | hdj
              · rw [List.getElem?_set_self hdlt] at hje
                cases hje
              · rw [List.getElem?_set_ne hdi] at hie
                rw [List.getElem?_set_ne hdj] at hje
                exact hinj i j e hie hje
          obtain ⟨c1, c2, c3, c4, c5, c6, c7, c8, c9⟩ :=
            ih (FibonacciHeap.heap_link s y2 x2) (arr.set d none) x2 (d + 1)
              hl2 hd1 hx1l hp1 hli1 hwf1 hinj1
          refine ⟨c1, c2, ?_, by rw [c4, hlkLen], fun j => by rw [c5 j, hlkPrio j],
            fun j => by rw [c6 j, hlkObj j], ?_, c8, c9⟩
          · intro e he
            rcases c3 e he with h1 | rfl
            · obtain ⟨i, hi⟩ := h1
              rcases eq_or_ne d i with rfl | hdi
              · rw [List.getElem?_set_self hdlt] at hi
                cases hi
              · rw [List.getElem?_set_ne hdi] at hi
                exact Or.inl ⟨i, hi⟩
            · rcases hx2 with rfl | rfl
              · exact Or.inr rfl
              · exact Or.inl ⟨d, had⟩
          · intro j hjarr hjx
            have hjy : j ≠ y := by
              intro hc
              subst hc
              exact hjarr ⟨d, had⟩
            have hjarr1 : ¬ inArr (arr.set d none) j := by
              intro hc
              obtain ⟨i, hi⟩ := hc
              rcases eq_or_ne d i with rfl | hdi
              · rw [List.getElem?_set_self hdlt] at hi
                cases hi
              · rw [List.getElem?_set_ne hdi] at hi
                exact hjarr ⟨i, hi⟩
            have hjx2 : j ≠ x2 := by
              rcases hx2 with rfl | rfl
              · exact hjx
              · exact hjy
            have hy2j : y2 ≠ j := by
              rcases hy2 with rfl | rfl
              · exact fun hc => hjx hc.symm
              · exact fun hc => hjy hc.symm
            rw [c7 j hjarr1 hjx2, hlkPar j, if_neg (fun hc => hy2j hc.1)]
        by_cases hswap : Priority.lt (getN s y).priority (getN s x).priority = true
        · rw [if_pos hswap] at hl
          dsimp only [] at hl
          exact main y x (Or.inr rfl) (Or.inl rfl) (fun hc => hyx hc) hl
        · rw [if_neg hswap] at hl
          dsimp only [] at hl
          exact main x y (Or.inl rfl) (Or.inr rfl) (fun hc => hyx hc.symm) hl

theorem link_all_inv : ∀ (q : List Nat) (s : Mem) (arr : List (Option Nat)) (done : List Nat)
    {s' : Mem} {arr' : List (Option Nat)},
    FibonacciHeap.link_all q s arr = some (s', arr') →
    (done ++ q).Nodup →
    (∀ e, e ∈ q → e < s.length ∧ parF s e = none) → LinkInv s →
    (∀ (i e : Nat), arr[i]? = some (some e) →
      degF s e = i ∧ e < s.length ∧ parF s e = none ∧ e ∈ done) →
    (∀ (i j e : Nat), arr[i]? = some (some e) → arr[j]? = some (some e) → i = j) →
    (∀ (i e : Nat), arr'[i]? = some (some e) →
      degF s' e = i ∧ e < s'.length ∧ parF s' e = none) ∧
    (∀ (i j e : Nat), arr'[i]? = some (some e) → arr'[j]? = some (some e) → i = j) ∧
    s'.length = s.length ∧ (∀ j, prioF s' j = prioF s j) ∧ (∀ j, objF s' j = objF s j) ∧
    ((∃ e, inArr arr e) ∨ q ≠ [] → ∃ e, inArr arr' e) ∧ LinkInv s' := by
  intro q
  induction q with
  | nil =>
    intro s arr done s' arr' hl hnd hq hli hwf hinj
    unfold FibonacciHeap.link_all at hl
    cases hl
    refine ⟨fun i e hie => ⟨(hwf i e hie).1, (hwf i e hie).2.1, (hwf i e hie).2.2.1⟩,
      hinj, rfl, fun j => rfl, fun j => rfl, ?_, hli⟩
    intro hne
    rcases hne with h1 | h1
    · exact h1
    · exact absurd rfl h1
  | cons x q2 ih =>
    intro s arr done s' arr' hl hnd hq hli hwf hinj
    unfold FibonacciHeap.link_all at hl
    rcases hls : FibonacciHeap.link_step (arr.length + 1) s arr x ((getN s x).degree)
        with _ | ⟨s1, arr1⟩ <;> rw [hls] at hl
    · cases hl
    · dsimp only [] at hl
      have hxq := hq x (by simp)
      have hxdone : x ∉ done := by
        intro hc
        exact (List.nodup_append.1 hnd).2.2 hc (List.mem_cons_self _ _)
      have hwf0 : ∀ (i e : Nat), arr[i]? = some (some e) →
          degF s e = i ∧ e < s.length ∧ parF s e = none ∧ e ≠ x := by
        intro i e hie
        obtain ⟨h1, h2, h3, h4⟩ := hwf i e hie
        refine ⟨h1, h2, h3, ?_⟩
        intro hc
        subst hc
        exact hxdone h4
      obtain ⟨c1, c2, c3, c4, c5, c6, c7, c8, c9⟩ :=
        link_step_inv (arr.length + 1) s arr x ((getN s x).degree) hls rfl hxq.1 hxq.2 hli
          hwf0 hinj
      have hnd1 : ((done ++ [x]) ++ q2).Nodup := by
        rw [List.append_assoc]
        exact hnd
      have hq1 : ∀ e, e ∈ q2 → e < s1.length ∧ parF s1 e = none := by
        intro e he
        have heq := hq e (List.mem_cons_of_mem x he)
        have hex : e ≠ x := by
          intro hc
          subst hc
          exact (List.nodup_cons.1 (List.nodup_append.1 hnd).2.1).1 he
        have hearr : ¬ inArr arr e := by
          intro hc
          obtain ⟨i, hi⟩ := hc
          exact (List.nodup_append.1 hnd).2.2 (hwf i e hi).2.2.2 (List.mem_cons_of_mem x he)
        exact ⟨by rw [c4]; exact heq.1, by rw [c7 e hearr hex]; exact heq.2⟩
      have hwf1 : ∀ (i e : Nat), arr1[i]? = some (some e) →
          degF s1 e = i ∧ e < s1.length ∧ parF s1 e = none ∧ e ∈ done ++ [x] := by
        intro i e hie
        obtain ⟨h1, h2, h3⟩ := c1 i e hie
        refine ⟨h1, h2, h3, ?_⟩
        rcases c3 e ⟨i, hie⟩ with h4 | rfl
        · obtain ⟨i2, hi2⟩ := h4
          exact List.mem_append_left _ (hwf i2 e hi2).2.2.2
        · exact List.mem_append_right _ (by simp)
      obtain ⟨d1, d2, d3, d4, d5, d6, d7⟩ := ih s1 arr1 (done ++ [x]) hl hnd1 hq1 c9 hwf1 c2
      refine ⟨d1, d2, by rw [d3, c4], fun j => by rw [d4 j, c5 j],
        fun j => by rw [d5 j, c6 j], ?_, d7⟩
      intro _
      exact d6 (Or.inl c8)

theorem rebuild_ring : ∀ (arr : List (Option Nat)) (s : Mem) (h : Heap) (m : Nat)
    (rlrest : List Nat),
    h._min = some m →
    IsRing s (m :: rlrest) →
    (m :: rlrest).Nodup →
    (∀ e, e ∈ m :: rlrest → e < s.length) →
    (∀ e, e ∈ m :: rlrest → Priority.le (prioF s m) (prioF s e) = true) →
    (∀ (i e : Nat), arr[i]? = some (some e) → e < s.length ∧ parF s e = none ∧
      e ∉ m :: rlrest) →
    (∀ (i j e : Nat), arr[i]? = some (some e) → arr[j]? = some (some e) → i = j) →
    ∃ m' rl', (FibonacciHeap.rebuild_roots s h arr).2._min = some m' ∧
      IsRing (FibonacciHeap.rebuild_roots s h arr).1 rl' ∧ rl'.Nodup ∧
      m' ∈ rl' ∧
      (∀ e, e ∈ rl' → e ∈ m :: rlrest ∨ inArr arr e) ∧
      (∀ e, e ∈ rl' → Priority.le (prioF s m') (prioF s e) = true) ∧
      (FibonacciHeap.rebuild_roots s h arr).1.length = s.length ∧
      (∀ j, prioF (FibonacciHeap.rebuild_roots s h arr).1 j = prioF s j) ∧
      (∀ j, degF (FibonacciHeap.rebuild_roots s h arr).1 j = degF s j) ∧
      (∀ j, parF (FibonacciHeap.rebuild_roots s h arr).1 j = parF s j) := by
  intro arr
  induction arr with
  | nil =>
    intro s h m rlrest hmin hring hnd hlive hple hent hinj
    exact ⟨m, m :: rlrest, hmin, hring, hnd, List.mem_cons_self _ _,
      fun e he => Or.inl he, hple, rfl, fun j => rfl, fun j => rfl, fun j => rfl⟩
  | cons a rest ih =>
    intro s h m rlrest hmin hring hnd hlive hple hent hinj
    cases a with
    | none =>
      have hunf : FibonacciHeap.rebuild_roots s h (none :: rest) =
          FibonacciHeap.rebuild_roots s h rest := rfl
      rw [hunf]
      have hent1 : ∀ (i e : Nat), rest[i]? = some (some e) → e < s.length ∧
          parF s e = none ∧ e ∉ m :: rlrest := by
        intro i e hie
        exact hent (i + 1) e (by rw [List.getElem?_cons_succ]; exact hie)
      have hinj1 : ∀ (i j e : Nat), rest[i]? = some (some e) → rest[j]? = some (some e) →
          i = j := by
        intro i j e hie hje
        have := hinj (i + 1) (j + 1) e (by rw [List.getElem?_cons_succ]; exact hie)
          (by rw [List.getElem?_cons_succ]; exact hje)
        omega
      obtain ⟨m', rl', hc⟩ := ih s h m rlrest hmin hring hnd hlive hple hent1 hinj1
      refine ⟨m', rl', hc.1, hc.2.1, hc.2.2.1, hc.2.2.2.1, ?_, hc.2.2.2.2.2.1,
        hc.2.2.2.2.2.2.1, hc.2.2.2.2.2.2.2.1, hc.2.2.2.2.2.2.2.2.1, hc.2.2.2.2.2.2.2.2.2⟩
      intro e he
      rcases hc.2.2.2.2.1 e he with h1 | h1
      · exact Or.inl h1
      · obtain ⟨i, hi⟩ := h1
        exact Or.inr ⟨i + 1, by rw [List.getElem?_cons_succ]; exact hi⟩
    | some e =>
      obtain ⟨hel, hep, henotin⟩ := hent 0 e (by rw [List.getElem?_cons_zero])
      have hIval : FibonacciHeap.insert_to_root_list s h e =
          (FibonacciHeap.doublylinkedlist_insert s h._min e, h) := by
        unfold FibonacciHeap.insert_to_root_list
        rw [show (getN s e).parent = none from hep]
        rw [if_neg (by simp)]
        rw [hmin]
      have hring2 : IsRing (FibonacciHeap.doublylinkedlist_insert s (some m) e)
          (m :: e :: rlrest) :=
        ring_insert s m e rlrest hring hnd henotin hlive hel
      have hnd2 : (m :: e :: rlrest).Nodup := by
        rw [List.nodup_cons] at hnd ⊢
        refine ⟨?_, ?_⟩
        · intro hc
          rcases List.mem_cons.1 hc with rfl | hc2
          · exact henotin (List.mem_cons_self _ _)
          · exact hnd.1 hc2
        · rw [List.nodup_cons]
          exact ⟨fun hc => henotin (List.mem_cons_of_mem _ hc), hnd.2⟩
      have hlive2 : ∀ a, a ∈ m :: e :: rlrest →
          a < (FibonacciHeap.doublylinkedlist_insert s (some m) e).length := by
        intro a ha
        rw [length_dll]
        rcases List.mem_cons.1 ha with rfl | ha2
        · exact hlive a (List.mem_cons_self _ _)
        · rcases List.mem_cons.1 ha2 with rfl | ha3
          · exact hel
          · exact hlive a (List.mem_cons_of_mem _ ha3)
      have hent2 : ∀ (i a : Nat), rest[i]? = some (some a) →
          a < (FibonacciHeap.doublylinkedlist_insert s (some m) e).length ∧
          parF (FibonacciHeap.doublylinkedlist_insert s (some m) e) a = none ∧
          a ∉ m :: e :: rlrest := by
        intro i a hia
        obtain ⟨h1, h2, h3⟩ := hent (i + 1) a (by rw [List.getElem?_cons_succ]; exact hia)
        refine ⟨by rw [length_dll]; exact h1, by rw [parF_dll]; exact h2, ?_⟩
        intro hc
        rcases List.mem_cons.1 hc with rfl | hc2
        · exact h3 (List.mem_cons_self _ _)
        · rcases List.mem_cons.1 hc2 with rfl | hc3
          · have := hinj 0 (i + 1) a (by rw [List.getElem?_cons_zero])
              (by rw [List.getElem?_cons_succ]; exact hia)
            omega
          · exact h3 (List.mem_cons_of_mem _ hc3)
      have hinj2 : ∀ (i j a : Nat), rest[i]? = some (some a) → rest[j]? = some (some a) →
          i = j := by
        intro i j a hia hja
        have := hinj (i + 1) (j + 1) a (by rw [List.getElem?_cons_succ]; exact hia)
          (by rw [List.getElem?_cons_succ]; exact hja)
        omega
      by_cases hlt : Priority.lt (getN (FibonacciHeap.doublylinkedlist_insert s (some m) e) e).priority
          (getN (FibonacciHeap.doublylinkedlist_insert s (some m) e) m).priority = true
      · -- the new entry becomes the minimum; rotate the ring to start at e
        have hunf : FibonacciHeap.rebuild_roots s h (some e :: rest) =
            FibonacciHeap.rebuild_roots (FibonacciHeap.doublylinkedlist_insert s (some m) e)
              { h with _min := some e } rest := by
          unfold FibonacciHeap.rebuild_roots
          rw [hmin]
          dsimp only []
          rw [hIval, hmin]
          dsimp only []
          rw [if_pos hlt]
          cases rest with
          | nil => rfl
          | cons b r2 => cases b <;> simp only [FibonacciHeap.rebuild_roots]
        rw [hunf]
        have hring3 : IsRing (FibonacciHeap.doublylinkedlist_insert s (some m) e)
            (e :: (rlrest ++ [m])) := by
          have := ring_rotate _ m (e :: rlrest) hring2
          simpa using this
        have hnd3 : (e :: (rlrest ++ [m])).Nodup := by
          have h1 : (m :: e :: rlrest).Nodup := hnd2
          have h2 : ((e :: rlrest) ++ [m]).Nodup := by
            rw [List.nodup_append_comm]
            simpa using h1
          simpa using h2
        have hlive3 : ∀ a, a ∈ e :: (rlrest ++ [m]) →
            a < (FibonacciHeap.doublylinkedlist_insert s (some m) e).length := by
          intro a ha
          apply hlive2
          rcases List.mem_cons.1 ha with rfl | ha2
          · exact List.mem_cons_of_mem _ (List.mem_cons_self _ _)
          · rcases List.mem_append.1 ha2 with ha3 | ha3
            · exact List.mem_cons_of_mem _ (List.mem_cons_of_mem _ ha3)
            · rw [List.mem_singleton.1 ha3]
              exact List.mem_cons_self _ _
        have hltmem : Priority.lt (prioF s e) (prioF s m) = true := by
          have h1 : (getN (FibonacciHeap.doublylinkedlist_insert s (some m) e) e).priority
              = prioF s e := by
            show prioF _ _ = _
            rw [prioF_dll]
          have h2 : (getN (FibonacciHeap.doublylinkedlist_insert s (some m) e) m).priority
              = prioF s m := by
            show prioF _ _ = _
            rw [prioF_dll]
          rwa [h1, h2] at hlt
        have hple3 : ∀ a, a ∈ e :: (rlrest ++ [m]) →
            Priority.le (prioF (FibonacciHeap.doublylinkedlist_insert s (some m) e) e)
              (prioF (FibonacciHeap.doublylinkedlist_insert s (some m) e) a) = true := by
          intro a ha
          rw [prioF_dll, prioF_dll]
          rcases List.mem_cons.1 ha with rfl | ha2
          · exact Priority.le_refl _
          · have hlee : Priority.le (prioF s e) (prioF s m) = true := Priority.le_of_lt hltmem
            rcases List.mem_append.1 ha2 with ha3 | ha3
            · exact Priority.le_trans hlee
                (hple a (List.mem_cons_of_mem _ ha3))
            · rw [List.mem_singleton.1 ha3]
              exact hlee
        obtain ⟨m', rl', hc⟩ := ih (FibonacciHeap.doublylinkedlist_insert s (some m) e)
          { h with _min := some e } e (rlrest ++ [m]) rfl hring3 hnd3 hlive3 hple3
          (fun i a hia => hent2 i a hia |>.imp id (fun hh => hh.imp id (fun h3 hc =>
            h3 (by
              rcases List.mem_cons.1 hc with rfl | hc2
              · exact List.mem_cons_of_mem _ (List.mem_cons_self _ _)
              · rcases List.mem_append.1 hc2 with hc3 | hc3
                · exact List.mem_cons_of_mem _ (List.mem_cons_of_mem _ hc3)
                · rw [List.mem_singleton.1 hc3]
                  exact List.mem_cons_self _ _)))) hinj2
        refine ⟨m', rl', hc.1, hc.2.1, hc.2.2.1, hc.2.2.2.1, ?_, ?_,
          by rw [hc.2.2.2.2.2.2.1, length_dll],
          fun j => by rw [hc.2.2.2.2.2.2.2.1 j, prioF_dll],
          fun j => by rw [hc.2.2.2.2.2.2.2.2.1 j, degF_dll],
          fun j => by rw [hc.2.2.2.2.2.2.2.2.2 j, parF_dll]⟩
        · intro a ha
          rcases hc.2.2.2.2.1 a ha with h1 | h1
          · rcases List.mem_cons.1 h1 with rfl | h2
            · exact Or.inr ⟨0, by rw [List.getElem?_cons_zero]⟩
            · rcases List.mem_append.1 h2 with h3 | h3
              · exact Or.inl (List.mem_cons_of_mem _ h3)
              · rw [List.mem_singleton.1 h3]
                exact Or.inl (List.mem_cons_self _ _)
          · obtain ⟨i, hi⟩ := h1
            exact Or.inr ⟨i + 1, by rw [List.getElem?_cons_succ]; exact hi⟩
        · intro a ha
          have := hc.2.2.2.2.2.1 a ha
          rwa [prioF_dll, prioF_dll] at this
      · -- the old minimum survives
        have hunf : FibonacciHeap.rebuild_roots s h (some e :: rest) =
            FibonacciHeap.rebuild_roots (FibonacciHeap.doublylinkedlist_insert s (some m) e)
              h rest := by
          unfold FibonacciHeap.rebuild_roots
          rw [hmin]
          dsimp only []
          rw [hIval, hmin]
          dsimp only []
          rw [if_neg hlt]
          cases rest with
          | nil => rfl
          | cons b r2 =>
            cases b
            · simp only [FibonacciHeap.rebuild_roots]
            · simp only [FibonacciHeap.rebuild_roots]
              rw [hmin]
        rw [hunf]
        have hnotlt : Priority.lt (prioF s e) (prioF s m) = false := by
          have h1 : (getN (FibonacciHeap.doublylinkedlist_insert s (some m) e) e).priority
              = prioF s e := by
            show prioF _ _ = _
            rw [prioF_dll]
          have h2 : (getN (FibonacciHeap.doublylinkedlist_insert s (some m) e) m).priority
              = prioF s m := by
            show prioF _ _ = _
            rw [prioF_dll]
          rw [h1, h2] at hlt
          exact Bool.not_eq_true _ ▸ Bool.eq_false_iff.2 hlt
        have hple3 : ∀ a, a ∈ m :: e :: rlrest →
            Priority.le (prioF (FibonacciHeap.doublylinkedlist_insert s (some m) e) m)
              (prioF (FibonacciHeap.doublylinkedlist_insert s (some m) e) a) = true := by
          intro a ha
          rw [prioF_dll, prioF_dll]
          rcases List.mem_cons.1 ha with rfl | ha2
          · exact Priority.le_refl _
          · rcases List.mem_cons.1 ha2 with rfl | ha3
            · exact Priority.le_of_not_lt hnotlt
            · exact hple a (List.mem_cons_of_mem _ ha3)
        obtain ⟨m', rl', hc⟩ := ih (FibonacciHeap.doublylinkedlist_insert s (some m) e)
          h m (e :: rlrest) hmin hring2 hnd2
          (fun a ha => hlive2 a ha) hple3 hent2 hinj2
        refine ⟨m', rl', hc.1, hc.2.1, hc.2.2.1, hc.2.2.2.1, ?_, ?_,
          by rw [hc.2.2.2.2.2.2.1, length_dll],
          fun j => by rw [hc.2.2.2.2.2.2.2.1 j, prioF_dll],
          fun j => by rw [hc.2.2.2.2.2.2.2.2.1 j, degF_dll],
          fun j => by rw [hc.2.2.2.2.2.2.2.2.2 j, parF_dll]⟩
        · intro a ha
          rcases hc.2.2.2.2.1 a ha with h1 | h1
          · rcases List.mem_cons.1 h1 with rfl | h2
            · exact Or.inl (List.mem_cons_self _ _)
            · rcases List.mem_cons.1 h2 with rfl | h3
              · exact Or.inr ⟨0, by rw [List.getElem?_cons_zero]⟩
              · exact Or.inl (List.mem_cons_of_mem _ h3)
          · obtain ⟨i, hi⟩ := h1
            exact Or.inr ⟨i + 1, by rw [List.getElem?_cons_succ]; exact hi⟩
        · intro a ha
          have := hc.2.2.2.2.2.1 a ha
          rwa [prioF_dll, prioF_dll] at this


theorem rebuild_ring_none : ∀ (arr : List (Option Nat)) (s : Mem) (h : Heap),
    h._min = none →
    SelfLoops s →
    (∀ (i e : Nat), arr[i]? = some (some e) → e < s.length ∧ parF s e = none) →
    (∀ (i j e : Nat), arr[i]? = some (some e) → arr[j]? = some (some e) → i = j) →
    (∃ e, inArr arr e) →
    ∃ m' rl', (FibonacciHeap.rebuild_roots s h arr).2._min = some m' ∧
      IsRing (FibonacciHeap.rebuild_roots s h arr).1 rl' ∧ rl'.Nodup ∧
      m' ∈ rl' ∧
      (∀ e, e ∈ rl' → inArr arr e) ∧
      (∀ e, e ∈ rl' → Priority.le (prioF s m') (prioF s e) = true) ∧
      (FibonacciHeap.rebuild_roots s h arr).1.length = s.length ∧
      (∀ j, prioF (FibonacciHeap.rebuild_roots s h arr).1 j = prioF s j) ∧
      (∀ j, degF (FibonacciHeap.rebuild_roots s h arr).1 j = degF s j) ∧
      (∀ j, parF (FibonacciHeap.rebuild_roots s h arr).1 j = parF s j) := by
  intro arr
  induction arr with
  | nil =>
    intro s h hmin hsl hent hinj hne
    obtain ⟨e, i, hi⟩ := hne
    rw [List.getElem?_nil] at hi
    cases hi
  | cons a rest ih =>
    intro s h hmin hsl hent hinj hne
    cases a with
    | none =>
      have hunf : FibonacciHeap.rebuild_roots s h (none :: rest) =
          FibonacciHeap.rebuild_roots s h rest := rfl
      rw [hunf]
      have hent1 : ∀ (i e : Nat), rest[i]? = some (some e) →
          e < s.length ∧ parF s e = none := by
        intro i e hie
        exact hent (i + 1) e (by rw [List.getElem?_cons_succ]; exact hie)
      have hinj1 : ∀ (i j e : Nat), rest[i]? = some (some e) → rest[j]? = some (some e) →
          i = j := by
        intro i j e hie hje
        have := hinj (i + 1) (j + 1) e (by rw [List.getElem?_cons_succ]; exact hie)
          (by rw [List.getElem?_cons_succ]; exact hje)
        omega
      have hne1 : ∃ e, inArr rest e := by
        obtain ⟨e, i, hi⟩ := hne
        cases i with
        | zero =>
          rw [List.getElem?_cons_zero] at hi
          cases hi
        | succ i2 =>
          rw [List.getElem?_cons_succ] at hi
          exact ⟨e, i2, hi⟩
      obtain ⟨m', rl', hc⟩ := ih s h hmin hsl hent1 hinj1 hne1
      refine ⟨m', rl', hc.1, hc.2.1, hc.2.2.1, hc.2.2.2.1, ?_, hc.2.2.2.2.2.1,
        hc.2.2.2.2.2.2.1, hc.2.2.2.2.2.2.2.1, hc.2.2.2.2.2.2.2.2.1, hc.2.2.2.2.2.2.2.2.2⟩
      intro e he
      obtain ⟨i, hi⟩ := hc.2.2.2.2.1 e he
      exact ⟨i + 1, by rw [List.getElem?_cons_succ]; exact hi⟩
    | some e0 =>
      obtain ⟨he0l, he0p⟩ := hent 0 e0 (by rw [List.getElem?_cons_zero])
      have hunf : FibonacciHeap.rebuild_roots s h (some e0 :: rest) =
          FibonacciHeap.rebuild_roots s { h with _min := some e0 } rest := by
        simp only [FibonacciHeap.rebuild_roots, hmin]
      rw [hunf]
      have hring0 : IsRing s [e0] := by
        refine ⟨by simp, ?_⟩
        intro i hi
        have hi0 : i = 0 := by
          simp at hi
          omega
        subst hi0
        have hsl0 := hsl e0 he0l he0p
        have e0g : ringGet [e0] 0 = e0 := by simp [ringGet]
        have e1g : ringGet [e0] 1 = e0 := by simp [ringGet]
        rw [e0g, e1g]
        exact ⟨hsl0.1, hsl0.2⟩
      have hent2 : ∀ (i a : Nat), rest[i]? = some (some a) → a < s.length ∧
          parF s a = none ∧ a ∉ [e0] := by
        intro i a hia
        obtain ⟨h1, h2⟩ := hent (i + 1) a (by rw [List.getElem?_cons_succ]; exact hia)
        refine ⟨h1, h2, ?_⟩
        intro hc
        rw [List.mem_singleton.1 hc] at hia
        have := hinj 0 (i + 1) e0 (by rw [List.getElem?_cons_zero])
          (by rw [List.getElem?_cons_succ]; exact hia)
        omega
      have hinj2 : ∀ (i j a : Nat), rest[i]? = some (some a) → rest[j]? = some (some a) →
          i = j := by
        intro i j a hia hja
        have := hinj (i + 1) (j + 1) a (by rw [List.getElem?_cons_succ]; exact hia)
          (by rw [List.getElem?_cons_succ]; exact hja)
        omega
      obtain ⟨m', rl', hc⟩ := rebuild_ring rest s { h with _min := some e0 } e0 [] rfl
        hring0 (by simp) (fun a ha => by rw [List.mem_singleton.1 ha]; exact he0l)
        (fun a ha => by rw [List.mem_singleton.1 ha]; exact Priority.le_refl _)
        hent2 hinj2
      refine ⟨m', rl', hc.1, hc.2.1, hc.2.2.1, hc.2.2.2.1, ?_, hc.2.2.2.2.2.1,
        hc.2.2.2.2.2.2.1, hc.2.2.2.2.2.2.2.1, hc.2.2.2.2.2.2.2.2.1, hc.2.2.2.2.2.2.2.2.2⟩
      intro e he
      rcases hc.2.2.2.2.1 e he with h1 | h1
      · rw [List.mem_singleton.1 h1]
        exact ⟨0, by rw [List.getElem?_cons_zero]⟩
      · obtain ⟨i, hi⟩ := h1
        exact ⟨i + 1, by rw [List.getElem?_cons_succ]; exact hi⟩

/-- C8: whenever `_consolidate` runs on a state whose root list is a
well-formed ring of distinct, live, parentless roots headed by `_min` (the
state from which `extract_min` invokes it) with coherent child/sibling
pointers, and returns normally, the new root list is a ring of trees with
pairwise distinct degrees, heap order is preserved (each equal-degree link
made the node of smaller-or-equal priority the parent), and `_min` points to
a root of smallest priority among the new roots. -/
theorem consolidate_distinct_degrees (s : Mem) (h : Heap) (m : Nat) (lrest : List Nat)
    {s' : Mem} {h' : Heap}
    (hmin : h._min = some m)
    (hring : IsRing s (m :: lrest)) (hnd : (m :: lrest).Nodup)
    (hlive : ∀ e, e ∈ m :: lrest → e < s.length ∧ parF s e = none)
    (hwf : WFptr s) (hcp : childParent s) (hsp : sibParR s)
    (hsl : ∀ j, j < s.length → parF s j = none → j ∉ m :: lrest →
      rightF s j = j ∧ leftF s j = j)
    (ho : HeapOrder s)
    (hcons : FibonacciHeap.consolidate s h = some (s', h')) :
    ∃ m' rl, h'._min = some m' ∧ IsRing s' rl ∧ m' ∈ rl ∧
      (∀ e, e ∈ rl → parF s' e = none) ∧
      (∀ e1, e1 ∈ rl → ∀ e2, e2 ∈ rl → e1 ≠ e2 → degF s' e1 ≠ degF s' e2) ∧
      (∀ e, e ∈ rl → Priority.le (prioF s' m') (prioF s' e) = true) ∧
      HeapOrder s' := by
  have hOrd := order_consolidate s h hcons ho
  unfold FibonacciHeap.consolidate at hcons
  split at hcons
  · cases hcons
  · dsimp only [] at hcons
    rcases hd : FibonacciHeap.drain_roots (s.length + 1) s h [] with _ | ⟨s1, h1, q⟩ <;>
      rw [hd] at hcons
    · cases hcons
    · dsimp only [] at hcons
      obtain ⟨hq, hmn1, hlen1, hprio1, hobj1, hpar1, hdeg1, hchi1, hfr1, hmem1⟩ :=
        drain_ring (m :: lrest) (s.length + 1) s h [] hmin (fun _ => hring) hnd hlive hd
      have hq2 : q = m :: lrest := by simpa using hq
      subst hq2
      have hli1 : LinkInv s1 := by
        refine ⟨?_, ?_, ?_, ?_⟩
        · intro i hi
          rw [hlen1] at hi
          refine ⟨?_, ?_, ?_, ?_⟩
          · rw [hlen1]
            by_cases him : i ∈ m :: lrest
            · rw [(hmem1 i him).2]
              exact (hlive i him).1
            · rw [(hfr1 i him).2]
              exact (hwf i hi).1
          · rw [hlen1]
            by_cases him : i ∈ m :: lrest
            · rw [(hmem1 i him).1]
              exact (hlive i him).1
            · rw [(hfr1 i him).1]
              exact (hwf i hi).2.1
          · intro p hp
            rw [hlen1]
            rw [hpar1 i] at hp
            exact (hwf i hi).2.2.1 p hp
          · intro c hc
            rw [hlen1]
            rw [hchi1 i] at hc
            exact (hwf i hi).2.2.2 c hc
        · intro j hj hpj
          rw [hlen1] at hj
          by_cases hjm : j ∈ m :: lrest
          · exact hmem1 j hjm
          · rw [hpar1 j] at hpj
            obtain ⟨hr, hl2⟩ := hsl j hj hpj hjm
            rw [(hfr1 j hjm).1, (hfr1 j hjm).2]
            exact ⟨hr, hl2⟩
        · intro i hi c hc
          rw [hlen1] at hi
          rw [hchi1 i] at hc
          rw [hpar1 c]
          exact hcp i hi c hc
        · intro i hi p hp
          rw [hlen1] at hi
          rw [hpar1 i] at hp
          have him : i ∉ m :: lrest := by
            intro hc
            rw [(hlive i hc).2] at hp
            cases hp
          rw [(hfr1 i him).1, hpar1]
          exact hsp i hi p hp
      rcases hl : FibonacciHeap.link_all (m :: lrest) s1
          (List.replicate (FibonacciHeap.slots h._size) none) with _ | ⟨s2, arr2⟩ <;>
        rw [hl] at hcons
      · cases hcons
      · dsimp only [] at hcons
        injection hcons with hc2
        have hqlive : ∀ e, e ∈ m :: lrest → e < s1.length ∧ parF s1 e = none := by
          intro e he
          rw [hlen1, hpar1]
          exact hlive e he
        have hrepl : ∀ (i e : Nat),
            (List.replicate (FibonacciHeap.slots h._size) (none : Option Nat))[i]? =
              some (some e) →
            degF s1 e = i ∧ e < s1.length ∧ parF s1 e = none ∧ e ∈ ([] : List Nat) := by
          intro i e hie
          rw [List.getElem?_replicate] at hie
          split at hie
          · cases hie
          · cases hie
        have hreplinj : ∀ (i j e : Nat),
            (List.replicate (FibonacciHeap.slots h._size) (none : Option Nat))[i]? =
              some (some e) →
            (List.replicate (FibonacciHeap.slots h._size) (none : Option Nat))[j]? =
              some (some e) → i = j := by
          intro i j e hie _
          rw [List.getElem?_replicate] at hie
          split at hie
          · cases hie
          · cases hie
        obtain ⟨e1c, e2c, e3c, e4c, e5c, e6c, e7c⟩ :=
          link_all_inv (m :: lrest) s1 (List.replicate (FibonacciHeap.slots h._size) none) []
            hl (by simpa using hnd) hqlive hli1 hrepl hreplinj
        have hne2 : ∃ e, inArr arr2 e := e6c (Or.inr (by simp))
        obtain ⟨m', rl', r1, r2, r3, r4, r5, r6, r7, r8, r9, r10⟩ :=
          rebuild_ring_none arr2 s2 h1 hmn1 e7c.2.1
            (fun i e hie => ⟨(e1c i e hie).2.1, (e1c i e hie).2.2⟩) e2c hne2
        have hs' : (FibonacciHeap.rebuild_roots s2 h1 arr2).1 = s' := congrArg Prod.fst hc2
        have hh' : (FibonacciHeap.rebuild_roots s2 h1 arr2).2 = h' := congrArg Prod.snd hc2
        rw [hs'] at r2 r7 r8 r9 r10
        rw [hh'] at r1
        refine ⟨m', rl', r1, r2, r4, ?_, ?_, ?_, hOrd⟩
        · intro e he
          obtain ⟨i, hi⟩ := r5 e he
          rw [r10]
          exact (e1c i e hi).2.2
        · intro e1 he1 e2 he2 hne hdeq
          obtain ⟨i1, hi1⟩ := r5 e1 he1
          obtain ⟨i2, hi2⟩ := r5 e2 he2
          rw [r9 e1, r9 e2] at hdeq
          rw [(e1c i1 e1 hi1).1, (e1c i2 e2 hi2).1] at hdeq
          subst hdeq
          rw [hi1] at hi2
          cases hi2
          exact hne rfl
        · intro e he
          rw [r8, r8]
          exact r6 e he

/-- A two-root heap used to witness the consolidate postcondition. -/
def c8s : Mem :=
  [⟨10, .fin 1, 1, 1, none, none, 0, false⟩,
   ⟨11, .fin 2, 0, 0, none, none, 0, false⟩]

/-- Heap record of the two-root witness heap. -/
def c8h : Heap := ⟨2, some 0⟩

/-- Memory after consolidating the two-root witness heap: node 1 linked
under node 0. -/
def c8s2 : Mem :=
  [⟨10, .fin 1, 0, 0, none, some 1, 1, false⟩,
   ⟨11, .fin 2, 1, 1, some 0, none, 0, false⟩]

theorem consolidate_distinct_degrees_witness :
    ∃ m' rl, (⟨2, some 0⟩ : Heap)._min = some m' ∧ IsRing c8s2 rl ∧ m' ∈ rl ∧
      (∀ e, e ∈ rl → parF c8s2 e = none) ∧
      (∀ e1, e1 ∈ rl → ∀ e2, e2 ∈ rl → e1 ≠ e2 → degF c8s2 e1 ≠ degF c8s2 e2) ∧
      (∀ e, e ∈ rl → Priority.le (prioF c8s2 m') (prioF c8s2 e) = true) ∧
      HeapOrder c8s2 :=
  consolidate_distinct_degrees c8s c8h 0 [1] rfl
    (by constructor
        · decide
        · decide)
    (by decide)
    (by decide)
    (by intro i hi
        have hi2 : i < 2 := hi
        interval_cases i
        · exact ⟨by decide, by decide, fun q hq => Option.noConfusion hq,
            fun c hc => Option.noConfusion hc⟩
        · exact ⟨by decide, by decide, fun q hq => Option.noConfusion hq,
            fun c hc => Option.noConfusion hc⟩)
    (by intro i hi c hc
        have hi2 : i < 2 := hi
        interval_cases i <;> exact Option.noConfusion hc)
    (by intro i hi p hp
        have hi2 : i < 2 := hi
        interval_cases i <;> exact Option.noConfusion hp)
    (by intro j hj hp hnotin
        have hj2 : j < 2 := hj
        interval_cases j
        · exact absurd (by decide : (0 : Nat) ∈ [0, 1]) hnotin
        · exact absurd (by decide : (1 : Nat) ∈ [0, 1]) hnotin)
    (by intro j hj q hq
        have hj2 : j < 2 := hj
        interval_cases j <;> exact Option.noConfusion hq)
    (by decide)
